import Mathlib

/-!
# Shared-memory event transport (shamon `shmbuf/buffer.c`)

A shallow embedding of the buffer core of `src/shmbuf/buffer.c` together with
the stream-level readiness test of `src/streams/stream-drregex.c`.

Conventions of the embedding

* `size_t` / `uint64_t` values are natural numbers; where the C arithmetic can
  wrap the result is reduced modulo `2^64` explicitly.
* A failed `assert` (or `abort()`, or an access outside the mapped bytes) is
  the result `none`; every function that contains one returns an `Option`.
* Memory is a list of bytes.  A pointer into the slot area of the main segment
  is the byte offset from `shmbuffer->data`.  A `struct aux_buffer *` is the
  position of the segment in the list of aux segments of the buffer.
-/

namespace Shamon

/-! ## Constants -/

/-- The number of remembered dropped ranges (`#define DROPPED_RANGES_NUM 5`). -/
def DROPPED_RANGES_NUM : Nat := 5

/-- The page size assumed by `compute_shm_size` (`#define PAGE_SIZE 4096`). -/
def PAGE_SIZE : Nat := 4096

/-- The modulus of `size_t` and `uint64_t` arithmetic. -/
def WORD : Nat := 2 ^ 64

/-- The value of `~(0LL)` stored into a 64-bit field, that is `UINT64_MAX`. -/
def UINT64_MAX : Nat := 2 ^ 64 - 1

/-- The value of `sizeof(struct aux_buffer)` with 8-byte `size_t` and
`uint64_t`: five 8-byte words at bytes 0 to 39, the `bool` `reusable` at byte
40, and tail padding up to 48, the next multiple of the alignment 8.  The
flexible array member `data[]` starts inside that padding, see
`offsetof_aux_buffer_data`. -/
def sizeof_aux_buffer : Nat := 48

/-- The effect of `memcpy(mem + off, src, n)` on the bytes `mem`: it is defined
only when the `n` bytes lie inside `mem` and `src` has `n` readable bytes. -/
def memcpy (mem : List Nat) (off : Nat) (src : List Nat) (n : Nat) : Option (List Nat) :=
  if off + n ≤ mem.length ∧ n ≤ src.length then
    some (mem.take off ++ src.take n ++ mem.drop (off + n))
  else none

/-- The `n` bytes of `mem` starting at `off` (the source operand of a `memcpy`
out of `mem`), defined only when they lie inside `mem`. -/
def memread (mem : List Nat) (off n : Nat) : Option (List Nat) :=
  if off + n ≤ mem.length then some ((mem.drop off).take n) else none

/-! ## The SPSC ring buffer -/

/-- Modelled from the spec: the `shm_spsc_ringbuf` of `spsc_ringbuf.h`, which is
not among the sources.  It holds the number of physical slots handed to `init`
(one of them is the dummy slot) and the head and tail indices. -/
structure shm_spsc_ringbuf where
  capacity : Nat
  head : Nat
  tail : Nat
deriving DecidableEq, Repr

/-- Modelled from the spec: `shm_spsc_ringbuf_init` of `spsc_ringbuf.h` (absent
from the sources) zeroes the indices.  Its argument is taken to be the number
of physical slots, the dummy included: `buffer.c` passes `capacity + 1` with
the comments "the ringbuffer has one unusable dummy element, so increase the
capacity by one" and "ringbuf has one dummy element and we allocated the space
for it", and the spec's data model gives occupancy and fullness modulo
`capacity + 1`. -/
def shm_spsc_ringbuf_init (capacity : Nat) : shm_spsc_ringbuf :=
  { capacity := capacity, head := 0, tail := 0 }

/-- Modelled from the spec: `shm_spsc_ringbuf_size` of `spsc_ringbuf.h` (absent
from the sources); the occupancy is `(head - tail)` modulo the number of
slots. -/
def shm_spsc_ringbuf_size (r : shm_spsc_ringbuf) : Nat :=
  (r.head + r.capacity - r.tail) % r.capacity

/-- Modelled from the spec: `shm_spsc_ringbuf_write_off_nowrap` of
`spsc_ringbuf.h` (absent from the sources) returns the head index and the
length `n` of the contiguous writable run that starts there and does not cross
the physical end; `n = 0` exactly when `(head + 1) mod slots = tail`. -/
def shm_spsc_ringbuf_write_off_nowrap (r : shm_spsc_ringbuf) : Nat × Nat :=
  (r.head,
    if r.head < r.tail then r.tail - r.head - 1
    else if r.tail = 0 then r.capacity - r.head - 1
    else r.capacity - r.head)

/-- Modelled from the spec: `shm_spsc_ringbuf_write_finish` of `spsc_ringbuf.h`
(absent from the sources) publishes `k` slots by advancing the head. -/
def shm_spsc_ringbuf_write_finish (r : shm_spsc_ringbuf) (k : Nat) : shm_spsc_ringbuf :=
  { r with head := (r.head + k) % r.capacity }

/-- Modelled from the spec: `shm_spsc_ringbuf_read_off_nowrap` of
`spsc_ringbuf.h` (absent from the sources) returns the tail index and the
length `n` of the contiguous readable run that starts there; `n = 0` exactly
when `head = tail`. -/
def shm_spsc_ringbuf_read_off_nowrap (r : shm_spsc_ringbuf) : Nat × Nat :=
  (r.tail, if r.tail ≤ r.head then r.head - r.tail else r.capacity - r.tail)

/-- Modelled from the spec: `shm_spsc_ringbuf_consume` of `spsc_ringbuf.h`
(absent from the sources) releases `k` slots by advancing the tail. -/
def shm_spsc_ringbuf_consume (r : shm_spsc_ringbuf) (k : Nat) : shm_spsc_ringbuf :=
  { r with tail := (r.tail + k) % r.capacity }

/-! ## The shared main segment and the process-local state -/

/-- The `struct dropped_range`: a range of auto-dropped event ids. -/
structure dropped_range where
  begin_id : Nat
  end_id : Nat
deriving DecidableEq, Repr

/-- The `struct buffer_info` at the start of the main segment. -/
structure buffer_info where
  ringbuf : shm_spsc_ringbuf
  allocated_size : Nat
  capacity : Nat
  elem_size : Nat
  last_processed_id : Nat
  dropped_ranges : List dropped_range
  dropped_ranges_next : Nat
  dropped_ranges_lock : Bool
  subbuffers_no : Nat
  destroyed : Bool
  monitor_attached : Bool
deriving DecidableEq, Repr

/-- The `struct shmbuffer`: the header followed by the slot bytes. -/
structure shmbuffer where
  info : buffer_info
  data : List Nat
deriving DecidableEq, Repr

/-- The `struct aux_buffer`, header and data area.  The field `generation` is
not part of the C struct: it counts how often the reset block of
`writer_get_aux_buffer` (lines 979-982) ran on this segment, and no function
reads it. -/
structure aux_buffer where
  size : Nat
  head : Nat
  idx : Nat
  first_event_id : Nat
  last_event_id : Nat
  reusable : Bool
  data : List Nat
  generation : Nat
deriving DecidableEq, Repr

/-- The `struct buffer`.  `aux_shm` holds the aux segments (`/aux.N`) of the
shared-memory namespace in the order of their creation; a producer and a
consumer of one buffer see the same `aux_shm`.  A `struct aux_buffer *` of the
process is the position in `aux_shm` of the segment it maps, so `aux_buffers`,
`aux_buffers_age` and `cur_aux_buff` hold such positions.  The fields
`control`, `fd`, `key` and `mode` play no role in the operations embedded
here. -/
structure buffer where
  shmbuffer : shmbuffer
  aux_shm : List aux_buffer
  cur_aux_buff : Option Nat
  aux_buffers : List Nat
  aux_buf_idx : Nat
  aux_buffers_age : List Nat
  last_subbufer_no : Nat
deriving DecidableEq, Repr

/-- The value of `_ringbuf(buff)`. -/
def ringbuf_of (buff : buffer) : shm_spsc_ringbuf := buff.shmbuffer.info.ringbuf

/-- Store a new ring state through `_ringbuf(buff)`. -/
def set_ringbuf (buff : buffer) (r : shm_spsc_ringbuf) : buffer :=
  { buff with shmbuffer := { buff.shmbuffer with info := { buff.shmbuffer.info with ringbuf := r } } }

/-- The function `compute_shm_size`; `sizeof_shmbuffer` stands for
`sizeof(struct shmbuffer)`, which depends on declarations outside the sources.
The warning it prints is not modelled. -/
def compute_shm_size (sizeof_shmbuffer elem_size capacity : Nat) : Nat :=
  let size := (elem_size * capacity + sizeof_shmbuffer) % WORD
  let roundup := size % PAGE_SIZE
  (size + roundup) % WORD

/-- The `struct buffer` that `initialize_shared_buffer` builds once its
assertions have passed and `shm_open`, `ftruncate` and `mmap` have succeeded.
The fresh segment is zero-filled; the `memset` of the header keeps it so, and
the debug-build `memset` paints the first `capacity * elem_size` slot bytes with
`0xff`. -/
def fresh_shared_buffer (sizeof_shmbuffer elem_size capacity : Nat) : buffer :=
  let memsize := compute_shm_size sizeof_shmbuffer elem_size ((capacity + 1) % WORD)
  { shmbuffer :=
      { info :=
          { ringbuf := shm_spsc_ringbuf_init ((capacity + 1) % WORD)
            allocated_size := memsize
            capacity := capacity
            elem_size := elem_size
            last_processed_id := 0
            dropped_ranges := List.replicate DROPPED_RANGES_NUM { begin_id := 0, end_id := 0 }
            dropped_ranges_next := 0
            dropped_ranges_lock := false
            subbuffers_no := 0
            destroyed := false
            monitor_attached := false }
        data := List.replicate (capacity * elem_size) 255
          ++ List.replicate (memsize - sizeof_shmbuffer - capacity * elem_size) 0 }
    aux_shm := []
    cur_aux_buff := none
    aux_buffers := []
    aux_buf_idx := 0
    aux_buffers_age := []
    last_subbufer_no := 0 }

/-- The function `initialize_shared_buffer` on the path where `shm_open`,
`ftruncate` and `mmap` succeed: its two assertions, then the buffer it builds.
The debug-build assertion `BUFF_END - BUFF_START == (capacity + 1) * elem_size`
compares a product with itself and is left out. -/
def initialize_shared_buffer (sizeof_shmbuffer elem_size capacity : Nat) : Option buffer :=
  if ¬ (elem_size > 0) then none
  else if ¬ (capacity > 0) then none
  else some (fresh_shared_buffer sizeof_shmbuffer elem_size capacity)

/-- The function `buffer_is_destroyed`. -/
def buffer_is_destroyed (buff : buffer) : Bool := buff.shmbuffer.info.destroyed

/-- The function `buffer_is_ready`. -/
def buffer_is_ready (buff : buffer) : Bool := !buffer_is_destroyed buff

/-- The function `buffer_capacity`. -/
def buffer_capacity (buff : buffer) : Nat := buff.shmbuffer.info.capacity

/-- The function `buffer_size`. -/
def buffer_size (buff : buffer) : Nat := shm_spsc_ringbuf_size (ringbuf_of buff)

/-- The function `buffer_elem_size`. -/
def buffer_elem_size (buff : buffer) : Nat := buff.shmbuffer.info.elem_size

/-- The function `drregex_is_ready` of `stream-drregex.c`, on the buffer of the
stream. -/
def drregex_is_ready (b : buffer) : Bool := buffer_is_ready b || decide (buffer_size b > 0)

/-- The store `destroyed = 1` with which `destroy_shared_buffer` and
`destroy_shared_sub_buffer` begin; it is their only effect on the shared main
segment. -/
def store_destroyed (buff : buffer) : buffer :=
  { buff with shmbuffer := { buff.shmbuffer with info := { buff.shmbuffer.info with destroyed := true } } }

/-- The function `buffer_set_last_processed_id`. -/
def buffer_set_last_processed_id (buff : buffer) (id : Nat) : Option buffer :=
  if ¬ (buff.shmbuffer.info.last_processed_id ≤ id) then none
  else
    some { buff with
      shmbuffer := { buff.shmbuffer with info := { buff.shmbuffer.info with last_processed_id := id } } }

/-- The byte offset of `BUFF_END(b)` from `BUFF_START(b)`. -/
def BUFF_END (b : shmbuffer) : Nat :=
  (b.info.elem_size * ((b.info.capacity + 1) % WORD)) % WORD

/-- The function `buffer_read_pointer`: the pointer (a byte offset into the
slot area, `none` for `NULL`) and the value stored through `size`. -/
def buffer_read_pointer (buff : buffer) : Option Nat × Nat :=
  let info := buff.shmbuffer.info
  let (tail, size) := shm_spsc_ringbuf_read_off_nowrap info.ringbuf
  if size = 0 then (none, size) else (some (tail * info.elem_size), size)

/-- The function `buffer_start_push`: `none` when an assertion fails, otherwise
the returned pointer (`none` for `NULL`). -/
def buffer_start_push (buff : buffer) : Option (Option Nat) :=
  let info := buff.shmbuffer.info
  if buffer_is_destroyed buff = true then none
  else
    let (off, n) := shm_spsc_ringbuf_write_off_nowrap (ringbuf_of buff)
    if n = 0 then some none
    else
      let mem := off * info.elem_size
      if ¬ (mem < BUFF_END buff.shmbuffer) then none
      else some (some mem)

/-- The function `buffer_finish_push`. -/
def buffer_finish_push (buff : buffer) : Option buffer :=
  if buffer_is_ready buff = false then none
  else some (set_ringbuf buff (shm_spsc_ringbuf_write_finish (ringbuf_of buff) 1))

/-- The function `buffer_push`. -/
def buffer_push (buff : buffer) (elem : List Nat) (size : Nat) : Option (buffer × Bool) :=
  if buffer_is_ready buff = false then none
  else if ¬ (buff.shmbuffer.info.elem_size ≥ size) then none
  else
    match buffer_start_push buff with
    | none => none
    | some none => some (buff, false)
    | some (some dst) =>
      match memcpy buff.shmbuffer.data dst elem size with
      | none => none
      | some data =>
        match buffer_finish_push { buff with shmbuffer := { buff.shmbuffer with data := data } } with
        | none => none
        | some buff1 => some (buff1, true)

/-- The function `buffer_pop`: the second component is `some bytes` when it
returns `true`, `bytes` being what it copied into `dst`, and `none` when it
returns `false` and leaves `dst` alone. -/
def buffer_pop (buff : buffer) : Option (buffer × Option (List Nat)) :=
  if buffer_is_ready buff = false then none
  else
    match buffer_read_pointer buff with
    | (some pos, _) =>
      match memread buff.shmbuffer.data pos buff.shmbuffer.info.elem_size with
      | none => none
      | some bytes => some (set_ringbuf buff (shm_spsc_ringbuf_consume (ringbuf_of buff) 1), some bytes)
    | (none, _) => some (buff, none)

/-! ## The dropped-range registry -/

/-- Apply `f` to the `struct buffer_info` in the main segment. -/
def map_info (buff : buffer) (f : buffer_info → buffer_info) : buffer :=
  { buff with shmbuffer := { buff.shmbuffer with info := f buff.shmbuffer.info } }

/-- The C11 `atomic_compare_exchange_weak(obj, &expected, desired)` on a
`bool`, without spurious failures: the returned flag and the new value of
`*obj`. -/
def atomic_compare_exchange (obj expected desired : Bool) : Bool × Bool :=
  if obj = expected then (true, desired) else (false, obj)

/-- The loop of `drop_ranges_lock` on the value of the lock bit: each round
sets `unlocked = false` and runs the compare-exchange, and the loop goes on
while the compare-exchange succeeds.  The result is the lock bit on exit. -/
def drop_ranges_lock_loop (l : Bool) : Bool :=
  match h : atomic_compare_exchange l false true with
  | (true, l1) => drop_ranges_lock_loop l1
  | (false, l1) => l1
termination_by (if l = true then 0 else 1)
decreasing_by
  cases l <;> simp [atomic_compare_exchange] at h
  simp [h]

/-- The function `drop_ranges_lock`. -/
def drop_ranges_lock (buff : buffer) : buffer :=
  map_info buff (fun i => { i with dropped_ranges_lock := drop_ranges_lock_loop i.dropped_ranges_lock })

/-- The function `drop_ranges_unlock`. -/
def drop_ranges_unlock (buff : buffer) : buffer :=
  map_info buff (fun i => { i with dropped_ranges_lock := false })

/-- The store through `r = &info->dropped_ranges[i]`; outside the array it is
undefined. -/
def store_dropped_range (buff : buffer) (i : Nat) (r : dropped_range) : Option buffer :=
  if i < buff.shmbuffer.info.dropped_ranges.length then
    some (map_info buff (fun info => { info with dropped_ranges := info.dropped_ranges.set i r }))
  else none

/-- The function `buffer_notify_dropped`. -/
def buffer_notify_dropped (buff : buffer) (begin_id end_id : Nat) : Option buffer :=
  let info := buff.shmbuffer.info
  let idx := info.dropped_ranges_next
  match info.dropped_ranges[idx]? with
  | none => none
  | some r =>
    if r.begin_id = begin_id ∨ r.end_id = (r.begin_id + WORD - 1) % WORD then
      match store_dropped_range (drop_ranges_lock buff) idx { r with end_id := end_id } with
      | none => none
      | some buff1 => some (drop_ranges_unlock buff1)
    else
      let idx1 := if idx + 1 = DROPPED_RANGES_NUM then 0 else idx + 1
      let buff1 := map_info buff (fun i => { i with dropped_ranges_next := idx1 })
      match store_dropped_range (drop_ranges_lock buff1) idx1
          { begin_id := begin_id, end_id := end_id } with
      | none => none
      | some buff2 => some (drop_ranges_unlock buff2)

/-! ## The aux-buffer pool -/

/-- The function `aux_buffer_free_space` (an unsigned subtraction). -/
def aux_buffer_free_space (buff : aux_buffer) : Nat := (buff.size + WORD - buff.head) % WORD

/-- The function `new_aux_buffer` on the path where `shm_open`, `ftruncate` and
`mmap` succeed (it aborts otherwise); `pg_size` is the value of
`sysconf(_SC_PAGESIZE)`.  The name `/aux.<idx>` is taken to be unused, so the
segment is fresh and zero-filled, and it is mapped at the next position of
`aux_shm`. -/
def new_aux_buffer (pg_size : Nat) (buff : buffer) (size : Nat) : Option (buffer × Nat) :=
  if pg_size = 0 then none
  else
    let idx := buff.aux_buf_idx
    let size1 := ((((size + sizeof_aux_buffer) % WORD) / pg_size + 2) * pg_size) % WORD
    let ab : aux_buffer :=
      { size := (size1 + WORD - sizeof_aux_buffer) % WORD
        head := 0
        idx := idx
        first_event_id := 0
        last_event_id := UINT64_MAX
        reusable := false
        data := List.replicate (size1 - sizeof_aux_buffer) 0
        generation := 0 }
    let p := buff.aux_shm.length
    some ({ buff with
              aux_buf_idx := (idx + 1) % WORD
              aux_shm := buff.aux_shm ++ [ab]
              aux_buffers := buff.aux_buffers ++ [p]
              aux_buffers_age := buff.aux_buffers_age ++ [p]
              cur_aux_buff := some p }, p)

/-- The test of one registry slot in the loop of `ab_was_dropped`. -/
def range_covers (r : dropped_range) (ab : aux_buffer) : Bool :=
  !decide (r.end_id = 0) && (decide (r.begin_id ≤ ab.first_event_id) && decide (r.end_id ≥ ab.last_event_id))

/-- The function `ab_was_dropped`: its result and the buffer it leaves (the
lock bit is taken and released). -/
def ab_was_dropped (ab : aux_buffer) (buff : buffer) : Bool × buffer :=
  let buff1 := drop_ranges_lock buff
  ((buff1.shmbuffer.info.dropped_ranges.take DROPPED_RANGES_NUM).any (fun r => range_covers r ab),
    drop_ranges_unlock buff1)

/-- The reset block of `writer_get_aux_buffer` (lines 979-982). -/
def aux_reset (ab : aux_buffer) : aux_buffer :=
  { ab with
    reusable := true
    head := 0
    first_event_id := 0
    last_event_id := UINT64_MAX
    generation := ab.generation + 1 }

/-- The `while (cur)` loop of `writer_get_aux_buffer` from the list position
`i` on, `rest` being the elements of the age list from there.  It yields the
segment it made current, or `none` when it ran off the end of the list. -/
def writer_walk (size : Nat) : Nat → List Nat → buffer → Option (buffer × Option Nat)
  | _, [], buff => some (buff, none)
  | i, p :: rest, buff =>
    match buff.aux_shm[p]? with
    | none => none
    | some ab =>
      let (hit, buff1) :=
        if ab.last_event_id ≤ buff.shmbuffer.info.last_processed_id then (true, buff)
        else ab_was_dropped ab buff
      let ab1 := if hit then aux_reset ab else ab
      if ab1.reusable = true ∧ ab1.size ≥ size then
        if buff1.aux_buffers_age.getLast? ≠ buff1.cur_aux_buff then none
        else
          some ({ buff1 with
                    aux_shm := buff1.aux_shm.set p { ab1 with reusable := false }
                    aux_buffers_age := buff1.aux_buffers_age.eraseIdx i ++ [p]
                    cur_aux_buff := some p }, some p)
      else
        writer_walk size (i + 1) rest { buff1 with aux_shm := buff1.aux_shm.set p ab1 }

/-- The function `writer_get_aux_buffer`: the buffer it leaves and the segment
it returns. -/
def writer_get_aux_buffer (pg_size : Nat) (buff : buffer) (size : Nat) : Option (buffer × Nat) :=
  match buff.cur_aux_buff with
  | none =>
    match writer_walk size 0 buff.aux_buffers_age buff with
    | none => none
    | some (buff1, some p) => some (buff1, p)
    | some (buff1, none) => new_aux_buffer pg_size buff1 size
  | some c =>
    match buff.aux_shm[c]? with
    | none => none
    | some cur =>
      if aux_buffer_free_space cur < size then
        match writer_walk size 0 buff.aux_buffers_age buff with
        | none => none
        | some (buff1, some p) => some (buff1, p)
        | some (buff1, none) => new_aux_buffer pg_size buff1 size
      else if buff.aux_buffers_age.getLast? ≠ some c then none
      else some (buff, c)

/-- The function `_buffer_push_strn`: the buffer it leaves and the offset it
returns. -/
def _buffer_push_strn (pg_size : Nat) (buff : buffer) (data : List Nat) (size : Nat) :
    Option (buffer × Nat) :=
  match writer_get_aux_buffer pg_size buff size with
  | none => none
  | some (buff1, p) =>
    if buff1.cur_aux_buff ≠ some p then none
    else if buff1.aux_buffers_age.getLast? ≠ buff1.cur_aux_buff then none
    else
      match buff1.aux_shm[p]? with
      | none => none
      | some ab =>
        let off := ab.head
        if ¬ (off < 2 ^ 32) then none
        else
          match memcpy ab.data off data size with
          | none => none
          | some bytes =>
            some ({ buff1 with
                      aux_shm := buff1.aux_shm.set p
                        { ab with data := bytes, head := (ab.head + size) % WORD } }, off)

/-- The value of the C expression `(off | (idx << 32))` in 64-bit unsigned
arithmetic. -/
def pack_handle (off idx : Nat) : Nat := (off ||| ((idx <<< 32) % WORD)) % WORD

/-- The function `buffer_push_strn`: the buffer it leaves and the handle it
returns. -/
def buffer_push_strn (pg_size : Nat) (buff : buffer) (evid : Nat) (str : List Nat) (len : Nat) :
    Option (buffer × Nat) :=
  match _buffer_push_strn pg_size buff str len with
  | none => none
  | some (buff1, off) =>
    match buff1.cur_aux_buff with
    | none => none
    | some p =>
      match buff1.aux_shm[p]? with
      | none => none
      | some ab =>
        let ab1 := if ab.first_event_id = 0 then { ab with first_event_id := evid } else ab
        let ab2 := { ab1 with last_event_id := evid }
        some ({ buff1 with aux_shm := buff1.aux_shm.set p ab2 }, pack_handle off ab2.idx)

/-- The C `strlen`: the position of the first NUL byte, undefined when there is
none. -/
def strlen (str : List Nat) : Option Nat :=
  if 0 ∈ str then some (str.indexOf 0) else none

/-- The function `buffer_push_str`: the buffer it leaves and the handle it
returns. -/
def buffer_push_str (pg_size : Nat) (buff : buffer) (evid : Nat) (str : List Nat) :
    Option (buffer × Nat) :=
  match strlen str with
  | none => none
  | some n =>
    let len := (n + 1) % WORD
    match buffer_push_strn pg_size buff evid str len with
    | none => none
    | some (buff1, off) =>
      match buff1.cur_aux_buff with
      | none => none
      | some p =>
        match buff1.aux_shm[p]? with
        | none => none
        | some ab => some (buff1, pack_handle off ab.idx)

/-- The last part of `reader_get_aux_buffer`, after the scan of the known
segments found nothing: it opens and maps `/aux.<idx>`.  Opening `/aux.<idx>`
finds the segment that `new_aux_buffer` created under that name, which is the
one that carries `idx` in its header; the function aborts when there is
none. -/
def reader_get_aux_buffer_miss (buff : buffer) (idx : Nat) : Option (buffer × Nat) :=
  match buff.aux_shm.findIdx? (fun ab => decide (ab.idx = idx)) with
  | none => none
  | some p =>
    match buff.aux_shm[p]? with
    | none => none
    | some ab =>
      if ¬ (ab.size > 0) then none
      else some ({ buff with cur_aux_buff := some p, aux_buffers := buff.aux_buffers ++ [p] }, p)

/-- The middle part of `reader_get_aux_buffer`: the scan of the vector of known
segments for one with the index `idx`. -/
def reader_get_aux_buffer_scan (buff : buffer) (idx : Nat) : Option (buffer × Nat) :=
  match buff.aux_buffers.find?
      (fun q => (buff.aux_shm[q]?.map (fun ab => decide (ab.idx = idx))).getD true) with
  | some q =>
    match buff.aux_shm[q]? with
    | none => none
    | some _ => some ({ buff with cur_aux_buff := some q }, q)
  | none => reader_get_aux_buffer_miss buff idx

/-- The function `reader_get_aux_buffer`: the buffer it leaves and the segment
it returns. -/
def reader_get_aux_buffer (buff : buffer) (idx : Nat) : Option (buffer × Nat) :=
  match buff.cur_aux_buff with
  | none => reader_get_aux_buffer_scan buff idx
  | some c =>
    match buff.aux_shm[c]? with
    | none => none
    | some cur =>
      if cur.idx = idx then some (buff, c) else reader_get_aux_buffer_scan buff idx

/-- The aux index `elem >> 32` that `buffer_get_str` reads out of a handle. -/
def handle_idx (elem : Nat) : Nat := elem >>> 32

/-- The offset `elem & 0xffffffff` that `buffer_get_str` reads out of a
handle. -/
def handle_off (elem : Nat) : Nat := elem &&& 0xffffffff

/-- The function `buffer_get_str`: the buffer it leaves and the pointer it
returns, as the segment and the byte offset into the data area of the
segment. -/
def buffer_get_str (buff : buffer) (elem : Nat) : Option (buffer × (Nat × Nat)) :=
  let idx := handle_idx elem
  match reader_get_aux_buffer buff idx with
  | none => none
  | some (buff1, p) =>
    let off := handle_off elem
    some (buff1, (p, off))

/-- The `n` bytes at a pointer into the data area of an aux segment. -/
def aux_bytes (buff : buffer) (ptr : Nat × Nat) (n : Nat) : Option (List Nat) :=
  match buff.aux_shm[ptr.1]? with
  | none => none
  | some ab => memread ab.data ptr.2 n

/-! ## Runs -/

/-- A call of `buffer_push` or of `buffer_pop`. -/
inductive RingOp where
  | push (elem : List Nat) (size : Nat)
  | pop
deriving DecidableEq, Repr

/-- The state of a run of ring calls: the buffer, the elements accepted by the
pushes that returned `true` (the `size` bytes each of them copied), and the
elements copied out by the pops that returned `true`, both oldest first. -/
structure RingRun where
  buff : buffer
  pushed : List (List Nat)
  popped : List (List Nat)
deriving DecidableEq, Repr

/-- One call of a run of ring calls. -/
def ring_step (s : RingRun) : RingOp → Option RingRun
  | RingOp.push elem size =>
    match buffer_push s.buff elem size with
    | none => none
    | some (b, true) => some { s with buff := b, pushed := s.pushed ++ [elem.take size] }
    | some (b, false) => some { s with buff := b }
  | RingOp.pop =>
    match buffer_pop s.buff with
    | none => none
    | some (b, some bytes) => some { s with buff := b, popped := s.popped ++ [bytes] }
    | some (b, none) => some { s with buff := b }

/-- A run of ring calls, one after the other. -/
def ring_run (s : RingRun) : List RingOp → Option RingRun
  | [] => some s
  | op :: ops =>
    match ring_step s op with
    | none => none
    | some s1 => ring_run s1 ops

/-- Consecutive calls of `buffer_push`, with the values they return. -/
def push_all (buff : buffer) : List (List Nat × Nat) → Option (buffer × List Bool)
  | [] => some (buff, [])
  | (elem, size) :: rest =>
    match buffer_push buff elem size with
    | none => none
    | some (b, ok) =>
      match push_all b rest with
      | none => none
      | some (b1, oks) => some (b1, ok :: oks)

/-- A call of one of the operations on a buffer. -/
inductive Op where
  | push (elem : List Nat) (size : Nat)
  | pop
  | push_str (evid : Nat) (str : List Nat)
  | push_strn (evid : Nat) (str : List Nat) (len : Nat)
  | notify_dropped (begin_id end_id : Nat)
  | set_last_processed_id (id : Nat)
deriving DecidableEq, Repr

/-- The buffer after one call, `none` when the call fails an assertion. -/
def step (pg_size : Nat) (buff : buffer) : Op → Option buffer
  | Op.push elem size => (buffer_push buff elem size).map (fun r => r.1)
  | Op.pop => (buffer_pop buff).map (fun r => r.1)
  | Op.push_str evid str => (buffer_push_str pg_size buff evid str).map (fun r => r.1)
  | Op.push_strn evid str len => (buffer_push_strn pg_size buff evid str len).map (fun r => r.1)
  | Op.notify_dropped b e => buffer_notify_dropped buff b e
  | Op.set_last_processed_id id => buffer_set_last_processed_id buff id

/-- The buffer after a sequence of calls. -/
def run (pg_size : Nat) (buff : buffer) : List Op → Option buffer
  | [] => some buff
  | op :: ops =>
    match step pg_size buff op with
    | none => none
    | some b => run pg_size b ops

/-! ## Invariants used in the proofs -/

/-- The invariant of the ring and the slot area: `pushed` are the elements
accepted so far, the first `Q` of them have been consumed, the indices are the
two counts modulo the number `N` of slots, and every unread slot starts with
the bytes of its element. -/
structure RingInv (b : buffer) (E N : Nat) (pushed : List (List Nat)) (Q : Nat) : Prop where
  elem : b.shmbuffer.info.elem_size = E
  cap : b.shmbuffer.info.capacity + 1 = N
  rcap : (ringbuf_of b).capacity = N
  head : (ringbuf_of b).head = pushed.length % N
  tail : (ringbuf_of b).tail = Q % N
  le : Q ≤ pushed.length
  occ : pushed.length - Q < N
  epos : 0 < E
  fits : N * E ≤ b.shmbuffer.data.length
  small : N * E < WORD
  alive : b.shmbuffer.info.destroyed = false
  slots : ∀ (j : Nat) (x : List Nat), pushed[j]? = some x → Q ≤ j →
    ∃ bytes, memread b.shmbuffer.data ((j % N) * E) E = some bytes ∧ bytes.take x.length = x

/-- The invariant of a run of ring calls. -/
structure RunInv (s : RingRun) (E N : Nat) : Prop where
  ring : RingInv s.buff E N s.pushed s.popped.length
  pops : ∀ (j : Nat) (y : List Nat), s.popped[j]? = some y →
    ∃ x, s.pushed[j]? = some x ∧ y.length = E ∧ y.take x.length = x

/-- The condition under which the claims allow an aux segment to be reset:
its last event has been processed, or one slot of the dropped-range registry
covers its range of events. -/
def reset_cond (info : buffer_info) (ab : aux_buffer) : Prop :=
  ab.last_event_id ≤ info.last_processed_id ∨
    ∃ r ∈ info.dropped_ranges, r.begin_id ≤ ab.first_event_id ∧ ab.last_event_id ≤ r.end_id

/-- The main segment of `b1` differs from that of `b` at most in the lock
bit. -/
def lock_only (b b1 : buffer) : Prop :=
  b1.shmbuffer.data = b.shmbuffer.data ∧
    ∃ l, b1.shmbuffer.info = { b.shmbuffer.info with dropped_ranges_lock := l }

/-- What `writer_get_aux_buffer` may do to a segment `ab`, giving `ab1`: it
never touches the data, the index or the size; either the reset block did not
run and the head and the event ids are kept (and the reusable flag is not
newly set), or it ran and `reset_cond` held. -/
def walk_rel (info : buffer_info) (ab ab1 : aux_buffer) : Prop :=
  ab1.data = ab.data ∧ ab1.idx = ab.idx ∧ ab1.size = ab.size ∧
  ab.generation ≤ ab1.generation ∧
  ((ab1.generation = ab.generation ∧ ab1.head = ab.head ∧
      ab1.first_event_id = ab.first_event_id ∧ ab1.last_event_id = ab.last_event_id ∧
      (ab1.reusable = true → ab.reusable = true)) ∨
    (ab.generation < ab1.generation ∧ reset_cond info ab))

/-- The segment `ab1` is a later state of `ab` that still holds what `ab` held:
unless the reset block ran in between, the head has not moved back and the
bytes below the old head are the same. -/
def seg_keeps (ab ab1 : aux_buffer) : Prop :=
  ab1.idx = ab.idx ∧ ab.generation ≤ ab1.generation ∧
  (ab1.generation = ab.generation →
    ab.head ≤ ab1.head ∧
      ∀ off n, off + n ≤ ab.head → memread ab1.data off n = memread ab.data off n)

/-- Every aux segment of `b` is still there in `b1` and keeps what it held. -/
def aux_keeps (b b1 : buffer) : Prop :=
  ∀ (p : Nat) (ab : aux_buffer), b.aux_shm[p]? = some ab →
    ∃ ab1, b1.aux_shm[p]? = some ab1 ∧ seg_keeps ab ab1

/-- The invariant of the aux segments of a producer: the counter of
`new_aux_buffer` is the number of segments, every segment carries its position
as index, and its data area is as long as its size says. -/
structure AuxInv (b : buffer) : Prop where
  counter : b.aux_buf_idx = b.aux_shm.length % WORD
  segs : ∀ (p : Nat) (ab : aux_buffer), b.aux_shm[p]? = some ab →
    ab.idx = p % WORD ∧ ab.data.length < WORD ∧ ab.data.length ≤ ab.size

/-- The pointers of a consumer-side `struct buffer` point to mapped aux
segments. -/
def reader_ok (r : buffer) : Prop :=
  (∀ c, r.cur_aux_buff = some c → c < r.aux_shm.length) ∧
    ∀ q ∈ r.aux_buffers, q < r.aux_shm.length

/-- The calls of a history that the registry claims are about: the dropped
ranges handed to `buffer_notify_dropped` are non-empty ranges of event ids,
which start at 1 and fit 64 bits. -/
def wf_op : Op → Prop
  | Op.notify_dropped b e => 1 ≤ b ∧ b ≤ e ∧ e < WORD
  | _ => True

/-- The invariant of the dropped-range registry: five slots, the cursor inside
the array, and every slot either empty or a non-empty range of event ids. -/
structure RegInv (b : buffer) : Prop where
  len : b.shmbuffer.info.dropped_ranges.length = DROPPED_RANGES_NUM
  next : b.shmbuffer.info.dropped_ranges_next < DROPPED_RANGES_NUM
  slots : ∀ r ∈ b.shmbuffer.info.dropped_ranges,
    (r.begin_id = 0 ∧ r.end_id = 0) ∨ (1 ≤ r.begin_id ∧ r.begin_id ≤ r.end_id ∧ r.end_id < WORD)

/-- The process-local state that `try_get_shared_buffer` sets up for a consumer
(`VEC_INIT`, `aux_buf_idx = 0`, `cur_aux_buff = NULL`), over the shared
segments of the buffer `b`. -/
def consumer_view (b : buffer) : buffer :=
  { b with cur_aux_buff := none, aux_buffers := [], aux_buf_idx := 0, aux_buffers_age := [] }

/-! ## Concrete states used in the examples -/

/-- The bytes of the C string `"hello"`, with the trailing NUL. -/
def hello : List Nat := [104, 101, 108, 108, 111, 0]

/-- A producer state on a system with 64-byte pages: after
`buffer_push_str(buff, 7, "hello")` on a fresh buffer the consumer has reported
event 7 as processed. -/
def example_producer : buffer :=
  match run 64 (fresh_shared_buffer 320 16 4)
      [Op.push_str 7 hello, Op.set_last_processed_id 7] with
  | some b => b
  | none => fresh_shared_buffer 320 16 4

/-- The state `writer_get_aux_buffer` leaves when `example_producer` asks for
100 bytes. -/
def example_producer_after : buffer :=
  match writer_get_aux_buffer 64 example_producer 100 with
  | some r => r.1
  | none => example_producer

/-- The producer state after `buffer_push_str(buff, 7, "hello")` on a fresh
buffer, on a system with 64-byte pages. -/
def example_pushed : buffer :=
  match buffer_push_str 64 (fresh_shared_buffer 320 16 4) 7 hello with
  | some r => r.1
  | none => fresh_shared_buffer 320 16 4

/-- The state `example_pushed` after a second string push and a report of the
consumer. -/
def example_later : buffer :=
  match run 64 example_pushed [Op.push_str 8 hello, Op.set_last_processed_id 5] with
  | some b => b
  | none => example_pushed

/-! ## Segment lengths -/

/-- The value of the local `size` of `new_aux_buffer` after line 903, that is
the length handed to `ftruncate` and `mmap`: header plus data. -/
def aux_segment_length (pg_size size : Nat) : Nat :=
  ((((size + sizeof_aux_buffer) % WORD) / pg_size + 2) * pg_size) % WORD

/-- The quotient of `a` by `b` rounded up. -/
def ceil_div (a b : Nat) : Nat := (a + b - 1) / b

/-- The length of a new aux segment in the words of the specification:
`(ceil((size + header) / page) + 1) * page`. -/
def spec_aux_segment_length (pg_size size : Nat) : Nat :=
  (ceil_div (size + sizeof_aux_buffer) pg_size + 1) * pg_size

/-- The size of a `size_t`. -/
def sizeof_size_t : Nat := 8

/-- The length `size + 3 * sizeof(size_t)` that `reader_get_aux_buffer` hands to
`mmap` on a cache miss, `size` being the size field it read from the
segment. -/
def reader_mmap_length (size : Nat) : Nat := (size + 3 * sizeof_size_t) % WORD

/-- The length `buffer->size + sizeof(struct aux_buffer)` that
`aux_buffer_release` hands to `munmap`. -/
def aux_buffer_release_length (size : Nat) : Nat := (size + sizeof_aux_buffer) % WORD

/-! ## Partial pushes of strings -/

/-- The eight bytes of a `uint64_t` in memory, least significant byte first (the
byte order of the x86-64 the sources are written for). -/
def uint64_bytes (n : Nat) : List Nat :=
  (List.range 8).map (fun i => n / 256 ^ i % 256)

/-- The `uint64_t` that a sequence of bytes in memory holds, least significant
byte first. -/
def uint64_of_bytes (bytes : List Nat) : Nat :=
  bytes.foldr (fun b acc => b + 256 * acc) 0

/-- The function `buffer_partial_push_str`; `prev_push` is a byte offset into
the slot area, so that the assertion `BUFF_START <= prev_push` holds by
construction.  The result is the buffer it leaves and the pointer it
returns. -/
def buffer_partial_push_str (pg_size : Nat) (buff : buffer) (prev_push evid : Nat)
    (str : List Nat) : Option (buffer × Nat) :=
  if buffer_is_ready buff = false then none
  else if ¬ (prev_push < BUFF_END buff.shmbuffer) then none
  else
    match buffer_push_str pg_size buff evid str with
    | none => none
    | some (buff1, h) =>
      match memcpy buff1.shmbuffer.data prev_push (uint64_bytes h) 8 with
      | none => none
      | some data =>
        some ({ buff1 with shmbuffer := { buff1.shmbuffer with data := data } }, prev_push + 8)

/-- The function `buffer_partial_push_str_n`. -/
def buffer_partial_push_str_n (pg_size : Nat) (buff : buffer) (prev_push evid : Nat)
    (str : List Nat) (len : Nat) : Option (buffer × Nat) :=
  if buffer_is_ready buff = false then none
  else if ¬ (prev_push < BUFF_END buff.shmbuffer) then none
  else
    match buffer_push_strn pg_size buff evid str len with
    | none => none
    | some (buff1, h) =>
      match memcpy buff1.shmbuffer.data prev_push (uint64_bytes h) 8 with
      | none => none
      | some data =>
        some ({ buff1 with shmbuffer := { buff1.shmbuffer with data := data } }, prev_push + 8)

/-- The producer state after `buffer_push_strn(buff, 7, "hello", 5)` on a fresh
buffer, on a system with 64-byte pages. -/
def example_pushed_n : buffer :=
  match buffer_push_strn 64 (fresh_shared_buffer 320 16 4) 7 hello 5 with
  | some r => r.1
  | none => fresh_shared_buffer 320 16 4

/-! ## Bounds on the aux segments -/

/-- An aux segment of at most 4 GiB, header included, whose head lies inside its
data area. -/
def seg_bounded (ab : aux_buffer) : Prop :=
  ab.head ≤ ab.data.length ∧ ab.data.length ≤ ab.size ∧ ab.size + sizeof_aux_buffer ≤ 2 ^ 32

/-- A request for `len` bytes that `new_aux_buffer` serves, with pages of
`pg_size` bytes, by a segment of at most 4 GiB. -/
def small_request (pg_size len : Nat) : Prop :=
  len + sizeof_aux_buffer + 2 * pg_size ≤ 2 ^ 32

/-- The calls whose string, if any, is a small request. -/
def small_op (pg_size : Nat) : Op → Prop
  | Op.push_str _ str => ∀ n, strlen str = some n → small_request pg_size (n + 1)
  | Op.push_strn _ _ len => small_request pg_size len
  | _ => True

/-! ## System calls and the control segment -/

/-- The system calls and the stores into shared memory that the set-up and
tear-down functions make, in the order in which they make them. -/
inductive Effect where
  | store_destroyed
  | shm_open (key : String)
  | ftruncate (len : Nat)
  | pread
  | read
  | mmap (len : Nat)
  | munmap (len : Nat)
  | close
  | shm_unlink (key : String)
  | sleep_ms
  | vec_destroy
  | free
  | abort
deriving DecidableEq, Repr

/-- Whether an effect is a call of `shamon_shm_unlink`. -/
def is_unlink : Effect → Bool
  | Effect.shm_unlink _ => true
  | _ => false

/-- The outcomes of the system calls that one function call makes on a named
segment: whether `shm_open`, `ftruncate`, `pread` (or `read`) and `mmap`
succeed.  An `mmap` of length 0 fails whatever `mmap_ok` says, as POSIX
requires. -/
structure shm_calls where
  open_ok : Bool
  ftruncate_ok : Bool
  pread_ok : Bool
  mmap_ok : Bool
deriving DecidableEq, Repr

/-- The template `struct source_control` handed to the creating functions: its
`size` field, which the code reads at offset 0, and the bytes that follow the
field in the object (the event records). -/
structure source_control where
  size : Nat
  events : List Nat
deriving DecidableEq, Repr

/-- The bytes of a template in memory: the size field, then the records. -/
def source_control_bytes (control : source_control) : List Nat :=
  uint64_bytes control.size ++ control.events

/-- The `sizeof(control->size)`. -/
def sizeof_control_size : Nat := 8

/-- The size field stored at the start of a control segment. -/
def control_size_field (segment : List Nat) : Nat :=
  uint64_of_bytes (segment.take sizeof_control_size)

/-- The function `create_shared_control_buffer`; `map_ctrl_key` stands for
`shamon_map_ctrl_key` of `shm.h`.  The result is `none` when the assertion
fails or the `memcpy` reads beyond the template, otherwise the bytes of the
mapped segment (`none` for `NULL`) and the calls made. -/
def create_shared_control_buffer (map_ctrl_key : String → String) (os : shm_calls)
    (buff_key : String) (control : source_control) : Option (Option (List Nat) × List Effect) :=
  let key := map_ctrl_key buff_key
  let size := control.size
  if os.open_ok = false then some (none, [Effect.shm_open key])
  else
    let size := if size = 0 then sizeof_control_size else size
    if ¬ (size ≥ sizeof_control_size) then none
    else if os.ftruncate_ok = false then
      some (none, [Effect.shm_open key, Effect.ftruncate size])
    else if os.mmap_ok = false then
      some (none, [Effect.shm_open key, Effect.ftruncate size, Effect.mmap size, Effect.close,
        Effect.shm_unlink key])
    else
      match memcpy (List.replicate size 0) 0 (source_control_bytes control) size with
      | none => none
      | some mem =>
        some (some mem, [Effect.shm_open key, Effect.ftruncate size, Effect.mmap size])

/-- The function `get_shared_control_buffer` on the segment `segment` that
exists under the control key.  The result is `none` when the segment is too
short to hold the size field (the local `size` is then not set), otherwise the
bytes seen through the mapping (`none` for `NULL`) and the calls made. -/
def get_shared_control_buffer (map_ctrl_key : String → String) (os : shm_calls)
    (buff_key : String) (segment : List Nat) : Option (Option (List Nat) × List Effect) :=
  let key := map_ctrl_key buff_key
  if os.open_ok = false then some (none, [Effect.shm_open key])
  else if os.pread_ok = false then some (none, [Effect.shm_open key, Effect.pread])
  else
    match memread segment 0 sizeof_control_size with
    | none => none
    | some bytes =>
      let size := uint64_of_bytes bytes
      if size = 0 ∨ os.mmap_ok = false then
        some (none, [Effect.shm_open key, Effect.pread, Effect.mmap size, Effect.close,
          Effect.shm_unlink key])
      else some (some (segment.take size), [Effect.shm_open key, Effect.pread, Effect.mmap size])

/-- The function `create_shared_buffer_adv` on the path where the system calls
of `initialize_shared_buffer` succeed; `max_event_size` stands for
`source_control_max_event_size` of `source.h`, applied to the mapped control
segment.  The `mode` only reaches `shm_open` and is left out.  The result is
`none` when an assertion fails, otherwise the buffer (`none` for `NULL`). -/
def create_shared_buffer_adv (map_ctrl_key : String → String) (max_event_size : List Nat → Nat)
    (os : shm_calls) (sizeof_shmbuffer : Nat) (key : String) (elem_size capacity : Nat)
    (control : source_control) : Option (Option buffer) :=
  match create_shared_control_buffer map_ctrl_key os key control with
  | none => none
  | some (none, _) => some none
  | some (some ctrl, _) =>
    let elem_size := if elem_size = 0 then max_event_size ctrl else elem_size
    (initialize_shared_buffer sizeof_shmbuffer elem_size capacity).map some

/-- A stand-in for `shamon_map_ctrl_key` in the examples. -/
def example_map_ctrl_key (key : String) : String := key ++ ".ctrl"

/-- A template of 16 bytes: the size field and eight more bytes. -/
def example_control : source_control := { size := 16, events := [1, 2, 3, 4, 5, 6, 7, 8] }

/-- The template of a source without events: `size == 0`. -/
def empty_control : source_control := { size := 0, events := [] }

/-- All system calls succeed. -/
def calls_ok : shm_calls := { open_ok := true, ftruncate_ok := true, pread_ok := true, mmap_ok := true }

/-! ## Attaching, releasing and destroying -/

/-- The function `aux_buffer_release`: `none` when its assertion fails,
otherwise the call it makes. -/
def aux_buffer_release (pg_size : Nat) (ab : aux_buffer) : Option (List Effect) :=
  if ¬ (((ab.size + sizeof_aux_buffer) % WORD) % pg_size = 0) then none
  else some [Effect.munmap (aux_buffer_release_length ab.size)]

/-- The loop over `buff->aux_buffers` that calls `aux_buffer_release` on every
segment of the vector `vec`. -/
def release_aux_buffers (pg_size : Nat) (aux_shm : List aux_buffer) :
    List Nat → Option (List Effect)
  | [] => some []
  | p :: rest =>
    match aux_shm[p]? with
    | none => none
    | some ab =>
      match aux_buffer_release pg_size ab with
      | none => none
      | some e =>
        match release_aux_buffers pg_size aux_shm rest with
        | none => none
        | some es => some (e ++ es)

/-- The function `release_shared_control_buffer` on the mapped control segment
`control`: it unmaps as many bytes as the size field says. -/
def release_shared_control_buffer (control : List Nat) : List Effect :=
  [Effect.munmap (control_size_field control)]

/-- The function `destroy_shared_control_buffer`. -/
def destroy_shared_control_buffer (map_ctrl_key : String → String) (buffkey : String)
    (control : List Nat) : List Effect :=
  release_shared_control_buffer control ++ [Effect.shm_unlink (map_ctrl_key buffkey)]

/-- The function `release_shared_buffer`; `key` stands for `buff->key` and
`control` for the segment at `buff->control`.  The result is `none` when an
assertion of `aux_buffer_release` fails, otherwise the calls made. -/
def release_shared_buffer (pg_size : Nat) (control : List Nat) (buff : buffer) :
    Option (List Effect) :=
  match release_aux_buffers pg_size buff.aux_shm buff.aux_buffers with
  | none => none
  | some aux =>
    some ([Effect.munmap buff.shmbuffer.info.allocated_size, Effect.close] ++ aux
      ++ [Effect.vec_destroy] ++ release_shared_control_buffer control
      ++ [Effect.free, Effect.free])

/-- The function `destroy_shared_sub_buffer`: the buffer it leaves in shared
memory and the calls made. -/
def destroy_shared_sub_buffer (pg_size : Nat) (control : List Nat) (buff : buffer) :
    Option (buffer × List Effect) :=
  match release_aux_buffers pg_size buff.aux_shm buff.aux_buffers with
  | none => none
  | some aux =>
    some (store_destroyed buff,
      [Effect.store_destroyed] ++ aux ++ [Effect.vec_destroy]
        ++ [Effect.munmap buff.shmbuffer.info.allocated_size, Effect.close]
        ++ release_shared_control_buffer control
        ++ [Effect.free, Effect.free])

/-- The function `release_shared_sub_buffer`. -/
def release_shared_sub_buffer (map_ctrl_key : String → String) (pg_size : Nat) (key : String)
    (control : List Nat) (buff : buffer) : Option (List Effect) :=
  match release_aux_buffers pg_size buff.aux_shm buff.aux_buffers with
  | none => none
  | some aux =>
    some ([Effect.munmap buff.shmbuffer.info.allocated_size, Effect.close] ++ aux
      ++ [Effect.vec_destroy] ++ [Effect.shm_unlink key]
      ++ destroy_shared_control_buffer map_ctrl_key key control
      ++ [Effect.free, Effect.free])

/-- The function `destroy_shared_buffer`: the buffer it leaves in shared memory
and the calls made. -/
def destroy_shared_buffer (map_ctrl_key : String → String) (pg_size : Nat) (key : String)
    (control : List Nat) (buff : buffer) : Option (buffer × List Effect) :=
  match release_aux_buffers pg_size buff.aux_shm buff.aux_buffers with
  | none => none
  | some aux =>
    some (store_destroyed buff,
      [Effect.store_destroyed] ++ aux ++ [Effect.vec_destroy]
        ++ [Effect.munmap buff.shmbuffer.info.allocated_size, Effect.close,
            Effect.shm_unlink key]
        ++ destroy_shared_control_buffer map_ctrl_key key control
        ++ [Effect.free, Effect.free])

/-- The outcomes of the calls that `try_get_shared_buffer` makes for the main
segment: how many of its `shm_open` attempts fail before one succeeds, and
whether `pread`, `mmap`, `malloc` and `strdup` succeed. -/
structure get_calls where
  open_failures : Nat
  pread_ok : Bool
  mmap_ok : Bool
  malloc_ok : Bool
  strdup_ok : Bool
deriving DecidableEq, Repr

/-- The `do ... while (--retry > 0)` loop of `try_get_shared_buffer` with `n`
rounds left and `f` failing attempts ahead: whether a descriptor was obtained,
and the calls made. -/
def shm_open_loop (key : String) : Nat → Nat → Bool × List Effect
  | 0, _ => (false, [])
  | _ + 1, 0 => (true, [Effect.shm_open key])
  | n + 1, f + 1 =>
    let r := shm_open_loop key n f
    (r.1, Effect.shm_open key :: Effect.sleep_ms :: r.2)

/-- The number of rounds of that loop for the argument `retry`: `retry + 1`,
and `2^64` when the increment wraps to 0. -/
def open_rounds (retry : Nat) : Nat :=
  if (retry + 1) % WORD = 0 then WORD else (retry + 1) % WORD

/-- The function `try_get_shared_buffer`: `info` is the header of the main
segment as `pread` delivers it and `ctrl_segment` the segment under the control
key; allocations are not recorded.  The result is whether a buffer was
returned (`false` for `NULL`) and the calls made. -/
def try_get_shared_buffer (map_ctrl_key : String → String) (os : get_calls)
    (os_ctrl : shm_calls) (key : String) (retry : Nat) (info : buffer_info)
    (ctrl_segment : List Nat) : Option (Bool × List Effect) :=
  let opened := shm_open_loop key (open_rounds retry) os.open_failures
  if opened.1 = false then some (false, opened.2)
  else if os.pread_ok = false then some (false, opened.2 ++ [Effect.pread, Effect.close])
  else if info.allocated_size = 0 then some (false, opened.2 ++ [Effect.pread, Effect.close])
  else
    let mapped := opened.2 ++ [Effect.pread, Effect.mmap info.allocated_size]
    let before_mmap_clean := [Effect.close, Effect.shm_unlink key]
    let mmap_clean := Effect.munmap info.allocated_size :: before_mmap_clean
    let buff_clean_key := Effect.free :: mmap_clean
    let buff_clean_all := Effect.vec_destroy :: Effect.free :: buff_clean_key
    if os.mmap_ok = false then some (false, mapped ++ before_mmap_clean)
    else if os.malloc_ok = false then some (false, mapped ++ mmap_clean)
    else if os.strdup_ok = false then some (false, mapped ++ buff_clean_key)
    else
      match get_shared_control_buffer map_ctrl_key os_ctrl key ctrl_segment with
      | none => none
      | some (none, calls) => some (false, mapped ++ calls ++ buff_clean_all)
      | some (some _, calls) => some (true, mapped ++ calls)

/-- The function `get_shared_buffer`. -/
def get_shared_buffer (map_ctrl_key : String → String) (os : get_calls) (os_ctrl : shm_calls)
    (key : String) (info : buffer_info) (ctrl_segment : List Nat) : Option (Bool × List Effect) :=
  try_get_shared_buffer map_ctrl_key os os_ctrl key 10 info ctrl_segment

/-- The key `/aux.<idx>` that `snprintf(key, 19, "/aux.%lu", idx)` writes. -/
def aux_key (idx : Nat) : String := ("/aux." ++ Nat.repr idx).take 18

/-- The calls of `reader_get_aux_buffer` on a cache miss, when no known segment
carries `idx`: `size` is the size field of the segment under `/aux.<idx>`, and
`none` says that no such segment exists, so that `shm_open` fails. -/
def reader_get_aux_buffer_miss_calls (os : shm_calls) (idx : Nat) (size : Option Nat) :
    List Effect :=
  let key := aux_key idx
  match size with
  | none => [Effect.shm_open key, Effect.abort]
  | some size =>
    if os.open_ok = false then [Effect.shm_open key, Effect.abort]
    else if os.pread_ok = false then [Effect.shm_open key, Effect.read]
    else if reader_mmap_length size = 0 ∨ os.mmap_ok = false then
      [Effect.shm_open key, Effect.read, Effect.mmap (reader_mmap_length size), Effect.close,
        Effect.shm_unlink key, Effect.abort]
    else [Effect.shm_open key, Effect.read, Effect.mmap (reader_mmap_length size)]

/-- The calls that `reader_get_aux_buffer` makes: none when the current segment or
a segment of the vector carries `idx`. -/
def reader_get_aux_buffer_calls (os : shm_calls) (buff : buffer) (idx : Nat) : List Effect :=
  let miss :=
    match buff.aux_buffers.find?
        (fun q => (buff.aux_shm[q]?.map (fun ab => decide (ab.idx = idx))).getD true) with
    | some _ => []
    | none =>
      reader_get_aux_buffer_miss_calls os idx
        ((buff.aux_shm.find? (fun ab => decide (ab.idx = idx))).map (fun ab => ab.size))
  match buff.cur_aux_buff with
  | none => miss
  | some c =>
    match buff.aux_shm[c]? with
    | none => []
    | some cur => if cur.idx = idx then [] else miss

/-- The control segment created from `example_control`. -/
def example_control_segment : List Nat := [16, 0, 0, 0, 0, 0, 0, 0, 1, 2, 3, 4, 5, 6, 7, 8]

/-- A consumer of `example_pushed` after it resolved the handle 0: it has mapped
the aux segment 0. -/
def example_reader : buffer :=
  match buffer_get_str (consumer_view example_pushed) 0 with
  | some r => r.1
  | none => consumer_view example_pushed

/-- The calls for the main segment succeed at the first attempt, except that
`mmap` fails. -/
def calls_mmap_fails : get_calls :=
  { open_failures := 0, pread_ok := true, mmap_ok := false, malloc_ok := true, strdup_ok := true }

/-- The calls for the main segment succeed at the first attempt. -/
def get_calls_ok : get_calls :=
  { open_failures := 0, pread_ok := true, mmap_ok := true, malloc_ok := true, strdup_ok := true }

/-! ## The lock of the registry, and the local buffer -/

/-- The results of the compare-exchange calls that the loop of
`drop_ranges_lock` makes, in order, when it is entered with the lock bit `l`
and nobody else touches the bit meanwhile. -/
def drop_ranges_lock_results (l : Bool) : List Bool :=
  match h : atomic_compare_exchange l false true with
  | (true, l1) => true :: drop_ranges_lock_results l1
  | (false, _) => [false]
termination_by (if l = true then 0 else 1)
decreasing_by
  cases l <;> simp [atomic_compare_exchange] at h
  simp [h]

/-- The `struct buffer` that `initialize_local_buffer` builds once its assertion
has passed and the allocations have succeeded.  The memory that
`posix_memalign` returns is taken to be zero-filled. -/
def fresh_local_buffer (sizeof_shmbuffer elem_size capacity : Nat) : buffer :=
  let memsize := compute_shm_size sizeof_shmbuffer elem_size capacity
  { shmbuffer :=
      { info :=
          { ringbuf := shm_spsc_ringbuf_init ((capacity + 1) % WORD)
            allocated_size := memsize
            capacity := capacity
            elem_size := elem_size
            last_processed_id := 0
            dropped_ranges := List.replicate DROPPED_RANGES_NUM { begin_id := 0, end_id := 0 }
            dropped_ranges_next := 0
            dropped_ranges_lock := false
            subbuffers_no := 0
            destroyed := false
            monitor_attached := false }
        data := List.replicate (memsize - sizeof_shmbuffer) 0 }
    aux_shm := []
    cur_aux_buff := none
    aux_buffers := []
    aux_buf_idx := 0
    aux_buffers_age := []
    last_subbufer_no := 0 }

/-- The function `initialize_local_buffer` on the path where the allocations
succeed: its assertion, then the buffer it builds. -/
def initialize_local_buffer (sizeof_shmbuffer elem_size capacity : Nat) : Option buffer :=
  if ¬ (elem_size > 0) then none
  else some (fresh_local_buffer sizeof_shmbuffer elem_size capacity)

/-! ## Keys of sub-buffers -/

/-- The ASCII digits of `n` in decimal, by at most `fuel` divisions. -/
def decimal_digits : Nat → Nat → List Nat
  | 0, _ => []
  | fuel + 1, n =>
    if n < 10 then [48 + n] else decimal_digits fuel (n / 10) ++ [48 + n % 10]

/-- The bytes that the conversion `%lu` of `printf` writes for a 64-bit value
(it has at most 20 digits). -/
def printf_lu (n : Nat) : List Nat := decimal_digits 20 (n % WORD)

/-- The number that a string of ASCII digits denotes. -/
def decimal_value (ds : List Nat) : Nat := ds.foldl (fun acc d => 10 * acc + (d - 48)) 0

/-- The bytes of the C string `".sub."`. -/
def dot_sub_dot : List Nat := [46, 115, 117, 98, 46]

/-- The function `get_sub_buffer_key` on a key given as the bytes of the C string
without its NUL: `none` when it aborts, otherwise the string it returns.
`snprintf` returns the number of bytes that the whole output needs.  Keys of
2 GiB and more, for which the casts to `int` change the values, end in
`none`. -/
def get_sub_buffer_key (key : List Nat) (idx : Nat) : Option (List Nat) :=
  let tmpsize := (key.length + 16) % WORD
  let out := key ++ dot_sub_dot ++ printf_lu idx
  let written := out.length
  if ¬ (tmpsize < 2 ^ 31) then none
  else if written ≥ tmpsize then none
  else some out

/-! ## Registration of events -/

/-- Modelled from the spec: the `struct event_record` of `source.h`, which is not
among the sources, with the fields of the binary layout of a control
segment. -/
structure event_record where
  name : List Nat
  size : Nat
  kind : Nat
  signature : List Nat
deriving DecidableEq, Repr

/-- The loop of `buffer_register_all_events` with `n` rounds left, at index `i`:
`recs` are the records at `b->control->events` and `last_special_kind` stands
for the value of `shm_get_last_special_kind()`.  A store beyond the records is
undefined. -/
def register_all_loop (last_special_kind : Nat) :
    Nat → Nat → List event_record → Option (List event_record)
  | 0, _, recs => some recs
  | n + 1, i, recs =>
    match recs[i]? with
    | none => none
    | some r =>
      register_all_loop last_special_kind n (i + 1)
        (recs.set i { r with kind := (1 + i + last_special_kind) % WORD })

/-- The function `buffer_register_all_events`: the records it leaves; `ev_nums`
stands for the value of `source_control_get_records_num(b->control)`. -/
def buffer_register_all_events (last_special_kind ev_nums : Nat) (recs : List event_record) :
    Option (List event_record) :=
  register_all_loop last_special_kind ev_nums 0 recs

/-- Two event records that have no kind yet. -/
def example_records : List event_record :=
  [{ name := [97], size := 8, kind := 0, signature := [105] },
   { name := [98], size := 16, kind := 0, signature := [108] }]

/-! ## Histories of the dropped-range registry -/

/-- The calls `buffer_notify_dropped(b_i, e_i)` for a list of ranges. -/
def notify_ops (rs : List dropped_range) : List Op :=
  rs.map (fun r => Op.notify_dropped r.begin_id r.end_id)

/-- The ranges of a history are non-empty ranges of 64-bit event ids from 1 on,
and no range begins where its predecessor begins. -/
def fresh_ranges (rs : List dropped_range) : Prop :=
  (∀ r ∈ rs, 1 ≤ r.begin_id ∧ r.begin_id ≤ r.end_id ∧ r.end_id < WORD) ∧
    ∀ (i : Nat) (a b : dropped_range), rs[i]? = some a → rs[i + 1]? = some b →
      a.begin_id ≠ b.begin_id

/-- The registry of `b` after the history `rs`: five slots, the cursor at the
number of calls modulo 5, the `k`-th range (counted from 1) in slot `k % 5` for
the last five `k`, and the other slots empty. -/
structure RegHist (b : buffer) (rs : List dropped_range) : Prop where
  len : b.shmbuffer.info.dropped_ranges.length = DROPPED_RANGES_NUM
  next : b.shmbuffer.info.dropped_ranges_next = rs.length % DROPPED_RANGES_NUM
  recent : ∀ (k : Nat), 1 ≤ k → k ≤ rs.length → rs.length < k + DROPPED_RANGES_NUM →
    b.shmbuffer.info.dropped_ranges[k % DROPPED_RANGES_NUM]? = rs[k - 1]?
  empty : ∀ (j : Nat), j < DROPPED_RANGES_NUM →
    (∀ (k : Nat), 1 ≤ k → k ≤ rs.length → rs.length < k + DROPPED_RANGES_NUM →
      k % DROPPED_RANGES_NUM ≠ j) →
    b.shmbuffer.info.dropped_ranges[j]? = some { begin_id := 0, end_id := 0 }

/-- A history of six calls, one more than the registry has slots. -/
def example_ranges : List dropped_range :=
  [{ begin_id := 1, end_id := 1 }, { begin_id := 2, end_id := 3 }, { begin_id := 4, end_id := 4 },
   { begin_id := 5, end_id := 9 }, { begin_id := 10, end_id := 10 },
   { begin_id := 11, end_id := 12 }]

/-! ## Invariants of the aux-buffer pool -/

/-- The invariant of the age list: the current segment, if there is one, is its
last element, and there is none only while the list is empty; the list holds
the segments of the vector, each once, and all of them are mapped. -/
structure AgeInv (b : buffer) : Prop where
  last : ∀ (c : Nat), b.cur_aux_buff = some c → b.aux_buffers_age.getLast? = some c
  empty : b.cur_aux_buff = none → b.aux_buffers_age = []
  perm : b.aux_buffers_age.Perm b.aux_buffers
  nodup : b.aux_buffers_age.Nodup
  valid : ∀ p ∈ b.aux_buffers_age, p < b.aux_shm.length

/-- A well-formed aux segment: the head is inside the data area, the data area
is as long as the size field says, and a segment flagged reusable is empty. -/
def seg_ok (ab : aux_buffer) : Prop :=
  ab.head ≤ ab.size ∧ ab.data.length = ab.size ∧ ab.size < WORD ∧
    (ab.reusable = true → ab.head = 0)

/-- The current segment is not flagged reusable. -/
def cur_ok (b : buffer) : Prop :=
  ∀ (c : Nat), b.cur_aux_buff = some c → ∃ ab, b.aux_shm[c]? = some ab ∧ ab.reusable = false

/-- The invariant of the pool of aux segments of a producer. -/
structure PoolInv (b : buffer) : Prop where
  age : AgeInv b
  cur : cur_ok b
  segs : ∀ (p : Nat) (ab : aux_buffer), b.aux_shm[p]? = some ab → seg_ok ab

/-- A request for `len` bytes for which the computation of the segment length
in `new_aux_buffer` does not wrap. -/
def fitting_request (pg_size len : Nat) : Prop :=
  len + sizeof_aux_buffer + 2 * pg_size < 2 ^ 64

/-- The calls whose string, if any, is a fitting request. -/
def fitting_op (pg_size : Nat) : Op → Prop
  | Op.push_str _ str => ∀ n, strlen str = some n → fitting_request pg_size (n + 1)
  | Op.push_strn _ _ len => fitting_request pg_size len
  | _ => True

/-! ## The event ids of the aux segments -/

/-- The watermarks of a segment that holds strings are in order and not above
the largest event id `m` pushed so far. -/
def wm_ok (m : Nat) (ab : aux_buffer) : Prop :=
  ab.first_event_id ≠ 0 → ab.first_event_id ≤ ab.last_event_id ∧ ab.last_event_id ≤ m

/-- The segment `ab1` is a later state of `ab`: unless the reset block ran in
between, a first event id that was set is kept and the last event id has not
gone down. -/
def wm_keeps (ab ab1 : aux_buffer) : Prop :=
  ab.generation ≤ ab1.generation ∧
  (ab1.generation = ab.generation → ab.first_event_id ≠ 0 →
    ab1.first_event_id = ab.first_event_id ∧ ab.last_event_id ≤ ab1.last_event_id)

/-- The string pushes of a history carry event ids that are at least 1, at least
`m`, and do not go down. -/
def ids_ok : Nat → List Op → Prop
  | _, [] => True
  | m, Op.push_str e _ :: ops => 1 ≤ e ∧ m ≤ e ∧ ids_ok e ops
  | m, Op.push_strn e _ _ :: ops => 1 ≤ e ∧ m ≤ e ∧ ids_ok e ops
  | m, _ :: ops => ids_ok m ops

/-- The event id of the last string push of a history, `m` when there is
none. -/
def last_id : Nat → List Op → Nat
  | m, [] => m
  | _, Op.push_str e _ :: ops => last_id e ops
  | _, Op.push_strn e _ _ :: ops => last_id e ops
  | m, _ :: ops => last_id m ops

/-! ## Raw memory: lemmas -/

theorem memcpy_length {mem src out : List Nat} {off n : Nat}
    (h : memcpy mem off src n = some out) : out.length = mem.length := by
  unfold memcpy at h
  split at h
  · rename_i hb
    cases h
    simp [List.length_append, List.length_take, List.length_drop]
    omega
  · cases h

theorem memcpy_isSome {mem src : List Nat} {off n : Nat}
    (h1 : off + n ≤ mem.length) (h2 : n ≤ src.length) :
    memcpy mem off src n = some (mem.take off ++ src.take n ++ mem.drop (off + n)) := by
  unfold memcpy
  rw [if_pos ⟨h1, h2⟩]

/-- Reading a window that a `memcpy` did not touch. -/
theorem memread_memcpy_disjoint {mem src out : List Nat} {off n off2 m : Nat}
    (h : memcpy mem off src n = some out)
    (hd : off2 + m ≤ off ∨ off + n ≤ off2) :
    memread out off2 m = memread mem off2 m := by
  have hl := memcpy_length h
  unfold memcpy at h
  split at h
  · rename_i hb
    cases h
    unfold memread
    rw [hl]
    split
    · rename_i hm
      congr 1
      apply List.ext_getElem?
      intro i
      simp only [List.getElem?_take, List.getElem?_drop]
      split
      · rcases hd with hd | hd
        · rw [List.append_assoc, List.getElem?_append_left (by simp; omega)]
          simp [List.getElem?_take]; omega
        · rw [List.getElem?_append_right (by simp; omega)]
          simp [List.getElem?_drop]
          have : min off mem.length = off := by omega
          have : min n src.length = n := by omega
          congr 1; omega
      · rfl
    · rfl
  · cases h

/-- Reading back the window a `memcpy` wrote, possibly with more bytes after it. -/
theorem memread_memcpy_same {mem src out : List Nat} {off n m : Nat}
    (h : memcpy mem off src n = some out) (hm : n ≤ m) (hfit : off + m ≤ mem.length) :
    ∃ bytes, memread out off m = some bytes ∧ bytes.length = m ∧ bytes.take n = src.take n := by
  have hl := memcpy_length h
  unfold memcpy at h
  split at h
  · rename_i hb
    cases h
    unfold memread
    rw [hl, if_pos hfit]
    refine ⟨_, rfl, ?_, ?_⟩
    · simp [List.length_take, List.length_drop]; omega
    · apply List.ext_getElem?
      intro i
      simp only [List.getElem?_take, List.getElem?_drop]
      split
      · rw [if_pos (by omega)]
        rw [List.append_assoc, List.getElem?_append_right (by simp)]
        rw [List.getElem?_append_left (by simp; omega)]
        simp [List.getElem?_take]
        have : min off mem.length = off := by omega
        rw [this]
        simp
        intro; omega
      · rfl
  · cases h

theorem memread_length {mem out : List Nat} {off n : Nat} (h : memread mem off n = some out) :
    out.length = n := by
  unfold memread at h
  split at h
  · cases h; simp [List.length_take, List.length_drop]; omega
  · cases h

theorem memread_isSome {mem : List Nat} {off n : Nat} (h : off + n ≤ mem.length) :
    ∃ out, memread mem off n = some out := by
  unfold memread; rw [if_pos h]; exact ⟨_, rfl⟩


theorem ring_pos {N P Q : Nat} (hN : 0 < N) (hle : Q ≤ P) (hocc : P - Q < N) :
    P % N < N ∧ Q % N < N ∧ (P % N = Q % N + (P - Q) ∨ P % N + N = Q % N + (P - Q)) := by
  have ht : Q % N < N := Nat.mod_lt _ hN
  refine ⟨Nat.mod_lt _ hN, ht, ?_⟩
  have hP : P = Q + (P - Q) := by omega
  have h1 : P % N = (Q % N + (P - Q)) % N := by
    conv_lhs => rw [hP]
    rw [Nat.add_mod, Nat.mod_eq_of_lt hocc]
  by_cases hc : Q % N + (P - Q) < N
  · left; rw [h1, Nat.mod_eq_of_lt hc]
  · right
    rw [h1, Nat.mod_eq_sub_mod (by omega), Nat.mod_eq_of_lt (by omega)]
    omega

theorem mod_ne_of_lt_of_sub_lt {N a b : Nat} (hab : a < b) (hd : b - a < N) : a % N ≠ b % N := by
  intro h
  have h2 : (b - a) % N = 0 := Nat.sub_mod_eq_zero_of_mod_eq h.symm
  rw [Nat.mod_eq_of_lt hd] at h2
  omega

theorem slot_disjoint {a b E n : Nat} (hne : a ≠ b) (hn : n ≤ E) :
    a * E + E ≤ b * E ∨ b * E + n ≤ a * E := by
  rcases Nat.lt_or_gt_of_ne hne with h | h
  · left
    calc a * E + E = (a + 1) * E := by ring
      _ ≤ b * E := Nat.mul_le_mul_right E h
  · right
    calc b * E + n ≤ b * E + E := by omega
      _ = (b + 1) * E := by ring
      _ ≤ a * E := Nat.mul_le_mul_right E h

theorem slot_inside {a N E : Nat} (h : a < N) : a * E + E ≤ N * E := by
  calc a * E + E = (a + 1) * E := by ring
    _ ≤ N * E := Nat.mul_le_mul_right E h

theorem ring_size_eq {b : buffer} {E N Q : Nat} {pushed : List (List Nat)}
    (h : RingInv b E N pushed Q) : buffer_size b = pushed.length - Q := by
  have hN : 0 < N := by have := h.cap; omega
  obtain ⟨h1, h2, h3⟩ := ring_pos hN h.le h.occ
  unfold buffer_size shm_spsc_ringbuf_size
  rw [h.head, h.tail, h.rcap]
  rcases h3 with h3 | h3
  · have : pushed.length % N + N - Q % N = (pushed.length - Q) + N := by omega
    rw [this, Nat.add_mod_right, Nat.mod_eq_of_lt h.occ]
  · have : pushed.length % N + N - Q % N = (pushed.length - Q) := by omega
    rw [this, Nat.mod_eq_of_lt h.occ]

theorem write_off_eq {b : buffer} {E N Q : Nat} {pushed : List (List Nat)}
    (h : RingInv b E N pushed Q) :
    ∃ n, shm_spsc_ringbuf_write_off_nowrap (ringbuf_of b) = (pushed.length % N, n) ∧
      (n = 0 ↔ ¬ (pushed.length - Q + 1 < N)) := by
  have hN : 0 < N := by have := h.cap; omega
  obtain ⟨h1, h2, h3⟩ := ring_pos hN h.le h.occ
  have hocc := h.occ
  unfold shm_spsc_ringbuf_write_off_nowrap
  rw [h.head, h.tail, h.rcap]
  refine ⟨_, rfl, ?_⟩
  split
  · omega
  · split <;> omega

theorem read_off_eq {b : buffer} {E N Q : Nat} {pushed : List (List Nat)}
    (h : RingInv b E N pushed Q) :
    ∃ n, shm_spsc_ringbuf_read_off_nowrap (ringbuf_of b) = (Q % N, n) ∧
      (n = 0 ↔ ¬ (Q < pushed.length)) := by
  have hN : 0 < N := by have := h.cap; omega
  obtain ⟨h1, h2, h3⟩ := ring_pos hN h.le h.occ
  have hocc := h.occ
  have hle := h.le
  unfold shm_spsc_ringbuf_read_off_nowrap
  rw [h.head, h.tail, h.rcap]
  refine ⟨_, rfl, ?_⟩
  split <;> omega


theorem buffer_push_spec {b : buffer} {E N Q : Nat} {pushed : List (List Nat)}
    (h : RingInv b E N pushed Q) (elem : List Nat) (size : Nat)
    (hs : size ≤ E) (hl : size ≤ elem.length) :
    (pushed.length - Q + 1 < N →
      ∃ b1, buffer_push b elem size = some (b1, true) ∧
        RingInv b1 E N (pushed ++ [elem.take size]) Q) ∧
    (¬ (pushed.length - Q + 1 < N) → buffer_push b elem size = some (b, false)) := by
  have hN : 0 < N := by have := h.cap; omega
  obtain ⟨hh, ht, -⟩ := ring_pos hN h.le h.occ
  obtain ⟨n, hw, hn⟩ := write_off_eq h
  have hready : buffer_is_ready b = true := by
    simp [buffer_is_ready, buffer_is_destroyed, h.alive]
  have hdes : buffer_is_destroyed b = false := by
    simp [buffer_is_destroyed, h.alive]
  have hNE : N ≤ N * E := Nat.le_mul_of_pos_right N h.epos
  have hE := h.epos
  have hsmall := h.small
  have hend : BUFF_END b.shmbuffer = N * E := by
    have hNW : N % WORD = N := Nat.mod_eq_of_lt (by omega)
    unfold BUFF_END
    rw [h.elem, h.cap, hNW, Nat.mul_comm, Nat.mod_eq_of_lt hsmall]
  have hin := slot_inside (E := E) hh
  have hfits := h.fits
  constructor
  · intro hroom
    have hn0 : n ≠ 0 := fun h0 => (hn.1 h0) hroom
    have hstart : buffer_start_push b = some (some (pushed.length % N * E)) := by
      unfold buffer_start_push
      simp only [hdes, hw, h.elem]
      simp [hn0, hend]
      omega
    obtain ⟨newdata, hcpy⟩ : ∃ d, memcpy b.shmbuffer.data (pushed.length % N * E) elem size
        = some d := ⟨_, memcpy_isSome (by omega) hl⟩
    refine ⟨set_ringbuf { b with shmbuffer := { b.shmbuffer with data := newdata } }
        (shm_spsc_ringbuf_write_finish (ringbuf_of b) 1), ?_, ?_⟩
    · unfold buffer_push
      simp only [hready, h.elem, hstart, hcpy, buffer_finish_push, buffer_is_ready,
        buffer_is_destroyed, h.alive]
      simp [hs]
      rfl
    · have hlen := memcpy_length hcpy
      constructor
      · exact h.elem
      · exact h.cap
      · simpa [set_ringbuf, ringbuf_of, shm_spsc_ringbuf_write_finish] using h.rcap
      · have := h.rcap
        simp only [ringbuf_of] at this
        simp [set_ringbuf, ringbuf_of, shm_spsc_ringbuf_write_finish, this, h.head]
        have h2 := h.head
        simp only [ringbuf_of] at h2
        rw [h2, Nat.mod_add_mod]
      · simpa [set_ringbuf, ringbuf_of, shm_spsc_ringbuf_write_finish] using h.tail
      · have := h.le; simp; omega
      · have := h.le; simp; omega
      · exact h.epos
      · simp only [set_ringbuf]; rw [hlen]; exact hfits
      · exact hsmall
      · exact h.alive
      · intro j x hj hQ
        simp only [set_ringbuf]
        by_cases hjl : j < pushed.length
        · rw [List.getElem?_append_left hjl] at hj
          obtain ⟨bytes, hb, hbx⟩ := h.slots j x hj hQ
          refine ⟨bytes, ?_, hbx⟩
          rw [← hb]
          apply memread_memcpy_disjoint hcpy
          have hne : j % N ≠ pushed.length % N :=
            mod_ne_of_lt_of_sub_lt hjl (by have := h.occ; omega)
          rcases slot_disjoint (E := E) (n := size) hne hs with hd | hd
          · left; exact hd
          · right; exact hd
        · have hje : j = pushed.length := by
            have := (List.getElem?_eq_some_iff.1 hj).1
            simp at this; omega
          subst hje
          simp at hj
          subst hj
          obtain ⟨bytes, hb, _, hbt⟩ := memread_memcpy_same hcpy hs (by omega)
          refine ⟨bytes, hb, ?_⟩
          simp [List.length_take, Nat.min_eq_left hl, hbt]
  · intro hfull
    have hn0 : n = 0 := hn.2 hfull
    have hstart : buffer_start_push b = some none := by
      unfold buffer_start_push
      simp only [hdes, hw]
      simp [hn0]
    unfold buffer_push
    simp only [hready, h.elem, hstart]
    simp [hs]


theorem buffer_pop_spec {b : buffer} {E N Q : Nat} {pushed : List (List Nat)}
    (h : RingInv b E N pushed Q) :
    (Q < pushed.length →
      ∃ b1 y x, buffer_pop b = some (b1, some y) ∧ pushed[Q]? = some x ∧ y.length = E ∧
        y.take x.length = x ∧ RingInv b1 E N pushed (Q + 1)) ∧
    (¬ (Q < pushed.length) → buffer_pop b = some (b, none)) := by
  have hN : 0 < N := by have := h.cap; omega
  obtain ⟨hh, ht, -⟩ := ring_pos hN h.le h.occ
  obtain ⟨n, hr, hn⟩ := read_off_eq h
  have hready : buffer_is_ready b = true := by
    simp [buffer_is_ready, buffer_is_destroyed, h.alive]
  have hr2 : shm_spsc_ringbuf_read_off_nowrap b.shmbuffer.info.ringbuf = (Q % N, n) := hr
  constructor
  · intro hne
    have hn0 : n ≠ 0 := fun h0 => (hn.1 h0) hne
    obtain ⟨x, hx⟩ : ∃ x, pushed[Q]? = some x := ⟨pushed[Q], List.getElem?_eq_getElem hne⟩
    obtain ⟨y, hy, hyx⟩ := h.slots Q x hx (Nat.le_refl _)
    refine ⟨set_ringbuf b (shm_spsc_ringbuf_consume (ringbuf_of b) 1), y, x, ?_, hx,
      memread_length hy, hyx, ?_⟩
    · unfold buffer_pop buffer_read_pointer
      simp only [hready, hr2, h.elem]
      simp [hn0, hy]
    · constructor
      · exact h.elem
      · exact h.cap
      · simpa [set_ringbuf, ringbuf_of, shm_spsc_ringbuf_consume] using h.rcap
      · simpa [set_ringbuf, ringbuf_of, shm_spsc_ringbuf_consume] using h.head
      · have h1 := h.rcap
        have h2 := h.tail
        simp only [ringbuf_of] at h1 h2
        simp [set_ringbuf, ringbuf_of, shm_spsc_ringbuf_consume, h1, h2]
      · omega
      · have := h.occ; omega
      · exact h.epos
      · exact h.fits
      · exact h.small
      · exact h.alive
      · intro j x1 hj hQ
        exact h.slots j x1 hj (by omega)
  · intro hemp
    have hn0 : n = 0 := hn.2 hemp
    unfold buffer_pop buffer_read_pointer
    simp only [hready, hr2]
    simp [hn0]

theorem initialize_shared_buffer_inv {S E C : Nat} (hE : 1 ≤ E) (hC : 1 ≤ C)
    (hfit : E * (C + 1) + S + PAGE_SIZE ≤ 2 ^ 64) :
    ∃ b0, initialize_shared_buffer S E C = some b0 ∧ RingInv b0 E (C + 1) [] 0 := by
  have e1 : E * (C + 1) = C * E + E := by ring
  have e2 : (C + 1) * E = C * E + E := by ring
  have hCE : C ≤ C * E := Nat.le_mul_of_pos_right C hE
  have hP : PAGE_SIZE = 4096 := rfl
  have hW : WORD = 2 ^ 64 := rfl
  have hCW : (C + 1) % WORD = C + 1 := Nat.mod_eq_of_lt (by omega)
  have hsz : (E * (C + 1) + S) % WORD = E * (C + 1) + S := Nat.mod_eq_of_lt (by omega)
  have hru : (E * (C + 1) + S) % PAGE_SIZE < PAGE_SIZE := Nat.mod_lt _ (by omega)
  have hms : compute_shm_size S E (C + 1) = E * (C + 1) + S + (E * (C + 1) + S) % PAGE_SIZE := by
    unfold compute_shm_size
    simp only [hsz]
    exact Nat.mod_eq_of_lt (by omega)
  unfold initialize_shared_buffer
  rw [if_neg (by omega), if_neg (by omega)]
  refine ⟨_, rfl, ?_⟩
  · constructor
    · rfl
    · rfl
    · simp [ringbuf_of, shm_spsc_ringbuf_init, fresh_shared_buffer, hCW]
    · simp [ringbuf_of, shm_spsc_ringbuf_init, fresh_shared_buffer]
    · simp [ringbuf_of, shm_spsc_ringbuf_init, fresh_shared_buffer]
    · simp
    · simp
    · omega
    · simp only [fresh_shared_buffer, List.length_append, List.length_replicate, hCW, hms]
      omega
    · omega
    · rfl
    · intro j x hj; simp at hj


theorem ring_step_inv {s : RingRun} {E N : Nat} (h : RunInv s E N) (op : RingOp)
    (hop : ∀ elem size, op = RingOp.push elem size → size ≤ E ∧ size ≤ elem.length) :
    ∃ s1, ring_step s op = some s1 ∧ RunInv s1 E N := by
  cases op with
  | push elem size =>
    obtain ⟨hs, hl⟩ := hop elem size rfl
    obtain ⟨hroom, hfull⟩ := buffer_push_spec h.ring elem size hs hl
    by_cases hc : s.pushed.length - s.popped.length + 1 < N
    · obtain ⟨b1, hb1, hinv⟩ := hroom hc
      refine ⟨{ s with buff := b1, pushed := s.pushed ++ [elem.take size] }, ?_, ?_⟩
      · simp [ring_step, hb1]
      · refine ⟨hinv, ?_⟩
        intro j y hj
        obtain ⟨x, hx, hy⟩ := h.pops j y hj
        refine ⟨x, ?_, hy⟩
        have hjl : j < s.pushed.length := (List.getElem?_eq_some_iff.1 hx).1
        simp only []
        rw [List.getElem?_append_left hjl]
        exact hx
    · refine ⟨{ s with buff := s.buff }, ?_, ?_⟩
      · simp [ring_step, hfull hc]
      · exact ⟨h.ring, h.pops⟩
  | pop =>
    obtain ⟨hne, hemp⟩ := buffer_pop_spec h.ring
    by_cases hc : s.popped.length < s.pushed.length
    · obtain ⟨b1, y, x, hb1, hx, hyl, hyx, hinv⟩ := hne hc
      refine ⟨{ s with buff := b1, popped := s.popped ++ [y] }, ?_, ?_⟩
      · simp [ring_step, hb1]
      · refine ⟨by simpa using hinv, ?_⟩
        intro j y1 hj
        by_cases hjl : j < s.popped.length
        · simp only [] at hj
          rw [List.getElem?_append_left hjl] at hj
          exact h.pops j y1 hj
        · have hje : j = s.popped.length := by
            have := (List.getElem?_eq_some_iff.1 hj).1
            simp at this; omega
          subst hje
          simp at hj
          subst hj
          exact ⟨x, hx, hyl, hyx⟩
    · refine ⟨{ s with buff := s.buff }, ?_, ?_⟩
      · simp [ring_step, hemp hc]
      · exact ⟨h.ring, h.pops⟩

theorem ring_run_inv {E N : Nat} (ops : List RingOp) :
    ∀ (s : RingRun), RunInv s E N →
      (∀ elem size, RingOp.push elem size ∈ ops → size ≤ E ∧ size ≤ elem.length) →
      ∃ s1, ring_run s ops = some s1 ∧ RunInv s1 E N := by
  induction ops with
  | nil => intro s h _; exact ⟨s, rfl, h⟩
  | cons op ops ih =>
    intro s h hops
    obtain ⟨s1, hs1, hinv1⟩ := ring_step_inv h op (by
      intro elem size he
      exact hops elem size (by rw [he]; exact List.mem_cons_self _ _))
    obtain ⟨s2, hs2, hinv2⟩ := ih s1 hinv1 (by
      intro elem size he
      exact hops elem size (List.mem_cons_of_mem _ he))
    exact ⟨s2, by simp [ring_run, hs1, hs2], hinv2⟩

theorem ring_run_pushed_mem (ops : List RingOp) :
    ∀ (s s1 : RingRun), ring_run s ops = some s1 → ∀ x ∈ s1.pushed,
      x ∈ s.pushed ∨ ∃ elem size, RingOp.push elem size ∈ ops ∧ x = elem.take size := by
  induction ops with
  | nil =>
    intro s s1 h x hx
    simp [ring_run] at h
    subst h
    exact Or.inl hx
  | cons op ops ih =>
    intro s s1 h x hx
    unfold ring_run at h
    split at h
    · cases h
    · rename_i s2 hs2
      rcases ih s2 s1 h x hx with h1 | ⟨elem, size, hm, he⟩
      · cases op with
        | push elem size =>
          simp only [ring_step] at hs2
          split at hs2
          · cases hs2
          · cases hs2
            simp at h1
            rcases h1 with h1 | h1
            · exact Or.inl h1
            · exact Or.inr ⟨elem, size, List.mem_cons_self _ _, h1⟩
          · cases hs2
            exact Or.inl h1
        | pop =>
          simp only [ring_step] at hs2
          split at hs2
          · cases hs2
          · cases hs2; exact Or.inl h1
          · cases hs2; exact Or.inl h1
      · exact Or.inr ⟨elem, size, List.mem_cons_of_mem _ hm, he⟩

theorem runInv_fresh {b0 : buffer} {E N : Nat} (h : RingInv b0 E N [] 0) :
    RunInv { buff := b0, pushed := [], popped := [] } E N :=
  ⟨h, by intro j y hj; simp at hj⟩


theorem push_all_spec {E N Q : Nat} (elems : List (List Nat × Nat)) :
    ∀ (b : buffer) (pushed : List (List Nat)) (r : Nat), RingInv b E N pushed Q →
      r = N - 1 - (pushed.length - Q) →
      (∀ e ∈ elems, e.2 ≤ E ∧ e.2 ≤ e.1.length) →
      ∃ b1 pushed1,
        push_all b elems = some (b1,
          List.replicate (min elems.length r) true ++ List.replicate (elems.length - r) false) ∧
        RingInv b1 E N pushed1 Q ∧ pushed1.length = pushed.length + min elems.length r := by
  induction elems with
  | nil =>
    intro b pushed r h _ _
    exact ⟨b, pushed, by simp [push_all], h, by simp⟩
  | cons e rest ih =>
    intro b pushed r h hr hsz
    obtain ⟨elem, size⟩ := e
    obtain ⟨hs, hl⟩ := hsz (elem, size) (List.mem_cons_self _ _)
    have hrest : ∀ e ∈ rest, e.2 ≤ E ∧ e.2 ≤ e.1.length :=
      fun e he => hsz e (List.mem_cons_of_mem _ he)
    obtain ⟨hroom, hfull⟩ := buffer_push_spec h elem size hs hl
    have hocc := h.occ
    have hle := h.le
    by_cases hc : pushed.length - Q + 1 < N
    · obtain ⟨b1, hb1, hinv1⟩ := hroom hc
      obtain ⟨b2, pushed2, hb2, hinv2, hlen2⟩ := ih b1 (pushed ++ [elem.take size]) (r - 1) hinv1
        (by simp; omega) hrest
      refine ⟨b2, pushed2, ?_, hinv2, ?_⟩
      · have e1 : min (rest.length + 1) r = min rest.length (r - 1) + 1 := by omega
        have e2 : rest.length + 1 - r = rest.length - (r - 1) := by omega
        simp only [push_all, hb1, hb2, List.length_cons, e1, e2, List.replicate_succ,
          List.cons_append]
      · simp at hlen2 ⊢; omega
    · obtain ⟨b2, pushed2, hb2, hinv2, hlen2⟩ := ih b pushed r h hr hrest
      have hr0 : r = 0 := by omega
      refine ⟨b2, pushed2, ?_, hinv2, ?_⟩
      · subst hr0
        simp only [push_all, hfull hc, hb2, List.length_cons, Nat.min_zero, Nat.sub_zero,
          List.replicate_zero, List.nil_append, List.replicate_succ]
      · simp at hlen2 ⊢; omega

/-- C1: on a buffer freshly initialised by `initialize_shared_buffer` with
capacity `C ≥ 1` and element size `E ≥ 1` (sizes that do not wrap `size_t`),
`C + 1` consecutive calls of `buffer_push` with `size ≤ E` and no pop in
between return `true` the first `C` times and `false` the last time, and
`buffer_size` is then exactly `C`. -/
theorem C1_fullness_boundary (S E C : Nat) (elems : List (List Nat × Nat))
    (hE : 1 ≤ E) (hC : 1 ≤ C) (hfit : E * (C + 1) + S + PAGE_SIZE ≤ 2 ^ 64)
    (hlen : elems.length = C + 1)
    (hsz : ∀ e ∈ elems, e.2 ≤ E ∧ e.2 ≤ e.1.length) :
    ∃ b0 b, initialize_shared_buffer S E C = some b0 ∧
      push_all b0 elems = some (b, List.replicate C true ++ [false]) ∧
      buffer_size b = C := by
  obtain ⟨b0, hb0, hinv0⟩ := initialize_shared_buffer_inv hE hC hfit
  obtain ⟨b, pushed, hb, hinv, hl⟩ := push_all_spec elems b0 [] C hinv0 (by simp) hsz
  refine ⟨b0, b, hb0, ?_, ?_⟩
  · rw [hb, hlen]
    have e1 : min (C + 1) C = C := by omega
    have e2 : C + 1 - C = 1 := by omega
    rw [e1, e2]
    rfl
  · rw [ring_size_eq hinv, hl, hlen]
    simp

/-- Witness of C1: capacity 4 and 16-byte elements, the scenario S1. -/
theorem C1_fullness_boundary_witness :
    ∃ b0 b, initialize_shared_buffer 320 16 4 = some b0 ∧
      push_all b0 (List.replicate 5 (List.range 16, 16))
        = some (b, List.replicate 4 true ++ [false]) ∧
      buffer_size b = 4 :=
  C1_fullness_boundary 320 16 4 (List.replicate 5 (List.range 16, 16))
    (by decide) (by decide) (by decide) (by decide) (by decide)

/-- C2: in every run of `buffer_push` and `buffer_pop` calls on a freshly
initialised buffer, no call fails, there are at most as many returned elements
as accepted ones, the `j`-th element returned by a pop starts with the bytes of
the `j`-th element accepted by a push, and when every push has
`size = elem_size` the sequence of returned elements is a prefix of the
sequence of accepted elements. -/
theorem C2_spsc_fifo (S E C : Nat) (ops : List RingOp)
    (hE : 1 ≤ E) (hC : 1 ≤ C) (hfit : E * (C + 1) + S + PAGE_SIZE ≤ 2 ^ 64)
    (hops : ∀ elem size, RingOp.push elem size ∈ ops → size ≤ E ∧ size ≤ elem.length) :
    ∃ b0 s, initialize_shared_buffer S E C = some b0 ∧
      ring_run { buff := b0, pushed := [], popped := [] } ops = some s ∧
      s.popped.length ≤ s.pushed.length ∧
      (∀ (j : Nat) (y : List Nat), s.popped[j]? = some y →
        ∃ x, s.pushed[j]? = some x ∧ y.take x.length = x) ∧
      ((∀ elem size, RingOp.push elem size ∈ ops → size = E) → s.popped <+: s.pushed) := by
  obtain ⟨b0, hb0, hinv0⟩ := initialize_shared_buffer_inv hE hC hfit
  obtain ⟨s, hs, hinv⟩ := ring_run_inv ops _ (runInv_fresh hinv0) hops
  refine ⟨b0, s, hb0, hs, hinv.ring.le, ?_, ?_⟩
  · intro j y hj
    obtain ⟨x, hx, _, hyx⟩ := hinv.pops j y hj
    exact ⟨x, hx, hyx⟩
  · intro hall
    have hlenE : ∀ x ∈ s.pushed, x.length = E := by
      intro x hx
      rcases ring_run_pushed_mem ops _ s hs x hx with h1 | ⟨elem, size, hm, he⟩
      · simp at h1
      · have := hall elem size hm
        have := (hops elem size hm).2
        subst he
        simp [List.length_take]; omega
    have heq : s.popped = s.pushed.take s.popped.length := by
      apply List.ext_getElem?
      intro j
      by_cases hj : j < s.popped.length
      · obtain ⟨x, hx, hyl, hyx⟩ := hinv.pops j _ (List.getElem?_eq_getElem hj)
        have hxl := hlenE x (List.getElem?_mem hx)
        rw [hxl, ← hyl, List.take_length] at hyx
        rw [List.getElem?_take, if_pos hj, hx, List.getElem?_eq_getElem hj, hyx]
      · rw [List.getElem?_take, if_neg hj]
        exact List.getElem?_eq_none (by omega)
    rw [heq]
    exact List.take_prefix _ _

/-- Witness of C2: the scenarios S1 and S2 on a buffer of capacity 4. -/
theorem C2_spsc_fifo_witness :
    ∃ b0 s, initialize_shared_buffer 320 2 4 = some b0 ∧
      ring_run { buff := b0, pushed := [], popped := [] }
        [RingOp.push [1, 2] 2, RingOp.push [3, 4] 2, RingOp.pop, RingOp.pop, RingOp.pop]
        = some s ∧
      s.popped.length ≤ s.pushed.length ∧
      (∀ (j : Nat) (y : List Nat), s.popped[j]? = some y →
        ∃ x, s.pushed[j]? = some x ∧ y.take x.length = x) ∧
      ((∀ elem size, RingOp.push elem size ∈
          [RingOp.push [1, 2] 2, RingOp.push [3, 4] 2, RingOp.pop, RingOp.pop, RingOp.pop] →
          size = 2) → s.popped <+: s.pushed) :=
  C2_spsc_fifo 320 2 4 _ (by decide) (by decide) (by decide) (by
    intro elem size h
    simp at h
    rcases h with ⟨rfl, rfl⟩ | ⟨rfl, rfl⟩ <;> decide)

/-- C3 (as amended): in every run of `buffer_push` and `buffer_pop` calls on a
freshly initialised buffer, the `j`-th successful pop copies `elem_size` bytes
whose first `size` bytes are the bytes written by the `j`-th accepted push
(`size ≤ elem_size` being the argument of that push); when `size = elem_size`
all the bytes it copies are the bytes written by that push. -/
theorem C3_pop_starts_with_pushed_bytes (S E C : Nat) (ops : List RingOp)
    (hE : 1 ≤ E) (hC : 1 ≤ C) (hfit : E * (C + 1) + S + PAGE_SIZE ≤ 2 ^ 64)
    (hops : ∀ elem size, RingOp.push elem size ∈ ops → size ≤ E ∧ size ≤ elem.length) :
    ∃ b0 s, initialize_shared_buffer S E C = some b0 ∧
      ring_run { buff := b0, pushed := [], popped := [] } ops = some s ∧
      ∀ (j : Nat) (y : List Nat), s.popped[j]? = some y →
        ∃ x, s.pushed[j]? = some x ∧ y.length = E ∧ y.take x.length = x ∧
          (x.length = E → y = x) := by
  obtain ⟨b0, hb0, hinv0⟩ := initialize_shared_buffer_inv hE hC hfit
  obtain ⟨s, hs, hinv⟩ := ring_run_inv ops _ (runInv_fresh hinv0) hops
  refine ⟨b0, s, hb0, hs, ?_⟩
  intro j y hj
  obtain ⟨x, hx, hyl, hyx⟩ := hinv.pops j y hj
  refine ⟨x, hx, hyl, hyx, ?_⟩
  intro hxl
  rw [hxl, ← hyl, List.take_length] at hyx
  exact hyx

/-- Witness of C3 (as amended): two-byte slots, a full push and a short one. -/
theorem C3_pop_starts_with_pushed_bytes_witness :
    ∃ b0 s, initialize_shared_buffer 320 2 1 = some b0 ∧
      ring_run { buff := b0, pushed := [], popped := [] }
        [RingOp.push [1, 2] 2, RingOp.pop, RingOp.push [7] 1, RingOp.pop] = some s ∧
      ∀ (j : Nat) (y : List Nat), s.popped[j]? = some y →
        ∃ x, s.pushed[j]? = some x ∧ y.length = 2 ∧ y.take x.length = x ∧
          (x.length = 2 → y = x) :=
  C3_pop_starts_with_pushed_bytes 320 2 1 _ (by decide) (by decide) (by decide) (by
    intro elem size h
    simp at h
    rcases h with ⟨rfl, rfl⟩ | ⟨rfl, rfl⟩ <;> decide)

set_option maxRecDepth 100000 in
/-- C3 fails as stated: with two-byte slots and capacity 1, the push of the one
byte `9` is answered by a pop that copies the two bytes `9, 2`, the second
being left over from the element `1, 2` that used the slot before; the bytes
copied by the pops are not the bytes the matching pushes wrote. -/
theorem C3_counterexample :
    ((initialize_shared_buffer 320 2 1).bind (fun b0 =>
        ring_run { buff := b0, pushed := [], popped := [] }
          [RingOp.push [1, 2] 2, RingOp.pop, RingOp.push [7] 1, RingOp.pop,
            RingOp.push [9] 1, RingOp.pop])).map (fun s => (s.pushed, s.popped))
      = some ([[1, 2], [7], [9]], [[1, 2], [7, 0], [9, 2]]) ∧
    [[1, 2], [7, 0], [9, 2]] ≠ [[1, 2], [7], [9]] := by
  constructor
  · rfl
  · decide

theorem pack_handle_eq {off idx : Nat} (ho : off < 2 ^ 32) (hi : idx < 2 ^ 32) :
    pack_handle off idx = 2 ^ 32 * idx + off := by
  unfold pack_handle WORD
  have h1 : idx * 2 ^ 32 % 2 ^ 64 = idx * 2 ^ 32 := Nat.mod_eq_of_lt (by omega)
  rw [Nat.shiftLeft_eq, h1, Nat.lor_comm, Nat.mul_comm, ← Nat.mul_add_lt_is_or ho]
  exact Nat.mod_eq_of_lt (by omega)

theorem handle_idx_pack {off idx : Nat} (ho : off < 2 ^ 32) (hi : idx < 2 ^ 32) :
    handle_idx (pack_handle off idx) = idx := by
  rw [pack_handle_eq ho hi]
  unfold handle_idx
  rw [Nat.shiftRight_eq_div_pow]
  omega

theorem handle_off_pack {off idx : Nat} (ho : off < 2 ^ 32) (hi : idx < 2 ^ 32) :
    handle_off (pack_handle off idx) = off := by
  rw [pack_handle_eq ho hi]
  unfold handle_off
  have : (0xffffffff : Nat) = 2 ^ 32 - 1 := by norm_num
  rw [this, Nat.and_pow_two_sub_one_eq_mod]
  omega

/-- C5: for every aux index `idx < 2^32` and offset `off < 2^32` the handle
`off | (idx << 32)` built by `buffer_push_strn` is left unchanged when
`buffer_push_str` ORs `idx << 32` into it again, `buffer_get_str` decodes it to
exactly `idx` (by `>> 32`) and `off` (by `& 0xffffffff`), and two pairs with
the same handle are equal. -/
theorem C5_handle_packing (off idx : Nat) (ho : off < 2 ^ 32) (hi : idx < 2 ^ 32) :
    handle_idx (pack_handle off idx) = idx ∧
    handle_off (pack_handle off idx) = off ∧
    pack_handle (pack_handle off idx) idx = pack_handle off idx ∧
    pack_handle off idx = off + idx * 2 ^ 32 ∧
    ∀ off1 idx1, off1 < 2 ^ 32 → idx1 < 2 ^ 32 →
      pack_handle off1 idx1 = pack_handle off idx → off1 = off ∧ idx1 = idx := by
  refine ⟨handle_idx_pack ho hi, handle_off_pack ho hi, ?_, ?_, ?_⟩
  · rw [pack_handle_eq ho hi]
    unfold pack_handle WORD
    have h0 : idx * 2 ^ 32 % 2 ^ 64 = idx * 2 ^ 32 := Nat.mod_eq_of_lt (by omega)
    have h1 : 2 ^ 32 * idx + off = 2 ^ 32 * idx ||| off := Nat.mul_add_lt_is_or ho idx
    rw [Nat.shiftLeft_eq, h0, h1, Nat.mul_comm idx, Nat.lor_comm, ← Nat.lor_assoc,
      Nat.or_self, ← h1]
    exact Nat.mod_eq_of_lt (by omega)
  · rw [pack_handle_eq ho hi]; omega
  · intro off1 idx1 ho1 hi1 h
    rw [pack_handle_eq ho hi, pack_handle_eq ho1 hi1] at h
    omega

/-- Witness of C5: the handle of offset 6 in segment 3. -/
theorem C5_handle_packing_witness :
    handle_idx (pack_handle 6 3) = 3 ∧
    handle_off (pack_handle 6 3) = 6 ∧
    pack_handle (pack_handle 6 3) 3 = pack_handle 6 3 ∧
    pack_handle 6 3 = 6 + 3 * 2 ^ 32 ∧
    ∀ off1 idx1, off1 < 2 ^ 32 → idx1 < 2 ^ 32 →
      pack_handle off1 idx1 = pack_handle 6 3 → off1 = 6 ∧ idx1 = 3 :=
  C5_handle_packing 6 3 (by decide) (by decide)

/-! ## The aux-buffer pool: lemmas -/

theorem drop_ranges_lock_loop_eq (l : Bool) : drop_ranges_lock_loop l = true := by
  cases l <;> simp [drop_ranges_lock_loop, atomic_compare_exchange]

theorem lock_only_refl (b : buffer) : lock_only b b :=
  ⟨rfl, b.shmbuffer.info.dropped_ranges_lock, rfl⟩

theorem lock_only_trans {a b c : buffer} (h1 : lock_only a b) (h2 : lock_only b c) :
    lock_only a c := by
  obtain ⟨d1, l1, e1⟩ := h1
  obtain ⟨d2, l2, e2⟩ := h2
  exact ⟨d2.trans d1, l2, by rw [e2, e1]⟩

theorem reset_cond_congr {i j : buffer_info} (h1 : j.last_processed_id = i.last_processed_id)
    (h2 : j.dropped_ranges = i.dropped_ranges) (ab : aux_buffer) :
    reset_cond j ab ↔ reset_cond i ab := by
  unfold reset_cond
  rw [h1, h2]

theorem lock_only_reset_cond {b b1 : buffer} (h : lock_only b b1) (ab : aux_buffer) :
    reset_cond b1.shmbuffer.info ab ↔ reset_cond b.shmbuffer.info ab := by
  obtain ⟨_, l, e⟩ := h
  apply reset_cond_congr <;> rw [e]

theorem ab_was_dropped_spec (ab : aux_buffer) (buff : buffer) :
    lock_only buff (ab_was_dropped ab buff).2 ∧
    (ab_was_dropped ab buff).2.aux_shm = buff.aux_shm ∧
    (ab_was_dropped ab buff).2.cur_aux_buff = buff.cur_aux_buff ∧
    (ab_was_dropped ab buff).2.aux_buffers_age = buff.aux_buffers_age ∧
    (ab_was_dropped ab buff).2.aux_buffers = buff.aux_buffers ∧
    (ab_was_dropped ab buff).2.aux_buf_idx = buff.aux_buf_idx ∧
    ((ab_was_dropped ab buff).1 = true → reset_cond buff.shmbuffer.info ab) := by
  refine ⟨⟨rfl, false, rfl⟩, rfl, rfl, rfl, rfl, rfl, ?_⟩
  intro h
  simp only [ab_was_dropped, drop_ranges_lock, map_info, List.any_eq_true] at h
  obtain ⟨r, hr, hc⟩ := h
  right
  refine ⟨r, List.mem_of_mem_take hr, ?_⟩
  simp [range_covers] at hc
  exact ⟨hc.2.1, hc.2.2⟩

theorem walk_rel_refl (info : buffer_info) (ab : aux_buffer) : walk_rel info ab ab :=
  ⟨rfl, rfl, rfl, Nat.le_refl _, Or.inl ⟨rfl, rfl, rfl, rfl, fun h => h⟩⟩

theorem walk_rel_trans {info : buffer_info} {a b c : aux_buffer}
    (h1 : walk_rel info a b) (h2 : walk_rel info b c) : walk_rel info a c := by
  obtain ⟨d1, i1, s1, g1, r1⟩ := h1
  obtain ⟨d2, i2, s2, g2, r2⟩ := h2
  refine ⟨d2.trans d1, i2.trans i1, s2.trans s1, Nat.le_trans g1 g2, ?_⟩
  rcases r1 with ⟨e1, hh1, f1, l1, u1⟩ | ⟨lt1, c1⟩
  · rcases r2 with ⟨e2, hh2, f2, l2, u2⟩ | ⟨lt2, c2⟩
    · exact Or.inl ⟨e2.trans e1, hh2.trans hh1, f2.trans f1, l2.trans l1, fun h => u1 (u2 h)⟩
    · right
      refine ⟨by omega, ?_⟩
      unfold reset_cond at c2 ⊢
      rw [f1, l1] at c2
      exact c2
  · exact Or.inr ⟨by omega, c1⟩

theorem walk_rel_reset (info : buffer_info) (ab : aux_buffer) (h : reset_cond info ab)
    (f : Bool) : walk_rel info ab { aux_reset ab with reusable := f } :=
  ⟨rfl, rfl, rfl, by simp [aux_reset], Or.inr ⟨by simp [aux_reset], h⟩⟩

theorem walk_rel_clear (info : buffer_info) (ab : aux_buffer) :
    walk_rel info ab { ab with reusable := false } :=
  ⟨rfl, rfl, rfl, Nat.le_refl _, Or.inl ⟨rfl, rfl, rfl, rfl, by simp⟩⟩


/-- The post-condition of `writer_walk` used below. -/
theorem writer_walk_spec (size : Nat) (rest : List Nat) :
    ∀ (i : Nat) (buff buff1 : buffer) (res : Option Nat),
      writer_walk size i rest buff = some (buff1, res) →
      lock_only buff buff1 ∧ buff1.aux_shm.length = buff.aux_shm.length ∧
      buff1.aux_buf_idx = buff.aux_buf_idx ∧ buff1.aux_buffers = buff.aux_buffers ∧
      (∀ (p : Nat) (ab : aux_buffer), buff.aux_shm[p]? = some ab →
        ∃ ab1, buff1.aux_shm[p]? = some ab1 ∧ walk_rel buff.shmbuffer.info ab ab1) ∧
      (res = none → buff1.cur_aux_buff = buff.cur_aux_buff ∧
        buff1.aux_buffers_age = buff.aux_buffers_age) ∧
      (∀ p, res = some p → buff1.cur_aux_buff = some p ∧
        buff1.aux_buffers_age.getLast? = some p ∧
        ∃ ab1, buff1.aux_shm[p]? = some ab1 ∧ ab1.reusable = false ∧ size ≤ ab1.size) := by
  induction rest with
  | nil =>
    intro i buff buff1 res h
    simp only [writer_walk, Option.some.injEq, Prod.mk.injEq] at h
    obtain ⟨rfl, rfl⟩ := h
    exact ⟨lock_only_refl _, rfl, rfl, rfl, fun p ab h => ⟨ab, h, walk_rel_refl _ _⟩,
      fun _ => ⟨rfl, rfl⟩, fun p hp => by cases hp⟩
  | cons p rest ih =>
    intro i buff buff1 res h
    rw [writer_walk] at h
    split at h
    · cases h
    · rename_i ab hab
      -- the outcome of the reset test
      obtain ⟨hit, buffA, hAB, hlockA, hauxA, hcurA, hageA, hvecA, hidxA, hhit⟩ :
          ∃ hit buffA,
            (if ab.last_event_id ≤ buff.shmbuffer.info.last_processed_id then (true, buff)
              else ab_was_dropped ab buff) = (hit, buffA) ∧
            lock_only buff buffA ∧ buffA.aux_shm = buff.aux_shm ∧
            buffA.cur_aux_buff = buff.cur_aux_buff ∧
            buffA.aux_buffers_age = buff.aux_buffers_age ∧
            buffA.aux_buffers = buff.aux_buffers ∧
            buffA.aux_buf_idx = buff.aux_buf_idx ∧
            (hit = true → reset_cond buff.shmbuffer.info ab) := by
        by_cases hl : ab.last_event_id ≤ buff.shmbuffer.info.last_processed_id
        · exact ⟨true, buff, by rw [if_pos hl], lock_only_refl _, rfl, rfl, rfl, rfl, rfl,
            fun _ => Or.inl hl⟩
        · obtain ⟨h1, h2, h3, h4, h5, h6, h7⟩ := ab_was_dropped_spec ab buff
          exact ⟨_, _, by rw [if_neg hl], h1, h2, h3, h4, h5, h6, h7⟩
      rw [hAB] at h
      simp only [] at h
      have hplt : p < buff.aux_shm.length := (List.getElem?_eq_some_iff.1 hab).1
      have hrel1 : walk_rel buff.shmbuffer.info ab (if hit = true then aux_reset ab else ab) := by
        by_cases hh : hit = true
        · rw [if_pos hh]
          have := walk_rel_reset buff.shmbuffer.info ab (hhit hh) true
          simpa [aux_reset] using this
        · rw [if_neg hh]; exact walk_rel_refl _ _
      generalize (if hit = true then aux_reset ab else ab) = ab1 at h hrel1
      by_cases hchosen : ab1.reusable = true ∧ ab1.size ≥ size
      · rw [if_pos hchosen] at h
        by_cases hlast : buffA.aux_buffers_age.getLast? ≠ buffA.cur_aux_buff
        · rw [if_pos hlast] at h
          cases h
        · rw [if_neg hlast] at h
          simp only [Option.some.injEq, Prod.mk.injEq] at h
          obtain ⟨rfl, rfl⟩ := h
          refine ⟨⟨hlockA.1, hlockA.2⟩, by simp [hauxA], hidxA, hvecA, ?_, ?_, ?_⟩
          · intro q abq hq
            simp only [hauxA]
            by_cases hqp : p = q
            · subst hqp
              rw [hab] at hq
              cases hq
              refine ⟨_, by rw [List.getElem?_set, if_pos rfl, if_pos hplt], ?_⟩
              exact walk_rel_trans hrel1 (walk_rel_clear _ _)
            · exact ⟨abq, by rw [List.getElem?_set_ne hqp]; exact hq, walk_rel_refl _ _⟩
          · intro hn; cases hn
          · intro q hq
            cases hq
            refine ⟨rfl, by simp, { ab1 with reusable := false }, by
              simp only [hauxA]; rw [List.getElem?_set, if_pos rfl, if_pos hplt], rfl, hchosen.2⟩
      · rw [if_neg hchosen] at h
        obtain ⟨k1, k2, k3, k4, k5, k6, k7⟩ := ih _ _ _ _ h
        have hlock2 : ∀ (l : List aux_buffer), lock_only buff { buffA with aux_shm := l } :=
          fun _ => ⟨hlockA.1, hlockA.2⟩
        refine ⟨lock_only_trans (hlock2 _) k1, by simpa [hauxA] using k2, k3.trans hidxA,
          k4.trans hvecA, ?_, ?_, k7⟩
        · intro q abq hq
          have hinfo : ∀ (l : List aux_buffer) x y,
              walk_rel ({ buffA with aux_shm := l }).shmbuffer.info x y →
              walk_rel buff.shmbuffer.info x y := by
            intro l x y hxy
            obtain ⟨a1, a2, a3, a4, a5⟩ := hxy
            refine ⟨a1, a2, a3, a4, ?_⟩
            rcases a5 with a5 | ⟨a5, a6⟩
            · exact Or.inl a5
            · exact Or.inr ⟨a5, (lock_only_reset_cond (hlock2 l) x).1 a6⟩
          by_cases hqp : p = q
          · subst hqp
            rw [hab] at hq
            cases hq
            obtain ⟨ab2, hab2, hrel2⟩ := k5 p ab1
              (by simp only [hauxA]; rw [List.getElem?_set, if_pos rfl, if_pos hplt])
            exact ⟨ab2, hab2, walk_rel_trans hrel1 (hinfo _ _ _ hrel2)⟩
          · obtain ⟨ab2, hab2, hrel2⟩ := k5 q abq
              (by simp only [hauxA]; rw [List.getElem?_set_ne hqp]; exact hq)
            exact ⟨ab2, hab2, hinfo _ _ _ hrel2⟩
        · intro hn
          obtain ⟨c1, c2⟩ := k6 hn
          exact ⟨c1.trans hcurA, c2.trans hageA⟩


theorem seg_keeps_refl (ab : aux_buffer) : seg_keeps ab ab :=
  ⟨rfl, Nat.le_refl _, fun _ => ⟨Nat.le_refl _, fun _ _ _ => rfl⟩⟩

theorem seg_keeps_trans {a b c : aux_buffer} (h1 : seg_keeps a b) (h2 : seg_keeps b c) :
    seg_keeps a c := by
  obtain ⟨i1, g1, k1⟩ := h1
  obtain ⟨i2, g2, k2⟩ := h2
  refine ⟨i2.trans i1, Nat.le_trans g1 g2, ?_⟩
  intro hg
  obtain ⟨hh1, d1⟩ := k1 (by omega)
  obtain ⟨hh2, d2⟩ := k2 (by omega)
  exact ⟨Nat.le_trans hh1 hh2, fun off n hn => (d2 off n (by omega)).trans (d1 off n hn)⟩

theorem walk_rel_seg_keeps {info : buffer_info} {a b : aux_buffer} (h : walk_rel info a b) :
    seg_keeps a b := by
  obtain ⟨d, i, _, g, r⟩ := h
  refine ⟨i, g, ?_⟩
  intro hg
  rcases r with ⟨_, hh, _⟩ | ⟨lt, _⟩
  · exact ⟨by omega, fun off n _ => by rw [d]⟩
  · omega

theorem aux_keeps_refl (b : buffer) : aux_keeps b b :=
  fun _ ab h => ⟨ab, h, seg_keeps_refl ab⟩

theorem aux_keeps_trans {a b c : buffer} (h1 : aux_keeps a b) (h2 : aux_keeps b c) :
    aux_keeps a c := by
  intro p ab hab
  obtain ⟨ab1, hab1, k1⟩ := h1 p ab hab
  obtain ⟨ab2, hab2, k2⟩ := h2 p ab1 hab1
  exact ⟨ab2, hab2, seg_keeps_trans k1 k2⟩

theorem aux_keeps_of_eq {a b : buffer} (h : b.aux_shm = a.aux_shm) : aux_keeps a b :=
  fun _ ab hab => ⟨ab, by rw [h]; exact hab, seg_keeps_refl ab⟩

/-- The post-condition of `new_aux_buffer`. -/
theorem new_aux_buffer_spec {pg size : Nat} {buff buff1 : buffer} {p : Nat}
    (h : new_aux_buffer pg buff size = some (buff1, p)) :
    buff1.shmbuffer = buff.shmbuffer ∧ p = buff.aux_shm.length ∧
    buff1.cur_aux_buff = some p ∧ buff1.aux_buffers_age.getLast? = some p ∧
    (∃ ab, buff1.aux_shm = buff.aux_shm ++ [ab] ∧ ab.idx = buff.aux_buf_idx ∧
      ab.data.length < WORD ∧ ab.data.length ≤ ab.size ∧ ab.head = 0 ∧ ab.generation = 0) ∧
    buff1.aux_buf_idx = (buff.aux_buf_idx + 1) % WORD := by
  unfold new_aux_buffer at h
  split at h
  · cases h
  · simp only [Option.some.injEq, Prod.mk.injEq] at h
    obtain ⟨rfl, rfl⟩ := h
    refine ⟨rfl, rfl, rfl, by simp, ⟨_, rfl, rfl, ?_, ?_, rfl, rfl⟩, rfl⟩
    · simp only [List.length_replicate]
      have : (((size + sizeof_aux_buffer) % WORD / pg + 2) * pg) % WORD < WORD :=
        Nat.mod_lt _ (by unfold WORD; omega)
      omega
    · simp only [List.length_replicate]
      have hs1 : (((size + sizeof_aux_buffer) % WORD / pg + 2) * pg) % WORD < WORD :=
        Nat.mod_lt _ (by unfold WORD; omega)
      generalize (((size + sizeof_aux_buffer) % WORD / pg + 2) * pg) % WORD = s1 at hs1
      by_cases hs : sizeof_aux_buffer ≤ s1
      · have e : s1 + WORD - sizeof_aux_buffer = (s1 - sizeof_aux_buffer) + WORD := by omega
        rw [e, Nat.add_mod_right, Nat.mod_eq_of_lt (by omega)]
      · omega

theorem auxInv_of_walk {buff buff1 : buffer} (hinv : AuxInv buff)
    (hlen : buff1.aux_shm.length = buff.aux_shm.length)
    (hidx : buff1.aux_buf_idx = buff.aux_buf_idx) {info : buffer_info}
    (hrel : ∀ (p : Nat) (ab : aux_buffer), buff.aux_shm[p]? = some ab →
        ∃ ab1, buff1.aux_shm[p]? = some ab1 ∧ walk_rel info ab ab1) :
    AuxInv buff1 := by
  refine ⟨by rw [hidx, hlen]; exact hinv.counter, ?_⟩
  intro p ab1 hab1
  have hp : p < buff.aux_shm.length := by
    rw [← hlen]; exact (List.getElem?_eq_some_iff.1 hab1).1
  obtain ⟨ab2, hab2, d, i, s, _⟩ := hrel p _ (List.getElem?_eq_getElem hp)
  rw [hab1] at hab2
  cases hab2
  obtain ⟨a1, a2, a3⟩ := hinv.segs p _ (List.getElem?_eq_getElem hp)
  rw [d, i, s]
  exact ⟨a1, a2, a3⟩

/-- The post-condition of `writer_get_aux_buffer`. -/
theorem writer_get_aux_buffer_spec {pg size : Nat} {buff buff1 : buffer} {p : Nat}
    (h : writer_get_aux_buffer pg buff size = some (buff1, p)) :
    lock_only buff buff1 ∧ buff.aux_shm.length ≤ buff1.aux_shm.length ∧
    (∀ (q : Nat) (ab : aux_buffer), buff.aux_shm[q]? = some ab →
      ∃ ab1, buff1.aux_shm[q]? = some ab1 ∧ walk_rel buff.shmbuffer.info ab ab1) ∧
    (AuxInv buff → AuxInv buff1) ∧
    buff1.cur_aux_buff = some p := by
  have walk_case : ∀ {r : Option (buffer × Option Nat)},
      writer_walk size 0 buff.aux_buffers_age buff = r →
      (match r with
        | none => none
        | some (buff1, some p) => some (buff1, p)
        | some (buff1, none) => new_aux_buffer pg buff1 size) = some (buff1, p) →
      lock_only buff buff1 ∧ buff.aux_shm.length ≤ buff1.aux_shm.length ∧
      (∀ (q : Nat) (ab : aux_buffer), buff.aux_shm[q]? = some ab →
        ∃ ab1, buff1.aux_shm[q]? = some ab1 ∧ walk_rel buff.shmbuffer.info ab ab1) ∧
      (AuxInv buff → AuxInv buff1) ∧
      buff1.cur_aux_buff = some p := by
    intro r hw hr
    split at hr
    · cases hr
    · rename_i bw pw
      simp only [Option.some.injEq, Prod.mk.injEq] at hr
      obtain ⟨rfl, rfl⟩ := hr
      obtain ⟨k1, k2, k3, k4, k5, k6, k7⟩ := writer_walk_spec size _ _ _ _ _ hw
      exact ⟨k1, by omega, k5, fun hi => auxInv_of_walk hi k2 k3 k5, (k7 _ rfl).1⟩
    · rename_i bw
      obtain ⟨k1, k2, k3, k4, k5, k6, k7⟩ := writer_walk_spec size _ _ _ _ _ hw
      obtain ⟨n1, n2, n3, n4, ⟨abn, n5, n6, n7, n8, n9, n10⟩, n11⟩ := new_aux_buffer_spec hr
      refine ⟨⟨by rw [n1]; exact k1.1, by rw [n1]; exact k1.2⟩, by rw [n5]; simp; omega, ?_, ?_,
        n3⟩
      · intro q ab hab
        obtain ⟨ab1, hab1, hrel⟩ := k5 q ab hab
        refine ⟨ab1, ?_, hrel⟩
        rw [n5, List.getElem?_append_left (List.getElem?_eq_some_iff.1 hab1).1]
        exact hab1
      · intro hi
        have hiw := auxInv_of_walk hi k2 k3 k5
        refine ⟨?_, ?_⟩
        · rw [n11, n5, hiw.counter]
          simp [Nat.mod_add_mod]
        · intro q ab hab
          rw [n5] at hab
          by_cases hq : q < bw.aux_shm.length
          · rw [List.getElem?_append_left hq] at hab
            exact hiw.segs q ab hab
          · have hqe : q = bw.aux_shm.length := by
              have := (List.getElem?_eq_some_iff.1 hab).1
              simp at this; omega
            subst hqe
            simp at hab
            subst hab
            exact ⟨by rw [n6, hiw.counter], n7, n8⟩
  unfold writer_get_aux_buffer at h
  split at h
  · exact walk_case rfl h
  · rename_i c hc
    split at h
    · cases h
    · rename_i cur hcur
      split at h
      · exact walk_case rfl h
      · split at h
        · cases h
        · simp only [Option.some.injEq, Prod.mk.injEq] at h
          obtain ⟨rfl, rfl⟩ := h
          exact ⟨lock_only_refl _, Nat.le_refl _, fun q ab hab => ⟨ab, hab, walk_rel_refl _ _⟩,
            fun hi => hi, hc⟩


theorem memcpy_bounds {mem src out : List Nat} {off n : Nat}
    (h : memcpy mem off src n = some out) : off + n ≤ mem.length ∧ n ≤ src.length := by
  unfold memcpy at h
  split at h
  · assumption
  · cases h

theorem memread_memcpy_exact {mem src out : List Nat} {off n : Nat}
    (h : memcpy mem off src n = some out) : memread out off n = some (src.take n) := by
  obtain ⟨hb, _⟩ := memcpy_bounds h
  obtain ⟨bytes, h1, h2, h3⟩ := memread_memcpy_same h (Nat.le_refl n) hb
  rw [h1, ← h3, ← h2, List.take_length]

/-- The post-condition of `_buffer_push_strn`. -/
theorem _buffer_push_strn_spec {pg size : Nat} {buff buff2 : buffer} {data : List Nat}
    {off : Nat} (h : _buffer_push_strn pg buff data size = some (buff2, off)) :
    lock_only buff buff2 ∧ buff.aux_shm.length ≤ buff2.aux_shm.length ∧ off < 2 ^ 32 ∧
    (∃ p ab2, buff2.cur_aux_buff = some p ∧ buff2.aux_shm[p]? = some ab2 ∧
      memread ab2.data off size = some (data.take size) ∧
      (AuxInv buff → ab2.head = off + size)) ∧
    (AuxInv buff → AuxInv buff2 ∧ aux_keeps buff buff2) := by
  unfold _buffer_push_strn at h
  split at h
  · cases h
  · rename_i buff1 p hw
    obtain ⟨w1, w2, w3, w4, w5⟩ := writer_get_aux_buffer_spec hw
    split at h
    · cases h
    · split at h
      · cases h
      · split at h
        · cases h
        · rename_i ab hab
          simp only [] at h
          split at h
          · cases h
          · rename_i hoff
            split at h
            · cases h
            · rename_i bytes hcpy
              simp only [Option.some.injEq, Prod.mk.injEq] at h
              obtain ⟨rfl, rfl⟩ := h
              have hplt : p < buff1.aux_shm.length := (List.getElem?_eq_some_iff.1 hab).1
              obtain ⟨hb1, hb2⟩ := memcpy_bounds hcpy
              have hlen := memcpy_length hcpy
              have hget : (buff1.aux_shm.set p
                  { ab with data := bytes, head := (ab.head + size) % WORD })[p]?
                  = some { ab with data := bytes, head := (ab.head + size) % WORD } := by
                rw [List.getElem?_set, if_pos rfl, if_pos hplt]
              have hhead : AuxInv buff → (ab.head + size) % WORD = ab.head + size := by
                intro hi
                have := ((w4 hi).segs p ab hab).2.1
                exact Nat.mod_eq_of_lt (by omega)
              refine ⟨⟨w1.1, w1.2⟩, by simpa using w2, by omega,
                ⟨p, _, w5, hget, memread_memcpy_exact hcpy, hhead⟩, ?_⟩
              intro hi
              have hi1 := w4 hi
              constructor
              · refine ⟨by simpa using hi1.counter, ?_⟩
                intro q abq hq
                by_cases hqp : p = q
                · subst hqp
                  rw [hget] at hq
                  cases hq
                  obtain ⟨a1, a2, a3⟩ := hi1.segs p ab hab
                  exact ⟨a1, by simpa [hlen] using a2, by simpa [hlen] using a3⟩
                · simp only [] at hq
                  rw [List.getElem?_set_ne hqp] at hq
                  exact hi1.segs q abq hq
              · intro q abq hq
                obtain ⟨ab1, hab1, hrel⟩ := w3 q abq hq
                have hk := walk_rel_seg_keeps hrel
                by_cases hqp : p = q
                · subst hqp
                  rw [hab] at hab1
                  cases hab1
                  refine ⟨_, hget, seg_keeps_trans hk ⟨rfl, Nat.le_refl _, fun _ => ?_⟩⟩
                  simp only []
                  rw [hhead hi]
                  refine ⟨by omega, fun off n hn => ?_⟩
                  exact memread_memcpy_disjoint hcpy (Or.inl hn)
                · exact ⟨ab1, by simp only []; rw [List.getElem?_set_ne hqp]; exact hab1, hk⟩


/-- The post-condition of `buffer_push_strn`. -/
theorem buffer_push_strn_spec {pg len evid : Nat} {buff buff3 : buffer} {str : List Nat}
    {hd : Nat} (h : buffer_push_strn pg buff evid str len = some (buff3, hd)) :
    lock_only buff buff3 ∧ buff.aux_shm.length ≤ buff3.aux_shm.length ∧
    (∃ p ab3 off, buff3.cur_aux_buff = some p ∧ buff3.aux_shm[p]? = some ab3 ∧ off < 2 ^ 32 ∧
      hd = pack_handle off ab3.idx ∧ memread ab3.data off len = some (str.take len) ∧
      (AuxInv buff → ab3.head = off + len)) ∧
    (AuxInv buff → AuxInv buff3 ∧ aux_keeps buff buff3) := by
  unfold buffer_push_strn at h
  split at h
  · cases h
  · rename_i buff2 off hp
    obtain ⟨s1, s2, s3, ⟨p, ab2, s4, s5, s6, s7⟩, s8⟩ := _buffer_push_strn_spec hp
    rw [s4] at h
    simp only [s5] at h
    simp only [Option.some.injEq, Prod.mk.injEq] at h
    obtain ⟨rfl, rfl⟩ := h
    have hplt : p < buff2.aux_shm.length := (List.getElem?_eq_some_iff.1 s5).1
    generalize hab1 : (if ab2.first_event_id = 0 then { ab2 with first_event_id := evid }
      else ab2) = ab1
    have e1 : ab1.idx = ab2.idx ∧ ab1.data = ab2.data ∧ ab1.head = ab2.head ∧
        ab1.size = ab2.size ∧ ab1.generation = ab2.generation := by
      rw [← hab1]; split <;> exact ⟨rfl, rfl, rfl, rfl, rfl⟩
    obtain ⟨e1, e2, e3, e4, e5⟩ := e1
    have hget : (buff2.aux_shm.set p { ab1 with last_event_id := evid })[p]?
        = some { ab1 with last_event_id := evid } := by
      rw [List.getElem?_set, if_pos rfl, if_pos hplt]
    refine ⟨⟨s1.1, s1.2⟩, by simpa using s2,
      ⟨p, _, off, rfl, hget, s3, rfl, by simpa [e2] using s6, fun hi => by simpa [e3] using s7 hi⟩,
      ?_⟩
    intro hi
    obtain ⟨hi2, hk2⟩ := s8 hi
    constructor
    · refine ⟨by simpa using hi2.counter, ?_⟩
      intro q abq hq
      by_cases hqp : p = q
      · subst hqp
        rw [hget] at hq
        cases hq
        simpa [e1, e2, e4] using hi2.segs p ab2 s5
      · simp only [] at hq
        rw [List.getElem?_set_ne hqp] at hq
        exact hi2.segs q abq hq
    · refine aux_keeps_trans hk2 ?_
      intro q abq hq
      by_cases hqp : p = q
      · subst hqp
        rw [s5] at hq
        cases hq
        refine ⟨_, hget, e1, by simp [e5], fun _ => ⟨by simp [e3], fun off n _ => by simp [e2]⟩⟩
      · exact ⟨abq, by simp only []; rw [List.getElem?_set_ne hqp]; exact hq, seg_keeps_refl _⟩

theorem strlen_terminated {s : List Nat} (hs : 0 ∉ s) : strlen (s ++ [0]) = some s.length := by
  unfold strlen
  rw [if_pos (by simp)]
  congr 1
  induction s with
  | nil => exact List.indexOf_cons_self 0 []
  | cons a s ih =>
    have ha : a ≠ 0 := fun h => hs (by simp [h])
    have hs1 : 0 ∉ s := fun h => hs (List.mem_cons_of_mem _ h)
    rw [List.cons_append, List.indexOf_cons_ne _ ha, ih hs1]
    rfl

theorem pack_handle_idem {off idx : Nat} (ho : off < 2 ^ 32) :
    pack_handle (pack_handle off idx) idx = pack_handle off idx := by
  unfold pack_handle WORD
  have hm : (idx <<< 32) % 2 ^ 64 < 2 ^ 64 := Nat.mod_lt _ (by omega)
  have h1 : (off ||| (idx <<< 32) % 2 ^ 64) < 2 ^ 64 := Nat.or_lt_two_pow (by omega) hm
  rw [Nat.mod_eq_of_lt h1, Nat.lor_assoc, Nat.or_self, Nat.mod_eq_of_lt h1]

/-- The post-condition of `buffer_push_str` on a NUL-terminated string. -/
theorem buffer_push_str_spec {pg evid : Nat} {buff buff3 : buffer} {s : List Nat}
    {hd : Nat} (hs : 0 ∉ s) (hlen : s.length + 1 < 2 ^ 64)
    (h : buffer_push_str pg buff evid (s ++ [0]) = some (buff3, hd)) :
    lock_only buff buff3 ∧ buff.aux_shm.length ≤ buff3.aux_shm.length ∧
    (∃ p ab3 off, buff3.cur_aux_buff = some p ∧ buff3.aux_shm[p]? = some ab3 ∧ off < 2 ^ 32 ∧
      hd = pack_handle off ab3.idx ∧ memread ab3.data off (s.length + 1) = some (s ++ [0]) ∧
      (AuxInv buff → ab3.head = off + (s.length + 1))) ∧
    (AuxInv buff → AuxInv buff3 ∧ aux_keeps buff buff3) := by
  unfold buffer_push_str at h
  rw [strlen_terminated hs] at h
  simp only [] at h
  have hW : (s.length + 1) % WORD = s.length + 1 := Nat.mod_eq_of_lt hlen
  rw [hW] at h
  split at h
  · cases h
  · rename_i buff2 hd2 hp
    obtain ⟨s1, s2, ⟨p, ab3, off, s3, s4, s5, s6, s7, s8⟩, s9⟩ := buffer_push_strn_spec hp
    rw [s3] at h
    simp only [s4] at h
    simp only [Option.some.injEq, Prod.mk.injEq] at h
    obtain ⟨rfl, rfl⟩ := h
    refine ⟨s1, s2, ⟨p, ab3, off, s3, s4, s5, ?_, ?_, s8⟩, s9⟩
    · rw [s6, pack_handle_idem s5]
    · rw [s7]
      congr 1
      rw [List.take_of_length_le (by simp)]

/-! ## Frames and closed forms -/

theorem buffer_push_frame {b b1 : buffer} {elem : List Nat} {size : Nat} {ok : Bool}
    (h : buffer_push b elem size = some (b1, ok)) :
    b1.aux_shm = b.aux_shm ∧ b1.aux_buf_idx = b.aux_buf_idx ∧
    b1.shmbuffer.info.last_processed_id = b.shmbuffer.info.last_processed_id ∧
    b1.shmbuffer.info.dropped_ranges = b.shmbuffer.info.dropped_ranges ∧
    b1.shmbuffer.info.dropped_ranges_next = b.shmbuffer.info.dropped_ranges_next := by
  unfold buffer_push at h
  split at h
  · cases h
  · split at h
    · cases h
    · split at h
      · cases h
      · cases h; exact ⟨rfl, rfl, rfl, rfl, rfl⟩
      · split at h
        · cases h
        · unfold buffer_finish_push at h
          split at h
          · cases h
          · rename_i hf
            split at hf
            · cases hf
            · cases hf; cases h; exact ⟨rfl, rfl, rfl, rfl, rfl⟩

theorem buffer_pop_frame {b b1 : buffer} {res : Option (List Nat)}
    (h : buffer_pop b = some (b1, res)) :
    b1.aux_shm = b.aux_shm ∧ b1.aux_buf_idx = b.aux_buf_idx ∧
    b1.shmbuffer.info.last_processed_id = b.shmbuffer.info.last_processed_id ∧
    b1.shmbuffer.info.dropped_ranges = b.shmbuffer.info.dropped_ranges ∧
    b1.shmbuffer.info.dropped_ranges_next = b.shmbuffer.info.dropped_ranges_next := by
  unfold buffer_pop at h
  split at h
  · cases h
  · split at h
    · split at h
      · cases h
      · cases h; exact ⟨rfl, rfl, rfl, rfl, rfl⟩
    · cases h; exact ⟨rfl, rfl, rfl, rfl, rfl⟩

theorem buffer_set_last_processed_id_eq (b : buffer) (id : Nat) :
    buffer_set_last_processed_id b id =
      if b.shmbuffer.info.last_processed_id ≤ id then
        some (map_info b (fun i => { i with last_processed_id := id }))
      else none := by
  unfold buffer_set_last_processed_id map_info
  by_cases h : b.shmbuffer.info.last_processed_id ≤ id
  · rw [if_neg (by simpa using h), if_pos h]
  · rw [if_pos h, if_neg h]

/-- The closed form of `buffer_notify_dropped`, with the lock taken and
released. -/
theorem buffer_notify_dropped_eq (b : buffer) (begin_id end_id : Nat) :
    buffer_notify_dropped b begin_id end_id =
      match b.shmbuffer.info.dropped_ranges[b.shmbuffer.info.dropped_ranges_next]? with
      | none => none
      | some r =>
        if r.begin_id = begin_id ∨ r.end_id = (r.begin_id + WORD - 1) % WORD then
          some (map_info b (fun i => { i with
            dropped_ranges := i.dropped_ranges.set i.dropped_ranges_next { r with end_id := end_id }
            dropped_ranges_lock := false }))
        else
          let idx1 := if b.shmbuffer.info.dropped_ranges_next + 1 = DROPPED_RANGES_NUM then 0
            else b.shmbuffer.info.dropped_ranges_next + 1
          if idx1 < b.shmbuffer.info.dropped_ranges.length then
            some (map_info b (fun i => { i with
              dropped_ranges_next := idx1
              dropped_ranges := i.dropped_ranges.set idx1 { begin_id := begin_id, end_id := end_id }
              dropped_ranges_lock := false }))
          else none := by
  unfold buffer_notify_dropped
  simp only []
  cases hr : b.shmbuffer.info.dropped_ranges[b.shmbuffer.info.dropped_ranges_next]? with
  | none => rfl
  | some r =>
    have hlt : b.shmbuffer.info.dropped_ranges_next < b.shmbuffer.info.dropped_ranges.length :=
      (List.getElem?_eq_some_iff.1 hr).1
    simp only []
    split
    · simp [store_dropped_range, drop_ranges_lock, drop_ranges_unlock, map_info, hlt]
    · simp only [store_dropped_range, drop_ranges_lock, drop_ranges_unlock, map_info]
      by_cases hc : (if b.shmbuffer.info.dropped_ranges_next + 1 = DROPPED_RANGES_NUM then 0
          else b.shmbuffer.info.dropped_ranges_next + 1) < b.shmbuffer.info.dropped_ranges.length
      · simp [hc]
      · simp [hc]

/-! ## Invariants of runs -/

theorem regInv_of_frame {b b1 : buffer} (h : RegInv b)
    (h2 : b1.shmbuffer.info.dropped_ranges = b.shmbuffer.info.dropped_ranges)
    (h3 : b1.shmbuffer.info.dropped_ranges_next = b.shmbuffer.info.dropped_ranges_next) :
    RegInv b1 :=
  ⟨by rw [h2]; exact h.len, by rw [h3]; exact h.next, by rw [h2]; exact h.slots⟩

theorem regInv_of_lock_only {b b1 : buffer} (h : RegInv b) (hl : lock_only b b1) : RegInv b1 := by
  obtain ⟨_, l, e⟩ := hl
  exact regInv_of_frame h (by rw [e]) (by rw [e])

theorem regInv_fresh {S E C : Nat} {b0 : buffer} (h : initialize_shared_buffer S E C = some b0) :
    RegInv b0 ∧ AuxInv b0 ∧ b0.shmbuffer.info.last_processed_id = 0 := by
  unfold initialize_shared_buffer at h
  split at h
  · cases h
  · split at h
    · cases h
    · cases h
      refine ⟨⟨rfl, by show 0 < 5; omega, ?_⟩, ⟨rfl, ?_⟩, rfl⟩
      · intro r hr
        simp only [fresh_shared_buffer, List.mem_replicate] at hr
        left; rw [hr.2]; exact ⟨rfl, rfl⟩
      · intro p ab hab; simp [fresh_shared_buffer] at hab

/-- What one call of `buffer_notify_dropped` does to a registry that satisfies
the invariant. -/
theorem buffer_notify_dropped_spec {b : buffer} (h : RegInv b) (begin_id end_id : Nat) :
    ∃ b1, buffer_notify_dropped b begin_id end_id = some b1 ∧
      b1.shmbuffer.info.dropped_ranges.length = DROPPED_RANGES_NUM ∧
      b1.shmbuffer.info.dropped_ranges_next < DROPPED_RANGES_NUM ∧
      b1.shmbuffer.info.dropped_ranges[b1.shmbuffer.info.dropped_ranges_next]?
        = some { begin_id := begin_id, end_id := end_id } ∧
      (∀ i, i ≠ b1.shmbuffer.info.dropped_ranges_next →
        b1.shmbuffer.info.dropped_ranges[i]? = b.shmbuffer.info.dropped_ranges[i]?) ∧
      ((∃ r, b.shmbuffer.info.dropped_ranges[b.shmbuffer.info.dropped_ranges_next]? = some r ∧
          r.begin_id = begin_id) →
        b1.shmbuffer.info.dropped_ranges_next = b.shmbuffer.info.dropped_ranges_next) ∧
      b1.aux_shm = b.aux_shm ∧ b1.aux_buf_idx = b.aux_buf_idx ∧
      b1.shmbuffer.info.last_processed_id = b.shmbuffer.info.last_processed_id := by
  have hlen := h.len
  have hnext := h.next
  have hN : DROPPED_RANGES_NUM = 5 := rfl
  have hlt : b.shmbuffer.info.dropped_ranges_next < b.shmbuffer.info.dropped_ranges.length := by
    omega
  rw [buffer_notify_dropped_eq, List.getElem?_eq_getElem hlt]
  simp only []
  have hslot := h.slots _ (List.getElem_mem hlt)
  generalize hr : b.shmbuffer.info.dropped_ranges[b.shmbuffer.info.dropped_ranges_next] = r
    at hslot
  have hW : WORD = 2 ^ 64 := rfl
  have hnot : ¬ r.end_id = (r.begin_id + WORD - 1) % WORD := by
    rcases hslot with ⟨h1, h2⟩ | ⟨h1, h2, h3⟩
    · rw [h1, h2, hW]; decide
    · have e : r.begin_id + WORD - 1 = (r.begin_id - 1) + WORD := by omega
      rw [e, Nat.add_mod_right, Nat.mod_eq_of_lt (by omega)]
      omega
  by_cases hb : r.begin_id = begin_id
  · rw [if_pos (Or.inl hb)]
    refine ⟨_, rfl, by simp [map_info, hlen], hnext, ?_, ?_, fun _ => rfl, rfl, rfl, rfl⟩
    · simp only [map_info]
      rw [List.getElem?_set, if_pos rfl, if_pos hlt, hb]
    · intro i hi
      simp only [map_info] at hi ⊢
      rw [List.getElem?_set_ne (fun h => hi h.symm)]
  · rw [if_neg (by rintro (h1 | h1); exact hb h1; exact hnot h1)]
    have hidx : (if b.shmbuffer.info.dropped_ranges_next + 1 = DROPPED_RANGES_NUM then 0
        else b.shmbuffer.info.dropped_ranges_next + 1) < b.shmbuffer.info.dropped_ranges.length := by
      split <;> omega
    rw [if_pos hidx]
    refine ⟨_, rfl, by simp [map_info, hlen], by simp only [map_info]; omega, ?_, ?_, ?_,
      rfl, rfl, rfl⟩
    · simp only [map_info]
      rw [List.getElem?_set, if_pos rfl, if_pos hidx]
    · intro i hi
      simp only [map_info] at hi ⊢
      rw [List.getElem?_set_ne (fun h => hi h.symm)]
    · rintro ⟨r1, hr1, hb1⟩
      cases hr1
      exact absurd hb1 hb

theorem regInv_notify {b b1 : buffer} (h : RegInv b) {begin_id end_id : Nat}
    (hwf : 1 ≤ begin_id ∧ begin_id ≤ end_id ∧ end_id < WORD)
    (hb : buffer_notify_dropped b begin_id end_id = some b1) : RegInv b1 := by
  obtain ⟨b2, h2, k1, k2, k3, k4, _⟩ := buffer_notify_dropped_spec h begin_id end_id
  rw [hb] at h2
  cases h2
  refine ⟨k1, k2, ?_⟩
  intro r hr
  obtain ⟨i, hi⟩ := List.mem_iff_getElem?.1 hr
  by_cases hin : i = b1.shmbuffer.info.dropped_ranges_next
  · subst hin
    rw [k3] at hi
    cases hi
    right; exact hwf
  · rw [k4 i hin] at hi
    exact h.slots _ (List.getElem?_mem hi)


theorem buffer_push_str_strn {pg evid : Nat} {b b3 : buffer} {str : List Nat} {hd : Nat}
    (h : buffer_push_str pg b evid str = some (b3, hd)) :
    ∃ len hd2, buffer_push_strn pg b evid str len = some (b3, hd2) := by
  unfold buffer_push_str at h
  split at h
  · cases h
  · simp only [] at h
    split at h
    · cases h
    · rename_i b1 off hp
      split at h
      · cases h
      · split at h
        · cases h
        · cases h
          exact ⟨_, _, hp⟩

theorem lock_only_lpid {b b1 : buffer} (h : lock_only b b1) :
    b1.shmbuffer.info.last_processed_id = b.shmbuffer.info.last_processed_id := by
  obtain ⟨_, l, e⟩ := h
  rw [e]

/-- What one call does to the invariants. -/
theorem step_spec {pg : Nat} {b b1 : buffer} {op : Op} (hs : step pg b op = some b1) :
    (RegInv b → wf_op op → RegInv b1) ∧ (AuxInv b → AuxInv b1 ∧ aux_keeps b b1) ∧
    b.aux_shm.length ≤ b1.aux_shm.length ∧
    b.shmbuffer.info.last_processed_id ≤ b1.shmbuffer.info.last_processed_id := by
  cases op with
  | push elem size =>
    simp only [step, Option.map_eq_some'] at hs
    obtain ⟨⟨b2, ok⟩, hp, rfl⟩ := hs
    obtain ⟨f1, f2, f3, f4, f5⟩ := buffer_push_frame hp
    exact ⟨fun hr _ => regInv_of_frame hr f4 f5,
      fun hi => ⟨⟨by rw [f2, f1]; exact hi.counter, by rw [f1]; exact hi.segs⟩,
        aux_keeps_of_eq f1⟩, by rw [f1], by rw [f3]⟩
  | pop =>
    simp only [step, Option.map_eq_some'] at hs
    obtain ⟨⟨b2, res⟩, hp, rfl⟩ := hs
    obtain ⟨f1, f2, f3, f4, f5⟩ := buffer_pop_frame hp
    exact ⟨fun hr _ => regInv_of_frame hr f4 f5,
      fun hi => ⟨⟨by rw [f2, f1]; exact hi.counter, by rw [f1]; exact hi.segs⟩,
        aux_keeps_of_eq f1⟩, by rw [f1], by rw [f3]⟩
  | push_str evid str =>
    simp only [step, Option.map_eq_some'] at hs
    obtain ⟨⟨b2, hd⟩, hp, rfl⟩ := hs
    obtain ⟨len, hd2, hp2⟩ := buffer_push_str_strn hp
    obtain ⟨s1, s2, _, s4⟩ := buffer_push_strn_spec hp2
    exact ⟨fun hr _ => regInv_of_lock_only hr s1, s4, s2, by rw [lock_only_lpid s1]⟩
  | push_strn evid str len =>
    simp only [step, Option.map_eq_some'] at hs
    obtain ⟨⟨b2, hd⟩, hp, rfl⟩ := hs
    obtain ⟨s1, s2, _, s4⟩ := buffer_push_strn_spec hp
    exact ⟨fun hr _ => regInv_of_lock_only hr s1, s4, s2, by rw [lock_only_lpid s1]⟩
  | notify_dropped bg en =>
    simp only [step] at hs
    rw [buffer_notify_dropped_eq] at hs
    have haux : b1.aux_shm = b.aux_shm ∧ b1.aux_buf_idx = b.aux_buf_idx ∧
        b1.shmbuffer.info.last_processed_id = b.shmbuffer.info.last_processed_id := by
      split at hs
      · cases hs
      · split at hs
        · cases hs; exact ⟨rfl, rfl, rfl⟩
        · simp only [] at hs
          split at hs <;> split at hs <;>
            first
              | (cases hs; exact ⟨rfl, rfl, rfl⟩)
              | cases hs
    obtain ⟨f1, f2, f3⟩ := haux
    refine ⟨fun hr hw => regInv_notify hr hw (by rw [buffer_notify_dropped_eq]; exact hs),
      fun hi => ⟨⟨by rw [f2, f1]; exact hi.counter, by rw [f1]; exact hi.segs⟩,
        aux_keeps_of_eq f1⟩, by rw [f1], by rw [f3]⟩
  | set_last_processed_id id =>
    simp only [step] at hs
    rw [buffer_set_last_processed_id_eq] at hs
    split at hs
    · rename_i hle
      cases hs
      exact ⟨fun hr _ => regInv_of_frame hr rfl rfl,
        fun hi => ⟨⟨hi.counter, hi.segs⟩, aux_keeps_of_eq rfl⟩, Nat.le_refl _, hle⟩
    · cases hs

/-- What a sequence of calls does to the invariants. -/
theorem run_spec {pg : Nat} (ops : List Op) :
    ∀ (b b1 : buffer), run pg b ops = some b1 →
      (RegInv b → (∀ op ∈ ops, wf_op op) → RegInv b1) ∧
      (AuxInv b → AuxInv b1 ∧ aux_keeps b b1) ∧
      b.aux_shm.length ≤ b1.aux_shm.length ∧
      b.shmbuffer.info.last_processed_id ≤ b1.shmbuffer.info.last_processed_id := by
  induction ops with
  | nil =>
    intro b b1 h
    simp only [run, Option.some.injEq] at h
    subst h
    exact ⟨fun h _ => h, fun h => ⟨h, aux_keeps_refl _⟩, Nat.le_refl _, Nat.le_refl _⟩
  | cons op ops ih =>
    intro b b1 h
    rw [run] at h
    split at h
    · cases h
    · rename_i b2 hs
      obtain ⟨s1, s2, s3, s4⟩ := step_spec hs
      obtain ⟨r1, r2, r3, r4⟩ := ih b2 b1 h
      refine ⟨fun hr hw => r1 (s1 hr (hw op (List.mem_cons_self _ _)))
          (fun o ho => hw o (List.mem_cons_of_mem _ ho)), ?_, Nat.le_trans s3 r3,
        Nat.le_trans s4 r4⟩
      intro hi
      obtain ⟨i2, k2⟩ := s2 hi
      obtain ⟨i1, k1⟩ := r2 i2
      exact ⟨i1, aux_keeps_trans k2 k1⟩

/-! ## The dropped-range registry: claim C7 -/

/-- C7 (as amended): in every registry state reached from a freshly initialised
buffer by calls whose dropped ranges satisfy `1 ≤ begin ≤ end < 2^64`, and for
every `b ≤ e1 ≤ e2`, the calls `buffer_notify_dropped(b, e1)` and
`buffer_notify_dropped(b, e2)` both return, the second one leaves the cursor
`dropped_ranges_next` where the first one put it, the slot at the cursor is
exactly `[b, e2]`, and the second call changes no other slot.  On a fresh buffer
`notify_dropped(100,100); notify_dropped(100,250)` leaves the range
`[100,250]` in slot 1 and the four other slots empty. -/
theorem C7_dropped_range_extension :
    (∀ (S E C pg : Nat) (hist : List Op) (b0 bf : buffer) (b e1 e2 : Nat),
      initialize_shared_buffer S E C = some b0 → (∀ op ∈ hist, wf_op op) →
      run pg b0 hist = some bf → b ≤ e1 → e1 ≤ e2 →
      ∃ b1 b2, buffer_notify_dropped bf b e1 = some b1 ∧
        buffer_notify_dropped b1 b e2 = some b2 ∧
        b2.shmbuffer.info.dropped_ranges_next = b1.shmbuffer.info.dropped_ranges_next ∧
        b2.shmbuffer.info.dropped_ranges[b2.shmbuffer.info.dropped_ranges_next]?
          = some { begin_id := b, end_id := e2 } ∧
        ∀ i, i ≠ b2.shmbuffer.info.dropped_ranges_next →
          b2.shmbuffer.info.dropped_ranges[i]? = b1.shmbuffer.info.dropped_ranges[i]?) ∧
    ((initialize_shared_buffer 320 16 4).bind (fun b0 =>
        (buffer_notify_dropped b0 100 100).bind (fun b1 =>
          buffer_notify_dropped b1 100 250))).map
      (fun b => (b.shmbuffer.info.dropped_ranges, b.shmbuffer.info.dropped_ranges_next))
      = some ([{ begin_id := 0, end_id := 0 }, { begin_id := 100, end_id := 250 },
          { begin_id := 0, end_id := 0 }, { begin_id := 0, end_id := 0 },
          { begin_id := 0, end_id := 0 }], 1) := by
  constructor
  · intro S E C pg hist b0 bf b e1 e2 hinit hwf hrun _ _
    obtain ⟨hr0, _, _⟩ := regInv_fresh hinit
    have hr := (run_spec hist b0 bf hrun).1 hr0 hwf
    obtain ⟨b1, hb1, k1, k2, k3, _, _, _⟩ := buffer_notify_dropped_spec hr b e1
    have hlt : b1.shmbuffer.info.dropped_ranges_next < b1.shmbuffer.info.dropped_ranges.length := by
      rw [k1]; exact k2
    refine ⟨b1, map_info b1 (fun i => { i with
        dropped_ranges := i.dropped_ranges.set i.dropped_ranges_next
          { begin_id := b, end_id := e2 }
        dropped_ranges_lock := false }), hb1, ?_, ?_, ?_, ?_⟩
    · rw [buffer_notify_dropped_eq, k3]
      simp only []
      rw [if_pos (Or.inl trivial)]
    · rfl
    · simp only [map_info]
      rw [List.getElem?_set, if_pos rfl, if_pos hlt]
    · intro i hi
      simp only [map_info] at hi ⊢
      rw [List.getElem?_set_ne (fun h => hi h.symm)]
  · simp only [buffer_notify_dropped_eq]
    rfl

/-- Witness of C7 (as amended): the ranges `[3,4]` and `[3,9]` on a fresh
buffer. -/
theorem C7_dropped_range_extension_witness :
    ∃ b0 b1 b2, initialize_shared_buffer 320 16 4 = some b0 ∧
      buffer_notify_dropped b0 3 4 = some b1 ∧
      buffer_notify_dropped b1 3 9 = some b2 ∧
      b2.shmbuffer.info.dropped_ranges_next = b1.shmbuffer.info.dropped_ranges_next ∧
      b2.shmbuffer.info.dropped_ranges[b2.shmbuffer.info.dropped_ranges_next]?
        = some { begin_id := 3, end_id := 9 } := by
  obtain ⟨b0, hb0, _⟩ := initialize_shared_buffer_inv (S := 320) (E := 16) (C := 4)
    (by decide) (by decide) (by decide)
  obtain ⟨b1, b2, h1, h2, h3, h4, _⟩ := C7_dropped_range_extension.1 320 16 4 4096 [] b0 b0 3 4 9
    hb0 (by intro op h; cases h) rfl (by decide) (by decide)
  exact ⟨b0, b1, b2, hb0, h1, h2, h3, h4⟩

/-- C7 fails as stated: after the call `buffer_notify_dropped(0, 2^64 - 1)`, or
after the call `buffer_notify_dropped(5, 4)`, on a fresh buffer the slot at the
cursor satisfies `end == begin - 1`; then `buffer_notify_dropped(10, 20)`
overwrites its end only, and `buffer_notify_dropped(10, 30)` advances the
cursor from 0 to 1. -/
theorem C7_counterexample :
    ((initialize_shared_buffer 320 16 4).bind (fun b0 =>
        (buffer_notify_dropped b0 0 (2 ^ 64 - 1)).bind (fun bf =>
          (buffer_notify_dropped bf 10 20).bind (fun b1 =>
            (buffer_notify_dropped b1 10 30).map (fun b2 =>
              (b1.shmbuffer.info.dropped_ranges_next, b2.shmbuffer.info.dropped_ranges_next,
                b2.shmbuffer.info.dropped_ranges))))))
      = some (0, 1, [{ begin_id := 0, end_id := 20 }, { begin_id := 10, end_id := 30 },
          { begin_id := 0, end_id := 0 }, { begin_id := 0, end_id := 0 },
          { begin_id := 0, end_id := 0 }]) ∧
    ((initialize_shared_buffer 320 16 4).bind (fun b0 =>
        (buffer_notify_dropped b0 5 4).bind (fun bf =>
          (buffer_notify_dropped bf 10 20).bind (fun b1 =>
            (buffer_notify_dropped b1 10 30).map (fun b2 =>
              (b1.shmbuffer.info.dropped_ranges_next, b2.shmbuffer.info.dropped_ranges_next,
                b2.shmbuffer.info.dropped_ranges))))))
      = some (1, 2, [{ begin_id := 0, end_id := 0 }, { begin_id := 5, end_id := 20 },
          { begin_id := 10, end_id := 30 }, { begin_id := 0, end_id := 0 },
          { begin_id := 0, end_id := 0 }]) := by
  constructor
  · simp only [buffer_notify_dropped_eq]
    rfl
  · simp only [buffer_notify_dropped_eq]
    rfl

/-! ## Readiness, destroyed buffers and the consumer mark: claims C8, C9, C10 -/

/-- C10: `buffer_set_last_processed_id(id)` passes its assertion exactly when
the stored `last_processed_id` is at most `id`; it then stores `id` there and
changes no other field.  Hence a call with a smaller id after a call with a
larger one fails the assertion, and over every run of calls in which no
assertion fails `last_processed_id` never decreases. -/
theorem C10_last_processed_id_monotonic :
    (∀ (b : buffer) (id : Nat),
      ((∃ b1, buffer_set_last_processed_id b id = some b1) ↔
        b.shmbuffer.info.last_processed_id ≤ id) ∧
      ∀ b1, buffer_set_last_processed_id b id = some b1 →
        b1.shmbuffer.info.last_processed_id = id ∧
        b1 = map_info b (fun i => { i with last_processed_id := id })) ∧
    (∀ (b b1 : buffer) (x y : Nat), y < x →
      buffer_set_last_processed_id b x = some b1 → buffer_set_last_processed_id b1 y = none) ∧
    (∀ (pg : Nat) (ops : List Op) (b b1 : buffer), run pg b ops = some b1 →
      b.shmbuffer.info.last_processed_id ≤ b1.shmbuffer.info.last_processed_id) := by
  refine ⟨?_, ?_, ?_⟩
  · intro b id
    rw [buffer_set_last_processed_id_eq]
    constructor
    · constructor
      · rintro ⟨b1, h⟩
        split at h
        · assumption
        · cases h
      · intro h
        exact ⟨_, if_pos h⟩
    · intro b1 h
      split at h
      · cases h; exact ⟨rfl, rfl⟩
      · cases h
  · intro b b1 x y hyx h
    rw [buffer_set_last_processed_id_eq] at h ⊢
    split at h
    · cases h
      rw [if_neg]
      simp only [map_info]
      omega
    · cases h
  · intro pg ops b b1 h
    exact (run_spec ops b b1 h).2.2.2

/-- Witness of C10: on a fresh buffer the mark goes from 0 to 5, and going
back to 3 then fails the assertion. -/
theorem C10_last_processed_id_monotonic_witness :
    ∃ b0 b1, initialize_shared_buffer 320 16 4 = some b0 ∧
      buffer_set_last_processed_id b0 5 = some b1 ∧
      b1.shmbuffer.info.last_processed_id = 5 ∧
      buffer_set_last_processed_id b1 3 = none := by
  obtain ⟨b0, hb0, _⟩ := initialize_shared_buffer_inv (S := 320) (E := 16) (C := 4)
    (by decide) (by decide) (by decide)
  obtain ⟨_, _, hl⟩ := regInv_fresh hb0
  obtain ⟨b1, hb1⟩ := ((C10_last_processed_id_monotonic.1 b0 5).1).2 (by omega)
  exact ⟨b0, b1, hb0, hb1, ((C10_last_processed_id_monotonic.1 b0 5).2 b1 hb1).1,
    C10_last_processed_id_monotonic.2.1 b0 b1 5 3 (by decide) hb1⟩

/-- C8 (as amended): `buffer_is_ready` returns `true` exactly when the
`destroyed` flag is not set, whatever the ring holds; it is the stream-level
`drregex_is_ready` that returns `true` exactly when the buffer is not destroyed
or its ring holds unread slots, so that after `destroy` has set the flag
`buffer_is_ready` is `false` and `drregex_is_ready` is `true` iff
`buffer_size > 0`. -/
theorem C8_readiness (b : buffer) :
    buffer_is_ready b = !buffer_is_destroyed b ∧
    (drregex_is_ready b = true ↔ (buffer_is_destroyed b = false ∨ 0 < buffer_size b)) ∧
    buffer_is_destroyed (store_destroyed b) = true ∧
    buffer_size (store_destroyed b) = buffer_size b ∧
    buffer_is_ready (store_destroyed b) = false ∧
    (drregex_is_ready (store_destroyed b) = true ↔ 0 < buffer_size b) := by
  refine ⟨rfl, ?_, rfl, rfl, rfl, ?_⟩
  · unfold drregex_is_ready buffer_is_ready
    cases buffer_is_destroyed b <;> simp
  · have h1 : buffer_size (store_destroyed b) = buffer_size b := rfl
    have h2 : buffer_is_ready (store_destroyed b) = false := rfl
    unfold drregex_is_ready
    rw [h1, h2]
    simp

set_option maxRecDepth 100000 in
/-- C8 fails as stated: after one push and `destroy` the ring holds one unread
slot, yet `buffer_is_ready` returns `false`. -/
theorem C8_counterexample :
    ((initialize_shared_buffer 320 2 1).bind (fun b0 => buffer_push b0 [1, 2] 2)).map
      (fun r => (buffer_is_destroyed (store_destroyed r.1), buffer_size (store_destroyed r.1),
        buffer_is_ready (store_destroyed r.1), drregex_is_ready (store_destroyed r.1)))
      = some (true, 1, false, true) := by
  rfl

theorem occupancy_pos {P Q n : Nat} (h : n = P - Q) (hp : 0 < n) : Q < P := by omega

theorem occupancy_zero {P Q n : Nat} (h : n = P - Q) (h0 : n = 0) : ¬ (Q < P) := by omega

theorem occupancy_dec {P Q : Nat} (h : Q < P) : P - (Q + 1) + 1 = P - Q := by omega

theorem buffer_pop_destroyed {b : buffer} (h : buffer_is_destroyed b = true) :
    buffer_pop b = none := by
  unfold buffer_pop buffer_is_ready
  rw [h]
  rfl

/-- C9 (as amended): `buffer_pop` asserts `buffer_is_ready`, that is
`!destroyed`, so it is a call for buffers that are not destroyed.  In every
state reached from a freshly initialised buffer by `buffer_push` and
`buffer_pop` calls the flag is not set and `buffer_pop` returns: `true` when
`buffer_size > 0`, having copied the `elem_size` bytes of the oldest unread
element and decreased the occupancy by one, and `false`, with the buffer
unchanged, when the ring is empty.  Once `destroy` has set the flag the
occupancy is unchanged but the assertion of `buffer_pop` fails, as it does on
every destroyed buffer; `buffer_read_pointer`, which has no assertion, still
returns the slot of the oldest unread element while `buffer_size > 0` and
`NULL` with size 0 once the ring is empty. -/
theorem C9_pop_needs_live_buffer (S E C : Nat) (ops : List RingOp)
    (hE : 1 ≤ E) (hC : 1 ≤ C) (hfit : E * (C + 1) + S + PAGE_SIZE ≤ 2 ^ 64)
    (hops : ∀ elem size, RingOp.push elem size ∈ ops → size ≤ E ∧ size ≤ elem.length) :
    ∃ b0 s, initialize_shared_buffer S E C = some b0 ∧
      ring_run { buff := b0, pushed := [], popped := [] } ops = some s ∧
      buffer_is_destroyed s.buff = false ∧
      buffer_size s.buff = s.pushed.length - s.popped.length ∧
      (0 < buffer_size s.buff →
        ∃ b1 y x, buffer_pop s.buff = some (b1, some y) ∧
          s.pushed[s.popped.length]? = some x ∧ y.length = E ∧ y.take x.length = x ∧
          buffer_size b1 + 1 = buffer_size s.buff) ∧
      (buffer_size s.buff = 0 → buffer_pop s.buff = some (s.buff, none)) ∧
      buffer_is_destroyed (store_destroyed s.buff) = true ∧
      buffer_size (store_destroyed s.buff) = buffer_size s.buff ∧
      buffer_pop (store_destroyed s.buff) = none ∧
      (0 < buffer_size s.buff →
        ∃ pos n bytes x, buffer_read_pointer (store_destroyed s.buff) = (some pos, n) ∧
          0 < n ∧ memread (store_destroyed s.buff).shmbuffer.data pos E = some bytes ∧
          s.pushed[s.popped.length]? = some x ∧ bytes.take x.length = x) ∧
      (buffer_size s.buff = 0 → buffer_read_pointer (store_destroyed s.buff) = (none, 0)) ∧
      ∀ b : buffer, buffer_is_destroyed b = true → buffer_pop b = none := by
  obtain ⟨b0, hb0, hinv0⟩ := initialize_shared_buffer_inv hE hC hfit
  obtain ⟨s, hs, hinv⟩ := ring_run_inv ops _ (runInv_fresh hinv0) hops
  have h := hinv.ring
  have hsize := ring_size_eq h
  obtain ⟨hpop1, hpop0⟩ := buffer_pop_spec h
  obtain ⟨n, hr, hn⟩ := read_off_eq h
  have hr2 : shm_spsc_ringbuf_read_off_nowrap s.buff.shmbuffer.info.ringbuf
      = (s.popped.length % (C + 1), n) := hr
  have hrp : buffer_read_pointer (store_destroyed s.buff) = buffer_read_pointer s.buff := rfl
  refine ⟨b0, s, hb0, hs, h.alive, hsize, ?_, ?_, rfl, rfl, buffer_pop_destroyed rfl, ?_, ?_,
    fun b hb => buffer_pop_destroyed hb⟩
  · intro hpos
    have hq := occupancy_pos hsize hpos
    obtain ⟨b1, y, x, h1, h2, h3, h4, h5⟩ := hpop1 hq
    refine ⟨b1, y, x, h1, h2, h3, h4, ?_⟩
    rw [ring_size_eq h5, hsize]
    exact occupancy_dec hq
  · intro h0
    exact hpop0 (occupancy_zero hsize h0)
  · intro hpos
    have hne := occupancy_pos hsize hpos
    have hn0 : n ≠ 0 := fun h0 => (hn.1 h0) hne
    obtain ⟨x, hx⟩ : ∃ x, s.pushed[s.popped.length]? = some x :=
      ⟨s.pushed[s.popped.length], List.getElem?_eq_getElem hne⟩
    obtain ⟨y, hy, hyx⟩ := h.slots _ x hx (Nat.le_refl _)
    refine ⟨(s.popped.length % (C + 1)) * E, n, y, x, ?_, Nat.pos_of_ne_zero hn0, hy, hx, hyx⟩
    rw [hrp]
    unfold buffer_read_pointer
    simp only [hr2, h.elem]
    simp [hn0]
  · intro h0
    have hn0 : n = 0 := hn.2 (occupancy_zero hsize h0)
    rw [hrp]
    unfold buffer_read_pointer
    simp only [hr2]
    simp [hn0]

/-- Witness of C9: after two pushes and one pop on a buffer of capacity 4 one
element is unread. -/
theorem C9_pop_needs_live_buffer_witness :
    ∃ b0 s, initialize_shared_buffer 320 2 4 = some b0 ∧
      ring_run { buff := b0, pushed := [], popped := [] }
        [RingOp.push [1, 2] 2, RingOp.push [3, 4] 2, RingOp.pop] = some s ∧
      buffer_is_destroyed s.buff = false ∧
      buffer_size s.buff = s.pushed.length - s.popped.length ∧
      (0 < buffer_size s.buff →
        ∃ b1 y x, buffer_pop s.buff = some (b1, some y) ∧
          s.pushed[s.popped.length]? = some x ∧ y.length = 2 ∧ y.take x.length = x ∧
          buffer_size b1 + 1 = buffer_size s.buff) ∧
      (buffer_size s.buff = 0 → buffer_pop s.buff = some (s.buff, none)) ∧
      buffer_is_destroyed (store_destroyed s.buff) = true ∧
      buffer_size (store_destroyed s.buff) = buffer_size s.buff ∧
      buffer_pop (store_destroyed s.buff) = none ∧
      (0 < buffer_size s.buff →
        ∃ pos n bytes x, buffer_read_pointer (store_destroyed s.buff) = (some pos, n) ∧
          0 < n ∧ memread (store_destroyed s.buff).shmbuffer.data pos 2 = some bytes ∧
          s.pushed[s.popped.length]? = some x ∧ bytes.take x.length = x) ∧
      (buffer_size s.buff = 0 → buffer_read_pointer (store_destroyed s.buff) = (none, 0)) ∧
      ∀ b : buffer, buffer_is_destroyed b = true → buffer_pop b = none :=
  C9_pop_needs_live_buffer 320 2 4 _ (by decide) (by decide) (by decide) (by
    intro elem size h
    simp at h
    rcases h with ⟨rfl, rfl⟩ | ⟨rfl, rfl⟩ <;> decide)

set_option maxRecDepth 100000 in
/-- C9 fails as stated: on a buffer with one unread element whose `destroyed`
flag has been set, so that `destroyed = true` and `buffer_size = 1`,
`buffer_read_pointer` still finds the element (one readable slot at offset 0)
but `buffer_pop` fails the assertion at its entry; before the flag was set the
same pop returns the element. -/
theorem C9_counterexample :
    ((initialize_shared_buffer 320 2 1).bind (fun b0 => buffer_push b0 [1, 2] 2)).map
      (fun r => (buffer_is_destroyed (store_destroyed r.1), buffer_size (store_destroyed r.1),
        buffer_read_pointer (store_destroyed r.1), buffer_pop (store_destroyed r.1),
        (buffer_pop r.1).map (fun q => q.2)))
      = some (true, 1, (some 0, 1), none, some (some [1, 2])) := by
  rfl

/-! ## Aux reuse: claim C6 -/

/-- C6: in every run of `writer_get_aux_buffer`, for every aux segment `ab` of
the buffer: the reset block (reusable flag set, `head`, `first_event_id`,
`last_event_id` reset) runs on it only if `ab.last_event_id <=
last_processed_id` or some slot `r` of the dropped-range registry has
`r.begin <= ab.first_event_id` and `ab.last_event_id <= r.end`; when neither
holds the segment keeps its head, its event ids and its data, and its reusable
flag is not set. -/
theorem C6_aux_reuse_safety (pg size : Nat) (buff buff1 : buffer) (p0 : Nat)
    (h : writer_get_aux_buffer pg buff size = some (buff1, p0))
    (p : Nat) (ab : aux_buffer) (hab : buff.aux_shm[p]? = some ab) :
    ∃ ab1, buff1.aux_shm[p]? = some ab1 ∧ ab1.data = ab.data ∧
      (ab1.generation ≠ ab.generation → reset_cond buff.shmbuffer.info ab) ∧
      (¬ reset_cond buff.shmbuffer.info ab →
        ab1.generation = ab.generation ∧ ab1.head = ab.head ∧
        ab1.first_event_id = ab.first_event_id ∧ ab1.last_event_id = ab.last_event_id ∧
        (ab1.reusable = true → ab.reusable = true)) := by
  obtain ⟨_, _, hrel, _, _⟩ := writer_get_aux_buffer_spec h
  obtain ⟨ab1, hab1, d, _, _, _, r⟩ := hrel p ab hab
  refine ⟨ab1, hab1, d, ?_, ?_⟩
  · intro hg
    rcases r with ⟨e, _⟩ | ⟨_, c⟩
    · exact absurd e hg
    · exact c
  · intro hn
    rcases r with r | ⟨_, c⟩
    · exact r
    · exact absurd c hn

/-- Witness of C6: the segment of `example_producer` holds event 7, which the
consumer has processed; a request for 100 bytes resets it (and maps a new
segment, the old one being too small). -/
theorem C6_aux_reuse_safety_witness :
    ∃ ab ab1, example_producer.aux_shm[0]? = some ab ∧
      example_producer_after.aux_shm[0]? = some ab1 ∧ ab1.data = ab.data ∧
      (ab1.generation ≠ ab.generation → reset_cond example_producer.shmbuffer.info ab) ∧
      ab1.generation ≠ ab.generation ∧ ab1.reusable = true ∧ ab1.head = 0 := by
  obtain ⟨ab, hab⟩ : ∃ ab, example_producer.aux_shm[0]? = some ab := ⟨_, rfl⟩
  obtain ⟨ab1, h1, h2, h3, _⟩ := C6_aux_reuse_safety 64 100 example_producer
    example_producer_after 1 rfl 0 ab hab
  refine ⟨ab, ab1, hab, h1, h2, h3, ?_⟩
  have e1 : example_producer_after.aux_shm[0]? = some
      { size := 80, head := 0, idx := 0, first_event_id := 0, last_event_id := UINT64_MAX,
        reusable := true, data := hello ++ List.replicate 74 0, generation := 1 } := rfl
  have e0 : example_producer.aux_shm[0]? = some
      { size := 80, head := 6, idx := 0, first_event_id := 7, last_event_id := 7,
        reusable := false, data := hello ++ List.replicate 74 0, generation := 0 } := rfl
  rw [e1] at h1
  rw [e0] at hab
  cases h1
  cases hab
  exact ⟨by decide, rfl, rfl⟩

/-! ## Handles: claim C4 -/

theorem seg_idx_eq {r : buffer} (hseg : ∀ (p : Nat) (ab : aux_buffer), r.aux_shm[p]? = some ab →
      ab.idx = p % WORD) (hlen : r.aux_shm.length ≤ 2 ^ 32)
    {q k : Nat} {abq abk : aux_buffer} (hq : r.aux_shm[q]? = some abq)
    (hk : r.aux_shm[k]? = some abk) (he : abq.idx = k) : q = k := by
  have hql : q < r.aux_shm.length := (List.getElem?_eq_some_iff.1 hq).1
  have hkl : k < r.aux_shm.length := (List.getElem?_eq_some_iff.1 hk).1
  have h1 := hseg q abq hq
  have hW : WORD = 2 ^ 64 := rfl
  rw [Nat.mod_eq_of_lt (by omega)] at h1
  omega

/-- The consumer finds the segment with index `k` at position `k`. -/
theorem reader_get_aux_buffer_spec {r : buffer} {k : Nat} (hok : reader_ok r)
    (hseg : ∀ (p : Nat) (ab : aux_buffer), r.aux_shm[p]? = some ab → ab.idx = p % WORD)
    (hlen : r.aux_shm.length ≤ 2 ^ 32) {ab : aux_buffer} (hk : r.aux_shm[k]? = some ab)
    (hsize : 0 < ab.size) :
    ∃ r1, reader_get_aux_buffer r k = some (r1, k) ∧ r1.aux_shm = r.aux_shm := by
  have hkl : k < r.aux_shm.length := (List.getElem?_eq_some_iff.1 hk).1
  have hW : WORD = 2 ^ 64 := rfl
  have hkidx : ab.idx = k := by
    rw [hseg k ab hk, Nat.mod_eq_of_lt (by omega)]
  have hmiss : ∃ r1, reader_get_aux_buffer_miss r k = some (r1, k) ∧ r1.aux_shm = r.aux_shm := by
    unfold reader_get_aux_buffer_miss
    cases hf : r.aux_shm.findIdx? (fun ab => decide (ab.idx = k)) with
    | none =>
      rw [List.findIdx?_eq_none_iff] at hf
      have := hf ab (List.getElem?_mem hk)
      simp [hkidx] at this
    | some p =>
      obtain ⟨hp, hpk, _⟩ := List.findIdx?_eq_some_iff_getElem.1 hf
      have hpe : r.aux_shm[p]? = some r.aux_shm[p] := List.getElem?_eq_getElem hp
      have : p = k := seg_idx_eq hseg hlen hpe hk (by simpa using hpk)
      subst this
      simp only [hk]
      rw [if_neg (by omega)]
      exact ⟨_, rfl, rfl⟩
  have hscan : ∃ r1, reader_get_aux_buffer_scan r k = some (r1, k) ∧ r1.aux_shm = r.aux_shm := by
    unfold reader_get_aux_buffer_scan
    cases hf : r.aux_buffers.find?
        (fun q => (r.aux_shm[q]?.map (fun ab => decide (ab.idx = k))).getD true) with
    | none => exact hmiss
    | some q =>
      have hql := hok.2 q (List.mem_of_find?_eq_some hf)
      have hqe : r.aux_shm[q]? = some r.aux_shm[q] := List.getElem?_eq_getElem hql
      have hp := List.find?_some hf
      rw [hqe] at hp
      simp only [Option.map_some', Option.getD_some, decide_eq_true_eq] at hp
      have : q = k := seg_idx_eq hseg hlen hqe hk hp
      subst this
      simp only [hk]
      exact ⟨_, rfl, rfl⟩
  unfold reader_get_aux_buffer
  cases hc : r.cur_aux_buff with
  | none => exact hscan
  | some c =>
    have hcl := hok.1 c hc
    have hce : r.aux_shm[c]? = some r.aux_shm[c] := List.getElem?_eq_getElem hcl
    simp only [hce]
    by_cases hi : r.aux_shm[c].idx = k
    · have : c = k := seg_idx_eq hseg hlen hce hk hi
      subst this
      rw [if_pos hi]
      exact ⟨_, rfl, rfl⟩
    · rw [if_neg hi]
      exact hscan

theorem memread_bounds {mem out : List Nat} {off n : Nat} (h : memread mem off n = some out) :
    off + n ≤ mem.length := by
  unfold memread at h
  split at h
  · assumption
  · cases h

theorem new_segment_room {pg len : Nat} (hpg : 0 < pg) (hpg2 : pg ≤ 2 ^ 32) (hlen : len ≤ 2 ^ 32) :
    len ≤ ((((len + sizeof_aux_buffer) % WORD) / pg + 2) * pg) % WORD - sizeof_aux_buffer := by
  have hW : WORD = 2 ^ 64 := rfl
  have hS : sizeof_aux_buffer = 48 := rfl
  have hm : (len + sizeof_aux_buffer) % WORD = len + 48 := by
    rw [hS]; exact Nat.mod_eq_of_lt (by omega)
  have h1 : len + 48 < pg * ((len + 48) / pg + 1) := Nat.lt_mul_div_succ _ hpg
  have h3 : pg * ((len + 48) / pg) ≤ len + 48 := Nat.mul_div_le _ _
  have h2 : ((len + 48) / pg + 2) * pg = pg * ((len + 48) / pg) + 2 * pg := by ring
  have h4 : pg * ((len + 48) / pg + 1) = pg * ((len + 48) / pg) + pg := by ring
  have h5 : (((len + 48) / pg + 2) * pg) % WORD = pg * ((len + 48) / pg) + 2 * pg := by
    rw [h2]; exact Nat.mod_eq_of_lt (by omega)
  rw [hm, h5, hS]
  omega

/-- On a fresh buffer `buffer_push_str` maps segment 0 and returns the handle
of offset 0 in it, whatever the page size. -/
theorem buffer_push_str_fresh {S E C pg evid : Nat} {s : List Nat} (hpg : 0 < pg)
    (hpg2 : pg ≤ 2 ^ 32) (hs : 0 ∉ s) (hlen : s.length + 1 ≤ 2 ^ 32) :
    (buffer_push_str pg (fresh_shared_buffer S E C) evid (s ++ [0])).map
      (fun r => (r.2, r.1.cur_aux_buff, r.1.aux_shm.length)) = some (0, some 0, 1) := by
  have hW : WORD = 2 ^ 64 := rfl
  have hroom := @new_segment_room pg (s.length + 1) hpg hpg2 hlen
  have hmod : (s.length + 1) % WORD = s.length + 1 := Nat.mod_eq_of_lt (by omega)
  have hcpy := @memcpy_isSome (List.replicate
      (((((s.length + 1) + sizeof_aux_buffer) % WORD) / pg + 2) * pg % WORD - sizeof_aux_buffer) 0)
    (s ++ [0]) 0 (s.length + 1) (by simpa using hroom) (by simp)
  unfold buffer_push_str
  rw [strlen_terminated hs]
  simp only [hmod]
  unfold buffer_push_strn _buffer_push_strn writer_get_aux_buffer
  simp only [fresh_shared_buffer, writer_walk, new_aux_buffer, if_neg (Nat.pos_iff_ne_zero.1 hpg)]
  simp [hcpy, pack_handle]

/-- C4: let a producer state be reached from a freshly initialised buffer by
any calls, let `buffer_push_str(buff, evid, s)` return the handle `h` for a
NUL-terminated string `s`, and let any further calls follow.  As long as the
reset block has not run on the segment that holds `s` (and fewer than `2^32`
segments exist, so that the index fits the handle), `buffer_get_str(h)` of a
consumer over the same aux segments returns the pointer to offset
`h & 0xffffffff` of segment `h >> 32`, and the `strlen(s) + 1` bytes there are
the bytes of `s` with the trailing NUL.  On a fresh buffer, whatever the page
size, pushing `"hello"` with event id 7 yields a handle with aux index 0 and
offset 0 that a consumer resolves to `"hello\0"`. -/
theorem C4_handle_round_trip :
    (∀ (S E C pg : Nat) (hist later : List Op) (b0 b b1 b2 r : buffer) (evid : Nat)
        (s : List Nat) (h p : Nat),
      initialize_shared_buffer S E C = some b0 → run pg b0 hist = some b →
      0 ∉ s → s.length + 1 < 2 ^ 64 →
      buffer_push_str pg b evid (s ++ [0]) = some (b1, h) →
      b1.cur_aux_buff = some p →
      run pg b1 later = some b2 →
      b2.aux_shm.length ≤ 2 ^ 32 →
      (b2.aux_shm[p]?).map (fun ab => ab.generation)
        = (b1.aux_shm[p]?).map (fun ab => ab.generation) →
      r.aux_shm = b2.aux_shm → reader_ok r →
      ∃ r1, buffer_get_str r h = some (r1, (handle_idx h, handle_off h)) ∧
        aux_bytes r1 (handle_idx h, handle_off h) (s.length + 1) = some (s ++ [0])) ∧
    (∀ (S E C pg : Nat) (b0 : buffer), initialize_shared_buffer S E C = some b0 →
      0 < pg → pg ≤ 2 ^ 32 →
      ∃ b1 h r1, buffer_push_str pg b0 7 hello = some (b1, h) ∧
        handle_idx h = 0 ∧ handle_off h = 0 ∧
        buffer_get_str (consumer_view b1) h = some (r1, (0, 0)) ∧
        aux_bytes r1 (0, 0) 6 = some hello) := by
  have general : ∀ (S E C pg : Nat) (hist later : List Op) (b0 b b1 b2 r : buffer) (evid : Nat)
        (s : List Nat) (h p : Nat),
      initialize_shared_buffer S E C = some b0 → run pg b0 hist = some b →
      0 ∉ s → s.length + 1 < 2 ^ 64 →
      buffer_push_str pg b evid (s ++ [0]) = some (b1, h) →
      b1.cur_aux_buff = some p →
      run pg b1 later = some b2 →
      b2.aux_shm.length ≤ 2 ^ 32 →
      (b2.aux_shm[p]?).map (fun ab => ab.generation)
        = (b1.aux_shm[p]?).map (fun ab => ab.generation) →
      r.aux_shm = b2.aux_shm → reader_ok r →
      ∃ r1, buffer_get_str r h = some (r1, (handle_idx h, handle_off h)) ∧
        aux_bytes r1 (handle_idx h, handle_off h) (s.length + 1) = some (s ++ [0]) := by
    intro S E C pg hist later b0 b b1 b2 r evid s h p hinit hrun hs hlen hpush hcur hlater
      hsegs hgen hr hok
    obtain ⟨_, hAux0, _⟩ := regInv_fresh hinit
    obtain ⟨hAux, _⟩ := (run_spec hist b0 b hrun).2.1 hAux0
    obtain ⟨_, _, ⟨p1, ab3, off, hcur1, hab3, hoff, hh, hread, hhead⟩, hinv⟩ :=
      buffer_push_str_spec hs hlen hpush
    rw [hcur] at hcur1
    cases hcur1
    obtain ⟨hAux1, _⟩ := hinv hAux
    obtain ⟨hAux2, hkeep⟩ := (run_spec later b1 b2 hlater).2.1 hAux1
    obtain ⟨ab4, hab4, hidx4, _, hk⟩ := hkeep p ab3 hab3
    rw [hab4, hab3] at hgen
    simp only [Option.map_some', Option.some.injEq] at hgen
    obtain ⟨_, hdata⟩ := hk hgen
    have hread4 : memread ab4.data off (s.length + 1) = some (s ++ [0]) := by
      rw [hdata off (s.length + 1) (by rw [hhead hAux]), hread]
    have hp2 : p < b2.aux_shm.length := (List.getElem?_eq_some_iff.1 hab4).1
    have hW : WORD = 2 ^ 64 := rfl
    have hidx3 : ab3.idx = p := by
      rw [(hAux1.segs p ab3 hab3).1, Nat.mod_eq_of_lt (by omega)]
    rw [hidx3] at hh
    have hhi : handle_idx h = p := by rw [hh]; exact handle_idx_pack hoff (by omega)
    have hho : handle_off h = off := by rw [hh]; exact handle_off_pack hoff (by omega)
    have hsize : 0 < ab4.size := by
      have := (hAux2.segs p ab4 hab4).2.2
      have := memread_bounds hread4
      omega
    obtain ⟨r1, hr1, hr1s⟩ := reader_get_aux_buffer_spec (r := r) (k := p) hok
      (by rw [hr]; exact fun q abq hq => (hAux2.segs q abq hq).1) (by rw [hr]; exact hsegs)
      (by rw [hr]; exact hab4) hsize
    refine ⟨r1, ?_, ?_⟩
    · unfold buffer_get_str
      simp only [hhi, hr1]
    · unfold aux_bytes
      simp only [hhi, hho, hr1s, hr, hab4, hread4]
  refine ⟨general, ?_⟩
  intro S E C pg b0 hinit hpg hpg2
  have hb0 : b0 = fresh_shared_buffer S E C := by
    unfold initialize_shared_buffer at hinit
    split at hinit
    · cases hinit
    · split at hinit
      · cases hinit
      · cases hinit; rfl
  have hfresh := @buffer_push_str_fresh S E C pg 7 [104, 101, 108, 108, 111] hpg hpg2
    (by decide) (by decide)
  obtain ⟨⟨b1, h⟩, hpush, hres⟩ := Option.map_eq_some'.1 hfresh
  simp only [Prod.mk.injEq] at hres
  obtain ⟨rfl, hcur, hlen1⟩ := hres
  rw [← hb0] at hpush
  obtain ⟨r1, hg, hbytes⟩ := general S E C pg [] [] b0 b0 b1 b1 (consumer_view b1) 7
    [104, 101, 108, 108, 111] 0 0 hinit rfl (by decide) (by decide) hpush hcur rfl
    (by rw [hlen1]; decide) rfl rfl ⟨fun c hc => (by cases hc), fun q hq => (by cases hq)⟩
  exact ⟨b1, 0, r1, hpush, rfl, rfl, hg, hbytes⟩

/-- Witness of C4: the handle of `"hello"` pushed with event id 7 on a fresh
buffer still resolves to `"hello\0"` after a second string was pushed and the
consumer reported event 5. -/
theorem C4_handle_round_trip_witness :
    ∃ r1, buffer_get_str (consumer_view example_later) 0
        = some (r1, (handle_idx 0, handle_off 0)) ∧
      aux_bytes r1 (handle_idx 0, handle_off 0) ([104, 101, 108, 108, 111].length + 1)
        = some ([104, 101, 108, 108, 111] ++ [0]) :=
  C4_handle_round_trip.1 320 16 4 64 [] [Op.push_str 8 hello, Op.set_last_processed_id 5]
    (fresh_shared_buffer 320 16 4) (fresh_shared_buffer 320 16 4) example_pushed example_later
    (consumer_view example_later) 7 [104, 101, 108, 108, 111] 0 0
    rfl rfl (by decide) (by decide) rfl rfl rfl (by decide) rfl rfl
    ⟨fun c h => (by cases h), fun q h => (by cases h)⟩

/-! ## Segment lengths (C16, C17, C19) -/

theorem new_aux_buffer_size {pg size : Nat} {buff buff1 : buffer} {p : Nat}
    (h : new_aux_buffer pg buff size = some (buff1, p)) :
    0 < pg ∧ ∃ ab, buff1.aux_shm[p]? = some ab ∧
      ab.size = (aux_segment_length pg size + WORD - sizeof_aux_buffer) % WORD ∧
      ab.data.length = aux_segment_length pg size - sizeof_aux_buffer := by
  unfold new_aux_buffer at h
  split at h
  · cases h
  · rename_i hpg
    simp only [Option.some.injEq, Prod.mk.injEq] at h
    obtain ⟨rfl, rfl⟩ := h
    refine ⟨Nat.pos_of_ne_zero hpg, _, List.getElem?_concat_length _ _, rfl, ?_⟩
    simp [aux_segment_length]

theorem aux_segment_length_eq {pg size : Nat} (hfit : size + sizeof_aux_buffer + 2 * pg < 2 ^ 64) :
    aux_segment_length pg size = ((size + sizeof_aux_buffer) / pg + 2) * pg := by
  have hW : WORD = 2 ^ 64 := rfl
  unfold aux_segment_length
  rw [Nat.mod_eq_of_lt (a := size + sizeof_aux_buffer) (by omega)]
  apply Nat.mod_eq_of_lt
  have h3 : pg * ((size + sizeof_aux_buffer) / pg) ≤ size + sizeof_aux_buffer := Nat.mul_div_le _ _
  have h2 : ((size + sizeof_aux_buffer) / pg + 2) * pg
      = pg * ((size + sizeof_aux_buffer) / pg) + 2 * pg := by ring
  omega

theorem ceil_div_of_dvd {a b : Nat} (hb : 0 < b) (h : b ∣ a) : ceil_div a b = a / b := by
  obtain ⟨k, rfl⟩ := h
  unfold ceil_div
  rw [Nat.mul_div_cancel_left _ hb]
  have : b * k + b - 1 = (b - 1) + b * k := by omega
  rw [this, Nat.add_mul_div_left _ _ hb, Nat.div_eq_of_lt (by omega)]
  omega

theorem ceil_div_of_not_dvd {a b : Nat} (hb : 0 < b) (h : ¬ b ∣ a) : ceil_div a b = a / b + 1 := by
  unfold ceil_div
  have hm : 0 < a % b := Nat.pos_of_ne_zero (fun h0 => h (Nat.dvd_of_mod_eq_zero h0))
  have hlt : a % b < b := Nat.mod_lt _ hb
  have e : a + b - 1 = (a % b - 1) + b * (a / b + 1) := by
    have := Nat.div_add_mod a b
    have e2 : b * (a / b + 1) = b * (a / b) + b := by ring
    omega
  rw [e, Nat.add_mul_div_left _ _ hb, Nat.div_eq_of_lt (by omega)]
  omega
/-- The data area of a new segment: its length is the segment length less the
header, and nothing wraps when the request fits the word. -/
theorem aux_segment_length_gt {pg size : Nat} (hpg : 0 < pg)
    (hfit : size + sizeof_aux_buffer + 2 * pg < 2 ^ 64) :
    size + sizeof_aux_buffer + pg < aux_segment_length pg size ∧
      aux_segment_length pg size ≤ size + sizeof_aux_buffer + 2 * pg := by
  rw [aux_segment_length_eq hfit]
  have h1 := Nat.div_add_mod (size + sizeof_aux_buffer) pg
  have h2 := Nat.mod_lt (size + sizeof_aux_buffer) hpg
  have h3 : ((size + sizeof_aux_buffer) / pg + 2) * pg
      = pg * ((size + sizeof_aux_buffer) / pg) + 2 * pg := by ring
  omega

/-- Claim C16 (amended): for a page size `pg > 0` and a request `s` that fits the
word, `new_aux_buffer` returns a segment whose total length (header plus data)
is `(floor((s + header) / pg) + 2) * pg`; this is the length
`(ceil((s + header) / pg) + 1) * pg` of the specification exactly when `pg`
does not divide `s + header`, and one page more when it does. -/
theorem C16_aux_segment_total_length (pg s : Nat) (buff : buffer) (hpg : 0 < pg)
    (hfit : s + sizeof_aux_buffer + 2 * pg < 2 ^ 64) :
    ∃ buff1 p ab, new_aux_buffer pg buff s = some (buff1, p) ∧ buff1.aux_shm[p]? = some ab ∧
      ab.data.length = ab.size ∧
      ab.size + sizeof_aux_buffer = ((s + sizeof_aux_buffer) / pg + 2) * pg ∧
      (¬ pg ∣ s + sizeof_aux_buffer →
        ab.size + sizeof_aux_buffer = spec_aux_segment_length pg s) ∧
      (pg ∣ s + sizeof_aux_buffer →
        ab.size + sizeof_aux_buffer = spec_aux_segment_length pg s + pg) := by
  have hsome : ∃ r, new_aux_buffer pg buff s = some r := by
    unfold new_aux_buffer
    rw [if_neg (by omega)]
    exact ⟨_, rfl⟩
  obtain ⟨⟨buff1, p⟩, hr⟩ := hsome
  obtain ⟨-, ab, hab, hsz, hlen⟩ := new_aux_buffer_size hr
  obtain ⟨hgt, hle⟩ := aux_segment_length_gt hpg hfit
  have hW : WORD = 2 ^ 64 := rfl
  have hsz2 : ab.size = aux_segment_length pg s - sizeof_aux_buffer := by
    rw [hsz]
    have : aux_segment_length pg s + WORD - sizeof_aux_buffer
        = (aux_segment_length pg s - sizeof_aux_buffer) + WORD := by omega
    rw [this, Nat.add_mod_right]
    exact Nat.mod_eq_of_lt (by omega)
  have htot : ab.size + sizeof_aux_buffer = ((s + sizeof_aux_buffer) / pg + 2) * pg := by
    rw [← aux_segment_length_eq hfit]; omega
  refine ⟨buff1, p, ab, hr, hab, by omega, htot, ?_, ?_⟩
  · intro hnd
    rw [htot, spec_aux_segment_length, ceil_div_of_not_dvd hpg hnd]
  · intro hd
    rw [htot, spec_aux_segment_length, ceil_div_of_dvd hpg hd]
    ring

/-- A request of 16 bytes with pages of 64 bytes: the header and the data fill
one page exactly, and the segment has three pages. -/
theorem C16_aux_segment_total_length_witness :
    ∃ buff1 p ab, new_aux_buffer 64 (fresh_shared_buffer 320 16 4) 16 = some (buff1, p) ∧
      buff1.aux_shm[p]? = some ab ∧ ab.data.length = ab.size ∧
      ab.size + sizeof_aux_buffer = ((16 + sizeof_aux_buffer) / 64 + 2) * 64 ∧
      (¬ 64 ∣ 16 + sizeof_aux_buffer →
        ab.size + sizeof_aux_buffer = spec_aux_segment_length 64 16) ∧
      (64 ∣ 16 + sizeof_aux_buffer →
        ab.size + sizeof_aux_buffer = spec_aux_segment_length 64 16 + 64) :=
  C16_aux_segment_total_length 64 16 (fresh_shared_buffer 320 16 4) (by decide) (by decide)

/-- Claim C16 is false as stated: a request of 4048 bytes with pages of 4096
bytes gives a segment of 12288 bytes, and the formula of the claim gives
8192. -/
theorem C16_counterexample :
    (new_aux_buffer 4096 (fresh_shared_buffer 320 16 4) 4048).map
        (fun r => (r.1.aux_shm[r.2]?).map (fun ab => ab.size + sizeof_aux_buffer))
      = some (some 12288) ∧
    spec_aux_segment_length 4096 4048 = 8192 := by
  constructor
  · rfl
  · rfl



/-- Claim C17 (the code departs from it): without overflow `compute_shm_size`
returns the raw size `elem_size * capacity + sizeof(struct shmbuffer)` plus
its remainder modulo `PAGE_SIZE`. The result is at least the raw size, and it
is a multiple of `PAGE_SIZE` only when that remainder is 0 or half a page. -/
theorem C17_compute_shm_size (S E C : Nat) (hfit : E * C + S + PAGE_SIZE < 2 ^ 64) :
    compute_shm_size S E C = (E * C + S) + (E * C + S) % PAGE_SIZE ∧
    E * C + S ≤ compute_shm_size S E C ∧
    (PAGE_SIZE ∣ compute_shm_size S E C ↔
      (E * C + S) % PAGE_SIZE = 0 ∨ (E * C + S) % PAGE_SIZE = 2048) := by
  have hW : WORD = 2 ^ 64 := rfl
  have hP : PAGE_SIZE = 4096 := rfl
  have e : compute_shm_size S E C = (E * C + S) + (E * C + S) % PAGE_SIZE := by
    unfold compute_shm_size
    simp only []
    rw [Nat.mod_eq_of_lt (a := E * C + S) (by omega)]
    apply Nat.mod_eq_of_lt
    have := Nat.mod_lt (E * C + S) (show 0 < PAGE_SIZE by decide)
    omega
  refine ⟨e, by omega, ?_⟩
  rw [e, hP, Nat.dvd_iff_mod_eq_zero]
  generalize E * C + S = n
  omega

/-- Elements of 16 bytes and 5 slots behind a header of 320 bytes: the raw size
is 400 and the result is 800, which is no multiple of the page size. -/
theorem C17_compute_shm_size_witness :
    compute_shm_size 320 16 5 = (16 * 5 + 320) + (16 * 5 + 320) % PAGE_SIZE ∧
    16 * 5 + 320 ≤ compute_shm_size 320 16 5 ∧
    (PAGE_SIZE ∣ compute_shm_size 320 16 5 ↔
      (16 * 5 + 320) % PAGE_SIZE = 0 ∨ (16 * 5 + 320) % PAGE_SIZE = 2048) :=
  C17_compute_shm_size 320 16 5 (by decide)

/-- The handle of `buffer_push_str` is the handle of the `buffer_push_strn` call
inside it. -/
theorem buffer_push_str_handle {pg evid : Nat} {b b1 : buffer} {str : List Nat} {h : Nat}
    (hp : buffer_push_str pg b evid str = some (b1, h)) :
    ∃ n, strlen str = some n ∧
      buffer_push_strn pg b evid str ((n + 1) % WORD) = some (b1, h) := by
  unfold buffer_push_str at hp
  split at hp
  · cases hp
  · rename_i n hn
    simp only [] at hp
    split at hp
    · cases hp
    · rename_i b2 off hstrn
      obtain ⟨_, _, ⟨p, ab3, off0, hcur, hab, hoff, hh, _, _⟩, _⟩ := buffer_push_strn_spec hstrn
      rw [hcur] at hp
      simp only [hab] at hp
      simp only [Option.some.injEq, Prod.mk.injEq] at hp
      obtain ⟨rfl, rfl⟩ := hp
      refine ⟨n, hn, ?_⟩
      rw [hstrn, hh, pack_handle_idem hoff]

/-- Claim C11 (amended): the value 0 is not kept apart.  In a state reached from
a fresh buffer, with at most `2^32` aux segments, the handle returned by
`buffer_push_strn` or `buffer_push_str` is `2^32 * idx + off` for the index
`idx` of the current segment and the offset `off` of the string in it, so it
is 0 exactly when the string was put at offset 0 of segment 0. -/
theorem C11_zero_handle (S E C pg : Nat) (hist : List Op) (b0 b b1 : buffer)
    (evid : Nat) (str : List Nat) (len h : Nat)
    (hinit : initialize_shared_buffer S E C = some b0) (hrun : run pg b0 hist = some b)
    (hpush : buffer_push_strn pg b evid str len = some (b1, h) ∨
      buffer_push_str pg b evid str = some (b1, h))
    (hsegs : b1.aux_shm.length ≤ 2 ^ 32) :
    ∃ p ab off, b1.cur_aux_buff = some p ∧ b1.aux_shm[p]? = some ab ∧ ab.idx = p ∧
      off < 2 ^ 32 ∧ h = 2 ^ 32 * p + off ∧ (h = 0 ↔ p = 0 ∧ off = 0) := by
  have hstrn : ∃ len, buffer_push_strn pg b evid str len = some (b1, h) := by
    rcases hpush with hp | hp
    · exact ⟨len, hp⟩
    · obtain ⟨n, _, hn⟩ := buffer_push_str_handle hp
      exact ⟨_, hn⟩
  obtain ⟨len1, hp⟩ := hstrn
  obtain ⟨_, hAux0, _⟩ := regInv_fresh hinit
  obtain ⟨hAux, _⟩ := (run_spec hist b0 b hrun).2.1 hAux0
  obtain ⟨_, _, ⟨p, ab3, off, hcur, hab, hoff, hh, _, _⟩, hinv⟩ := buffer_push_strn_spec hp
  obtain ⟨hAux1, _⟩ := hinv hAux
  have hW : WORD = 2 ^ 64 := rfl
  have hplt : p < b1.aux_shm.length := (List.getElem?_eq_some_iff.1 hab).1
  have hidx : ab3.idx = p := by
    rw [(hAux1.segs p ab3 hab).1, Nat.mod_eq_of_lt (by omega)]
  rw [hidx, pack_handle_eq hoff (by omega)] at hh
  exact ⟨p, ab3, off, hcur, hab, hidx, hoff, hh, by omega⟩

/-- The first string pushed on a fresh buffer, with pages of 64 bytes. -/
theorem C11_zero_handle_witness :
    ∃ p ab off, (example_pushed).cur_aux_buff = some p ∧ (example_pushed).aux_shm[p]? = some ab ∧
      ab.idx = p ∧ off < 2 ^ 32 ∧ 0 = 2 ^ 32 * p + off ∧ (0 = 0 ↔ p = 0 ∧ off = 0) :=
  C11_zero_handle 320 16 4 64 [] (fresh_shared_buffer 320 16 4) (fresh_shared_buffer 320 16 4)
    example_pushed 7 hello 6 0 rfl rfl (Or.inr rfl) (by decide)

/-- Claim C11 is false as stated: the first string pushed on a fresh buffer
gets the handle 0, from `buffer_push_str` and from `buffer_push_strn`. -/
theorem C11_counterexample :
    (buffer_push_str 64 (fresh_shared_buffer 320 16 4) 7 hello).map (fun r => r.2) = some 0 ∧
    (buffer_push_strn 64 (fresh_shared_buffer 320 16 4) 7 hello 6).map (fun r => r.2)
      = some 0 := by
  constructor
  · rfl
  · rfl


/-! ## Partial pushes of strings (C18) -/


theorem uint64_bytes_length (n : Nat) : (uint64_bytes n).length = 8 := by
  simp [uint64_bytes]

theorem uint64_of_bytes_bytes {n : Nat} (h : n < 2 ^ 64) :
    uint64_of_bytes (uint64_bytes n) = n := by
  simp only [uint64_bytes, uint64_of_bytes, List.range, List.range.loop, List.map, List.foldr]
  norm_num
  omega

theorem pack_handle_lt (off idx : Nat) : pack_handle off idx < 2 ^ 64 := by
  unfold pack_handle WORD
  exact Nat.mod_lt _ (by norm_num)

/-- The store of the handle into the slot, after the string push returned. -/
theorem partial_store_spec {b b2 : buffer} {prev h : Nat} (hl : lock_only b b2)
    (hroom : prev + 8 ≤ b.shmbuffer.data.length) (hh : h < 2 ^ 64) :
    ∃ data, memcpy b2.shmbuffer.data prev (uint64_bytes h) 8 = some data ∧
      ringbuf_of { b2 with shmbuffer := { b2.shmbuffer with data := data } } = ringbuf_of b ∧
      memread data prev 8 = some (uint64_bytes h) ∧
      uint64_of_bytes (uint64_bytes h) = h := by
  obtain ⟨hd, l, hi⟩ := hl
  have hc := @memcpy_isSome b2.shmbuffer.data (uint64_bytes h) prev 8 (by rw [hd]; exact hroom)
    (by rw [uint64_bytes_length])
  refine ⟨_, hc, ?_, ?_, uint64_of_bytes_bytes hh⟩
  · show b2.shmbuffer.info.ringbuf = b.shmbuffer.info.ringbuf
    rw [hi]
  · rw [memread_memcpy_exact hc]
    rw [List.take_of_length_le (by rw [uint64_bytes_length])]

/-- Claim C18 (amended): in a state reached from a fresh buffer, with the buffer
ready and the eight bytes at `prev` inside the slot area,
`buffer_partial_push_str_n` returns `prev + 8` whenever its call of
`buffer_push_strn` returns, and `buffer_partial_push_str` does so whenever its
call of `buffer_push_str` returns.  The first reserves `n` bytes of the current
aux segment (the head is the offset of the string plus `n`, not `n + 1`), the
second `strlen(s) + 1` bytes.  Both leave the eight bytes of the returned handle
at `prev`, and neither moves the ring, so the slot is not published. -/
theorem C18_partial_push_str (S E C pg : Nat) (hist : List Op) (b0 b : buffer)
    (prev evid : Nat)
    (hinit : initialize_shared_buffer S E C = some b0) (hrun : run pg b0 hist = some b)
    (hready : buffer_is_ready b = true) (hprev : prev < BUFF_END b.shmbuffer)
    (hroom : prev + 8 ≤ b.shmbuffer.data.length) :
    (∀ (str : List Nat) (n : Nat) (b2 : buffer) (h : Nat),
      buffer_push_strn pg b evid str n = some (b2, h) →
      ∃ b1 p ab off, buffer_partial_push_str_n pg b prev evid str n = some (b1, prev + 8) ∧
        ringbuf_of b1 = ringbuf_of b ∧ buffer_size b1 = buffer_size b ∧
        b1.aux_shm = b2.aux_shm ∧ b1.cur_aux_buff = some p ∧ b1.aux_shm[p]? = some ab ∧
        h = pack_handle off ab.idx ∧ ab.head = off + n ∧
        memread ab.data off n = some (str.take n) ∧
        memread b1.shmbuffer.data prev 8 = some (uint64_bytes h) ∧
        uint64_of_bytes (uint64_bytes h) = h) ∧
    (∀ (s : List Nat) (b2 : buffer) (h : Nat), 0 ∉ s → s.length + 1 < 2 ^ 64 →
      buffer_push_str pg b evid (s ++ [0]) = some (b2, h) →
      ∃ b1 p ab off, buffer_partial_push_str pg b prev evid (s ++ [0]) = some (b1, prev + 8) ∧
        ringbuf_of b1 = ringbuf_of b ∧ buffer_size b1 = buffer_size b ∧
        b1.aux_shm = b2.aux_shm ∧ b1.cur_aux_buff = some p ∧ b1.aux_shm[p]? = some ab ∧
        h = pack_handle off ab.idx ∧ ab.head = off + (s.length + 1) ∧
        memread ab.data off (s.length + 1) = some (s ++ [0]) ∧
        memread b1.shmbuffer.data prev 8 = some (uint64_bytes h) ∧
        uint64_of_bytes (uint64_bytes h) = h) := by
  obtain ⟨_, hAux0, _⟩ := regInv_fresh hinit
  obtain ⟨hAux, _⟩ := (run_spec hist b0 b hrun).2.1 hAux0
  have hnr : ¬ (buffer_is_ready b = false) := by rw [hready]; simp
  constructor
  · intro str n b2 h hp
    obtain ⟨hl, _, ⟨p, ab, off, hcur, hab, hoff, hh, hread, hhead⟩, _⟩ := buffer_push_strn_spec hp
    obtain ⟨data, hc, hring, hrd, hrt⟩ := @partial_store_spec b b2 prev h hl hroom
      (by rw [hh]; exact pack_handle_lt _ _)
    refine ⟨{ b2 with shmbuffer := { b2.shmbuffer with data := data } }, p, ab, off, ?_, hring,
      ?_, rfl, hcur, hab, hh, hhead hAux, hread, hrd, hrt⟩
    · unfold buffer_partial_push_str_n
      rw [if_neg hnr, if_neg (not_not.2 hprev), hp]
      simp only [hc]
    · unfold buffer_size
      rw [hring]
  · intro s b2 h hs hlen hp
    obtain ⟨hl, _, ⟨p, ab, off, hcur, hab, hoff, hh, hread, hhead⟩, _⟩ :=
      buffer_push_str_spec hs hlen hp
    obtain ⟨data, hc, hring, hrd, hrt⟩ := @partial_store_spec b b2 prev h hl hroom
      (by rw [hh]; exact pack_handle_lt _ _)
    refine ⟨{ b2 with shmbuffer := { b2.shmbuffer with data := data } }, p, ab, off, ?_, hring,
      ?_, rfl, hcur, hab, hh, hhead hAux, hread, hrd, hrt⟩
    · unfold buffer_partial_push_str
      rw [if_neg hnr, if_neg (not_not.2 hprev), hp]
      simp only [hc]
    · unfold buffer_size
      rw [hring]

set_option maxRecDepth 100000 in
/-- A fresh buffer of four 16-byte elements with pages of 64 bytes, and the
pointer that `buffer_start_push` returns there. -/
theorem C18_partial_push_str_witness :
    ∃ b1 p ab off,
      buffer_partial_push_str_n 64 (fresh_shared_buffer 320 16 4) 0 7 hello 5
        = some (b1, 0 + 8) ∧
      ringbuf_of b1 = ringbuf_of (fresh_shared_buffer 320 16 4) ∧
      buffer_size b1 = buffer_size (fresh_shared_buffer 320 16 4) ∧
      b1.aux_shm = (example_pushed_n).aux_shm ∧
      b1.cur_aux_buff = some p ∧ b1.aux_shm[p]? = some ab ∧
      0 = pack_handle off ab.idx ∧ ab.head = off + 5 ∧
      memread ab.data off 5 = some (hello.take 5) ∧
      memread b1.shmbuffer.data 0 8 = some (uint64_bytes 0) ∧
      uint64_of_bytes (uint64_bytes 0) = 0 :=
  (C18_partial_push_str 320 16 4 64 [] (fresh_shared_buffer 320 16 4)
    (fresh_shared_buffer 320 16 4) 0 7 rfl rfl rfl (by decide)
    (by simp [fresh_shared_buffer, compute_shm_size, PAGE_SIZE, WORD])).1
    hello 5 example_pushed_n 0 rfl

set_option maxRecDepth 100000 in
/-- Claim C18 is false as stated: `buffer_partial_push_str_n` with `n = 5` on a
fresh buffer leaves the head of the aux segment at 5, not at 6. -/
theorem C18_counterexample :
    (buffer_partial_push_str_n 64 (fresh_shared_buffer 320 16 4) 0 7 hello 5).map
        (fun r => (r.2, (r.1.aux_shm[0]?).map (fun ab => ab.head)))
      = some (8, some 5) := by
  rfl



/-! ## The 4 GiB bound on aux segments (C15) -/


/-- A property of single segments that the reset block and the clearing of the
reusable flag keep is kept by `writer_walk`. -/
theorem writer_walk_segs (P : aux_buffer → Prop) (hreset : ∀ ab, P ab → P (aux_reset ab))
    (hclear : ∀ ab, P ab → P { ab with reusable := false }) (size : Nat) (rest : List Nat) :
    ∀ (i : Nat) (buff buff1 : buffer) (res : Option Nat),
      writer_walk size i rest buff = some (buff1, res) →
      (∀ (p : Nat) (ab : aux_buffer), buff.aux_shm[p]? = some ab → P ab) →
      ∀ (p : Nat) (ab : aux_buffer), buff1.aux_shm[p]? = some ab → P ab := by
  induction rest with
  | nil =>
    intro i buff buff1 res h hP
    simp only [writer_walk, Option.some.injEq, Prod.mk.injEq] at h
    obtain ⟨rfl, rfl⟩ := h
    exact hP
  | cons p rest ih =>
    intro i buff buff1 res h hP
    rw [writer_walk] at h
    split at h
    · cases h
    · rename_i ab hab
      obtain ⟨hit, buffA, hAB, hauxA⟩ :
          ∃ hit buffA,
            (if ab.last_event_id ≤ buff.shmbuffer.info.last_processed_id then (true, buff)
              else ab_was_dropped ab buff) = (hit, buffA) ∧
            buffA.aux_shm = buff.aux_shm := by
        by_cases hl : ab.last_event_id ≤ buff.shmbuffer.info.last_processed_id
        · exact ⟨true, buff, by rw [if_pos hl], rfl⟩
        · exact ⟨_, _, by rw [if_neg hl], (ab_was_dropped_spec ab buff).2.1⟩
      rw [hAB] at h
      simp only [] at h
      have hP1 : P (if hit = true then aux_reset ab else ab) := by
        split
        · exact hreset _ (hP p ab hab)
        · exact hP p ab hab
      generalize (if hit = true then aux_reset ab else ab) = ab1 at h hP1
      have hset : ∀ (x : aux_buffer), P x →
          ∀ (q : Nat) (abq : aux_buffer), (buffA.aux_shm.set p x)[q]? = some abq → P abq := by
        intro x hx q abq hq
        rw [hauxA] at hq
        by_cases hqp : p = q
        · subst hqp
          rw [List.getElem?_set] at hq
          simp only [if_true] at hq
          split at hq
          · cases hq; exact hx
          · cases hq
        · rw [List.getElem?_set_ne hqp] at hq
          exact hP q abq hq
      by_cases hchosen : ab1.reusable = true ∧ ab1.size ≥ size
      · rw [if_pos hchosen] at h
        by_cases hlast : buffA.aux_buffers_age.getLast? ≠ buffA.cur_aux_buff
        · rw [if_pos hlast] at h
          cases h
        · rw [if_neg hlast] at h
          simp only [Option.some.injEq, Prod.mk.injEq] at h
          obtain ⟨rfl, rfl⟩ := h
          exact hset _ (hclear _ hP1)
      · rw [if_neg hchosen] at h
        exact ih _ _ _ _ h (hset _ hP1)

theorem seg_bounded_reset (ab : aux_buffer) (h : seg_bounded ab) : seg_bounded (aux_reset ab) :=
  ⟨Nat.zero_le _, h.2.1, h.2.2⟩

theorem seg_bounded_clear (ab : aux_buffer) (h : seg_bounded ab) :
    seg_bounded { ab with reusable := false } := h

/-- The segment that `new_aux_buffer` makes for a small request is bounded. -/
theorem new_aux_buffer_segs {pg size : Nat} {buff buff1 : buffer} {p : Nat}
    (h : new_aux_buffer pg buff size = some (buff1, p)) (hsmall : small_request pg size)
    (hP : ∀ (q : Nat) (ab : aux_buffer), buff.aux_shm[q]? = some ab → seg_bounded ab) :
    ∀ (q : Nat) (ab : aux_buffer), buff1.aux_shm[q]? = some ab → seg_bounded ab := by
  obtain ⟨_, hp, _, _, ⟨ab0, haux, _, _, _, hhead, _⟩, _⟩ := new_aux_buffer_spec h
  obtain ⟨hpg, ab1, hab1, hsz, hlen⟩ := new_aux_buffer_size h
  have h48 : sizeof_aux_buffer = 48 := rfl
  have hW : WORD = 2 ^ 64 := rfl
  unfold small_request at hsmall
  obtain ⟨hgt, hle⟩ := @aux_segment_length_gt pg size hpg (by omega)
  have e01 : ab1 = ab0 := by
    rw [haux, hp, List.getElem?_concat_length] at hab1
    cases hab1; rfl
  subst e01
  have hsz2 : ab1.size = aux_segment_length pg size - sizeof_aux_buffer := by
    rw [hsz]
    have : aux_segment_length pg size + WORD - sizeof_aux_buffer
        = (aux_segment_length pg size - sizeof_aux_buffer) + WORD := by omega
    rw [this, Nat.add_mod_right]
    exact Nat.mod_eq_of_lt (by omega)
  intro q ab hq
  rw [haux] at hq
  by_cases hql : q < buff.aux_shm.length
  · rw [List.getElem?_append_left hql] at hq
    exact hP q ab hq
  · have hq2 := hq
    rw [List.getElem?_append_right (by omega)] at hq2
    have hq0 : q - buff.aux_shm.length = 0 := by
      by_contra hne
      rw [List.getElem?_eq_none (by simp; omega)] at hq2
      cases hq2
    rw [hq0] at hq2
    simp only [List.getElem?_cons_zero, Option.some.injEq] at hq2
    subst hq2
    refine ⟨by omega, by omega, by omega⟩

/-- The segments stay bounded over `writer_get_aux_buffer`. -/
theorem writer_get_aux_buffer_segs {pg size : Nat} {buff buff1 : buffer} {p : Nat}
    (h : writer_get_aux_buffer pg buff size = some (buff1, p)) (hsmall : small_request pg size)
    (hP : ∀ (q : Nat) (ab : aux_buffer), buff.aux_shm[q]? = some ab → seg_bounded ab) :
    ∀ (q : Nat) (ab : aux_buffer), buff1.aux_shm[q]? = some ab → seg_bounded ab := by
  have walk_case : ∀ {r : Option (buffer × Option Nat)},
      writer_walk size 0 buff.aux_buffers_age buff = r →
      (match r with
        | none => none
        | some (buff1, some p) => some (buff1, p)
        | some (buff1, none) => new_aux_buffer pg buff1 size) = some (buff1, p) →
      ∀ (q : Nat) (ab : aux_buffer), buff1.aux_shm[q]? = some ab → seg_bounded ab := by
    intro r hr hm
    split at hm
    · cases hm
    · rename_i b2 p2
      cases hm
      exact writer_walk_segs seg_bounded seg_bounded_reset seg_bounded_clear size _ 0 _ _ _ hr hP
    · rename_i b2
      exact new_aux_buffer_segs hm hsmall
        (writer_walk_segs seg_bounded seg_bounded_reset seg_bounded_clear size _ 0 _ _ _ hr hP)
  unfold writer_get_aux_buffer at h
  split at h
  · exact walk_case rfl h
  · split at h
    · cases h
    · split at h
      · exact walk_case rfl h
      · split at h
        · cases h
        · cases h
          exact hP

theorem set_segs {P : aux_buffer → Prop} {l : List aux_buffer} {p : Nat} {x : aux_buffer}
    (hP : ∀ (q : Nat) (ab : aux_buffer), l[q]? = some ab → P ab) (hx : P x) :
    ∀ (q : Nat) (ab : aux_buffer), (l.set p x)[q]? = some ab → P ab := by
  intro q abq hq
  by_cases hqp : p = q
  · subst hqp
    rw [List.getElem?_set] at hq
    simp only [if_true] at hq
    split at hq
    · cases hq; exact hx
    · cases hq
  · rw [List.getElem?_set_ne hqp] at hq
    exact hP q abq hq

/-- The segments stay bounded over `_buffer_push_strn`. -/
theorem _buffer_push_strn_segs {pg size : Nat} {buff buff2 : buffer} {data : List Nat}
    {off : Nat} (h : _buffer_push_strn pg buff data size = some (buff2, off))
    (hsmall : small_request pg size)
    (hP : ∀ (q : Nat) (ab : aux_buffer), buff.aux_shm[q]? = some ab → seg_bounded ab) :
    ∀ (q : Nat) (ab : aux_buffer), buff2.aux_shm[q]? = some ab → seg_bounded ab := by
  unfold _buffer_push_strn at h
  split at h
  · cases h
  · rename_i buff1 p hw
    have hP1 := writer_get_aux_buffer_segs hw hsmall hP
    split at h
    · cases h
    · split at h
      · cases h
      · split at h
        · cases h
        · rename_i ab hab
          simp only [] at h
          split at h
          · cases h
          · split at h
            · cases h
            · rename_i bytes hc
              cases h
              obtain ⟨b1, b2, b3⟩ := hP1 p ab hab
              obtain ⟨hb, _⟩ := memcpy_bounds hc
              have hl := memcpy_length hc
              have hW : WORD = 2 ^ 64 := rfl
              have h48 : sizeof_aux_buffer = 48 := rfl
              refine set_segs hP1 ⟨?_, ?_, b3⟩
              · show (ab.head + size) % WORD ≤ bytes.length
                rw [hl, Nat.mod_eq_of_lt (by omega)]
                exact hb
              · show bytes.length ≤ ab.size
                rw [hl]; exact b2

/-- The segments stay bounded over `buffer_push_strn`. -/
theorem buffer_push_strn_segs {pg len evid : Nat} {buff buff3 : buffer} {str : List Nat}
    {hd : Nat} (h : buffer_push_strn pg buff evid str len = some (buff3, hd))
    (hsmall : small_request pg len)
    (hP : ∀ (q : Nat) (ab : aux_buffer), buff.aux_shm[q]? = some ab → seg_bounded ab) :
    ∀ (q : Nat) (ab : aux_buffer), buff3.aux_shm[q]? = some ab → seg_bounded ab := by
  unfold buffer_push_strn at h
  split at h
  · cases h
  · rename_i buff2 off hp
    have hP2 := _buffer_push_strn_segs hp hsmall hP
    split at h
    · cases h
    · rename_i p hcur
      split at h
      · cases h
      · rename_i ab hab
        simp only [Option.some.injEq, Prod.mk.injEq] at h
        obtain ⟨rfl, _⟩ := h
        refine set_segs hP2 ?_
        have := hP2 p ab hab
        split <;> exact this

/-- The segments stay bounded over one call that is a small request. -/
theorem step_segs {pg : Nat} {b b1 : buffer} {op : Op} (hs : step pg b op = some b1)
    (hop : small_op pg op)
    (hP : ∀ (q : Nat) (ab : aux_buffer), b.aux_shm[q]? = some ab → seg_bounded ab) :
    ∀ (q : Nat) (ab : aux_buffer), b1.aux_shm[q]? = some ab → seg_bounded ab := by
  cases op with
  | push elem size =>
    obtain ⟨⟨b2, ok⟩, hp, he⟩ := Option.map_eq_some'.1 hs
    cases he
    rw [(buffer_push_frame hp).1]; exact hP
  | pop =>
    obtain ⟨⟨b2, res⟩, hp, he⟩ := Option.map_eq_some'.1 hs
    cases he
    rw [(buffer_pop_frame hp).1]; exact hP
  | push_str evid str =>
    obtain ⟨⟨b2, hd⟩, hp, he⟩ := Option.map_eq_some'.1 hs
    cases he
    obtain ⟨n, hn, hstrn⟩ := buffer_push_str_handle hp
    have hsm : small_request pg (n + 1) := hop n hn
    have hW : WORD = 2 ^ 64 := rfl
    have hmod : (n + 1) % WORD = n + 1 := by
      unfold small_request at hsm
      exact Nat.mod_eq_of_lt (by omega)
    rw [hmod] at hstrn
    exact buffer_push_strn_segs hstrn hsm hP
  | push_strn evid str len =>
    obtain ⟨⟨b2, hd⟩, hp, he⟩ := Option.map_eq_some'.1 hs
    cases he
    exact buffer_push_strn_segs hp hop hP
  | notify_dropped bg en =>
    have hs2 : buffer_notify_dropped b bg en = some b1 := hs
    rw [buffer_notify_dropped_eq] at hs2
    split at hs2
    · cases hs2
    · simp only [] at hs2
      split at hs2
      · cases hs2; exact hP
      · split at hs2
        · split at hs2
          · cases hs2; exact hP
          · cases hs2
        · split at hs2
          · cases hs2; exact hP
          · cases hs2
  | set_last_processed_id id =>
    have hs2 : buffer_set_last_processed_id b id = some b1 := hs
    rw [buffer_set_last_processed_id_eq] at hs2
    split at hs2
    · cases hs2; exact hP
    · cases hs2

/-- The segments stay bounded over a history of small requests. -/
theorem run_segs {pg : Nat} (ops : List Op) :
    ∀ (b b1 : buffer), run pg b ops = some b1 → (∀ op ∈ ops, small_op pg op) →
      (∀ (q : Nat) (ab : aux_buffer), b.aux_shm[q]? = some ab → seg_bounded ab) →
      ∀ (q : Nat) (ab : aux_buffer), b1.aux_shm[q]? = some ab → seg_bounded ab := by
  induction ops with
  | nil =>
    intro b b1 h _ hP
    cases h
    exact hP
  | cons op ops ih =>
    intro b b1 h hops hP
    rw [run] at h
    split at h
    · cases h
    · rename_i b2 hstep
      exact ih b2 b1 h (fun o ho => hops o (List.mem_cons_of_mem _ ho))
        (step_segs hstep (hops op (List.mem_cons_self _ _)) hP)



/-- With the current segment's head at or beyond `2^32` and room left in it,
`buffer_push_strn` stops at the assertion `off < (1LU << 32)`. -/
theorem push_fails_beyond_4GiB {pg evid len c : Nat} {b : buffer} {str : List Nat}
    {ab : aux_buffer} (hcur : b.cur_aux_buff = some c) (hab : b.aux_shm[c]? = some ab)
    (hfree : ¬ aux_buffer_free_space ab < len) (hhead : 2 ^ 32 ≤ ab.head) :
    (writer_get_aux_buffer pg b len = none ∨ writer_get_aux_buffer pg b len = some (b, c)) ∧
    buffer_push_strn pg b evid str len = none := by
  have hw : writer_get_aux_buffer pg b len = none ∨ writer_get_aux_buffer pg b len = some (b, c) := by
    unfold writer_get_aux_buffer
    rw [hcur]
    simp only [hab, if_neg hfree]
    split
    · exact Or.inl rfl
    · exact Or.inr rfl
  refine ⟨hw, ?_⟩
  unfold buffer_push_strn _buffer_push_strn
  rcases hw with hw | hw
  · rw [hw]
  · rw [hw]
    simp only [hab]
    split
    · rfl
    · rename_i b2 off hm
      split at hm
      · cases hm
      · split at hm
        · cases hm
        · rw [if_pos (by omega)] at hm
          cases hm

/-- The first `buffer_push_strn` on a fresh buffer: it maps segment 0 and leaves
its head at `len`. -/
theorem buffer_push_strn_fresh {S E C pg evid len : Nat} {str : List Nat} (hpg : 0 < pg)
    (hpg2 : pg ≤ 2 ^ 32) (hlen : len ≤ 2 ^ 32) (hstr : len ≤ str.length) :
    (buffer_push_strn pg (fresh_shared_buffer S E C) evid str len).map
      (fun r => (r.1.cur_aux_buff, r.1.aux_buffers_age,
        r.1.aux_shm.map (fun ab => (ab.size, ab.head)))) =
      some (some 0, [0],
        [((((((len + sizeof_aux_buffer) % WORD) / pg + 2) * pg) % WORD + WORD
            - sizeof_aux_buffer) % WORD, len)]) := by
  have hW : WORD = 2 ^ 64 := rfl
  have hroom := @new_segment_room pg len hpg hpg2 hlen
  have hmod : len % WORD = len := Nat.mod_eq_of_lt (by omega)
  have hcpy := @memcpy_isSome (List.replicate
      ((((len + sizeof_aux_buffer) % WORD) / pg + 2) * pg % WORD - sizeof_aux_buffer) 0)
    str 0 len (by simpa using hroom) hstr
  unfold buffer_push_strn _buffer_push_strn writer_get_aux_buffer
  simp only [fresh_shared_buffer, writer_walk, new_aux_buffer, if_neg (Nat.pos_iff_ne_zero.1 hpg)]
  simp [hcpy, hmod]

/-- Claim C15 (amended): nothing bounds the aux segments by itself, the bound
comes from the requests.  In a state reached from a fresh buffer by calls whose
strings are small requests (the segment made for one is at most 4 GiB), every
aux segment is at most 4 GiB with its head inside the data area, so below
`2^32`; and the segment that `writer_get_aux_buffer` hands to
`_buffer_push_strn` for a further small request has its head, which is the
offset tested by the assertion, below `2^32`. -/
theorem C15_offset_below_4GiB (S E C pg : Nat) (hist : List Op) (b0 b : buffer)
    (hinit : initialize_shared_buffer S E C = some b0) (hrun : run pg b0 hist = some b)
    (hsmall : ∀ op ∈ hist, small_op pg op) :
    (∀ (q : Nat) (ab : aux_buffer), b.aux_shm[q]? = some ab →
      ab.size + sizeof_aux_buffer ≤ 2 ^ 32 ∧ ab.head ≤ ab.size ∧ ab.head < 2 ^ 32) ∧
    (∀ (size p : Nat) (b1 : buffer) (ab : aux_buffer), small_request pg size →
      writer_get_aux_buffer pg b size = some (b1, p) → b1.aux_shm[p]? = some ab →
      ab.size + sizeof_aux_buffer ≤ 2 ^ 32 ∧ ab.head < 2 ^ 32) := by
  have hb0 : b0 = fresh_shared_buffer S E C := by
    unfold initialize_shared_buffer at hinit
    split at hinit
    · cases hinit
    · split at hinit
      · cases hinit
      · cases hinit; rfl
  have h0 : ∀ (q : Nat) (ab : aux_buffer), b0.aux_shm[q]? = some ab → seg_bounded ab := by
    intro q ab hq
    rw [hb0] at hq
    simp [fresh_shared_buffer] at hq
  have hP := run_segs hist b0 b hrun hsmall h0
  have h48 : sizeof_aux_buffer = 48 := rfl
  constructor
  · intro q ab hq
    obtain ⟨a1, a2, a3⟩ := hP q ab hq
    exact ⟨a3, by omega, by omega⟩
  · intro size p b1 ab hsm hw hab
    obtain ⟨a1, a2, a3⟩ := writer_get_aux_buffer_segs hw hsm hP p ab hab
    exact ⟨a3, by omega⟩

/-- After `"hello"` was pushed on a fresh buffer with pages of 64 bytes. -/
theorem C15_offset_below_4GiB_witness :
    (∀ (q : Nat) (ab : aux_buffer), (example_pushed).aux_shm[q]? = some ab →
      ab.size + sizeof_aux_buffer ≤ 2 ^ 32 ∧ ab.head ≤ ab.size ∧ ab.head < 2 ^ 32) ∧
    (∀ (size p : Nat) (b1 : buffer) (ab : aux_buffer), small_request 64 size →
      writer_get_aux_buffer 64 example_pushed size = some (b1, p) → b1.aux_shm[p]? = some ab →
      ab.size + sizeof_aux_buffer ≤ 2 ^ 32 ∧ ab.head < 2 ^ 32) :=
  C15_offset_below_4GiB 320 16 4 64 [Op.push_str 7 hello] (fresh_shared_buffer 320 16 4)
    example_pushed rfl rfl
    (fun op hop => by
      rw [List.mem_singleton] at hop
      subst hop
      intro n hn
      have e : strlen hello = some 5 := by decide
      rw [e] at hn
      cases hn
      unfold small_request
      decide)

/-- Claim C15 is false as stated: with pages of 4096 bytes, a first
`buffer_push_strn` of `2^32` bytes on a fresh buffer is served by a segment of
`2^32 + 8192` bytes and leaves its head at `2^32`; the next call, for one byte,
gets the same segment from `writer_get_aux_buffer` and stops at the assertion
`off < (1LU << 32)`. -/
theorem C15_counterexample :
    ∃ b1 h ab, buffer_push_strn 4096 (fresh_shared_buffer 320 16 4) 1
        (List.replicate (2 ^ 32) 65) (2 ^ 32) = some (b1, h) ∧
      b1.cur_aux_buff = some 0 ∧ b1.aux_shm[0]? = some ab ∧
      ab.size + sizeof_aux_buffer = 2 ^ 32 + 8192 ∧ ab.head = 2 ^ 32 ∧
      writer_get_aux_buffer 4096 b1 1 = some (b1, 0) ∧
      buffer_push_strn 4096 b1 2 [65] 1 = none := by
  have hfresh := @buffer_push_strn_fresh 320 16 4 4096 1 (2 ^ 32) (List.replicate (2 ^ 32) 65)
    (by decide) (by decide) (Nat.le_refl _) (by rw [List.length_replicate])
  obtain ⟨⟨b1, h⟩, hpush, hres⟩ := Option.map_eq_some'.1 hfresh
  simp only [Prod.mk.injEq] at hres
  obtain ⟨hcur, hage, hsegs⟩ := hres
  obtain ⟨ab, hl, hab⟩ : ∃ ab, b1.aux_shm = [ab] ∧
      (ab.size, ab.head) = ((((((2 ^ 32 + sizeof_aux_buffer) % WORD) / 4096 + 2) * 4096) % WORD
        + WORD - sizeof_aux_buffer) % WORD, 2 ^ 32) := by
    cases hb : b1.aux_shm with
    | nil => rw [hb] at hsegs; cases hsegs
    | cons a rest =>
      rw [hb] at hsegs
      cases rest with
      | nil =>
        simp only [List.map_cons, List.map_nil, List.cons.injEq, and_true] at hsegs
        exact ⟨a, rfl, hsegs⟩
      | cons a2 rest2 => simp at hsegs
  simp only [Prod.mk.injEq] at hab
  obtain ⟨hsize, hhead⟩ := hab
  have hsize2 : ab.size = 2 ^ 32 + 8192 - 48 := by
    rw [hsize]; decide
  have hget : b1.aux_shm[0]? = some ab := by rw [hl]; rfl
  have hfree : ¬ aux_buffer_free_space ab < 1 := by
    unfold aux_buffer_free_space
    rw [hsize2, hhead]
    decide
  have hfail := @push_fails_beyond_4GiB 4096 2 1 0 b1 [65] ab hcur hget hfree (by omega)
  refine ⟨b1, h, ab, hpush, hcur, hget, by rw [hsize2]; decide, hhead, ?_, hfail.2⟩
  unfold writer_get_aux_buffer
  rw [hcur]
  simp only [hget, if_neg hfree, hage]
  simp


/-! ## The control segment and the creation of a buffer (C20, C12) -/


/-- The `memcpy` of `create_shared_control_buffer` fills the fresh segment with
the first bytes of the template. -/
theorem memcpy_fresh_segment {src : List Nat} {n : Nat} (h : n ≤ src.length) :
    memcpy (List.replicate n 0) 0 src n = some (src.take n) := by
  rw [memcpy_isSome (by simp) h]
  simp

/-- The size field at the start of a copy of at least eight bytes of a
template. -/
theorem control_size_field_take (control : source_control) {n : Nat}
    (hn : sizeof_control_size ≤ n) (hs : control.size < 2 ^ 64) :
    control_size_field ((source_control_bytes control).take n) = control.size := by
  unfold control_size_field source_control_bytes
  rw [List.take_take, Nat.min_eq_left hn]
  have h8 : sizeof_control_size = (uint64_bytes control.size).length := by
    rw [uint64_bytes_length]; rfl
  rw [h8, List.take_left']
  · exact uint64_of_bytes_bytes hs
  · rfl

theorem source_control_bytes_length (control : source_control) :
    (source_control_bytes control).length = 8 + control.events.length := by
  unfold source_control_bytes
  rw [List.length_append, uint64_bytes_length]

/-- Claim C20 (the code departs from it for the empty template), with all system
calls succeeding.  For a template of `size >= 8` whose object holds `size`
bytes, the segment created has `size` bytes, its size field is `size`, and
`get_shared_control_buffer` maps all of it and sees the first `size` bytes of
the template.  For a template of `size == 0` the segment has 8 bytes but the
size field stored in it is 0, so `get_shared_control_buffer` asks `mmap` for 0
bytes, gets `MAP_FAILED`, unlinks the control key and returns `NULL`.  A
template size from 1 to 7 fails the assertion. -/
theorem C20_control_segment (m : String → String) (key : String) (control : source_control) :
    (sizeof_control_size ≤ control.size → control.size < 2 ^ 64 →
      control.size ≤ (source_control_bytes control).length →
      ∃ seg,
        create_shared_control_buffer m ⟨true, true, true, true⟩ key control
          = some (some seg, [Effect.shm_open (m key), Effect.ftruncate control.size,
              Effect.mmap control.size]) ∧
        seg.length = max control.size sizeof_control_size ∧
        control_size_field seg = seg.length ∧
        seg = (source_control_bytes control).take control.size ∧
        get_shared_control_buffer m ⟨true, true, true, true⟩ key seg
          = some (some seg, [Effect.shm_open (m key), Effect.pread,
              Effect.mmap control.size])) ∧
    (control.size = 0 →
      ∃ seg,
        create_shared_control_buffer m ⟨true, true, true, true⟩ key control
          = some (some seg, [Effect.shm_open (m key), Effect.ftruncate sizeof_control_size,
              Effect.mmap sizeof_control_size]) ∧
        seg.length = max control.size sizeof_control_size ∧
        control_size_field seg = 0 ∧
        get_shared_control_buffer m ⟨true, true, true, true⟩ key seg
          = some (none, [Effect.shm_open (m key), Effect.pread, Effect.mmap 0, Effect.close,
              Effect.shm_unlink (m key)])) ∧
    (0 < control.size → control.size < sizeof_control_size →
      create_shared_control_buffer m ⟨true, true, true, true⟩ key control = none) := by
  have h8 : sizeof_control_size = 8 := rfl
  refine ⟨?_, ?_, ?_⟩
  · intro hge hlt hobj
    have hne : control.size ≠ 0 := by omega
    have hlen : ((source_control_bytes control).take control.size).length = control.size := by
      rw [List.length_take]; omega
    have hfield := control_size_field_take control hge hlt
    refine ⟨(source_control_bytes control).take control.size, ?_, ?_, ?_, rfl, ?_⟩
    · unfold create_shared_control_buffer
      simp only [if_neg hne, memcpy_fresh_segment hobj]
      simp [hge]
    · rw [hlen]; omega
    · rw [hlen]; exact hfield
    · unfold get_shared_control_buffer
      have hrd : memread ((source_control_bytes control).take control.size) 0 sizeof_control_size
          = some (((source_control_bytes control).take control.size).take sizeof_control_size) := by
        unfold memread
        rw [if_pos (by rw [hlen]; omega)]
        rfl
      simp only [hrd]
      have hf2 : uint64_of_bytes
          (((source_control_bytes control).take control.size).take sizeof_control_size)
          = control.size := hfield
      simp only [hf2]
      simp [hne]
  · intro h0
    have hobj : sizeof_control_size ≤ (source_control_bytes control).length := by
      rw [source_control_bytes_length]; omega
    have hlen : ((source_control_bytes control).take sizeof_control_size).length = 8 := by
      rw [List.length_take]; omega
    have hfield : control_size_field ((source_control_bytes control).take sizeof_control_size)
        = 0 := by
      rw [control_size_field_take control (Nat.le_refl _) (by omega)]; exact h0
    refine ⟨(source_control_bytes control).take sizeof_control_size, ?_, ?_, hfield, ?_⟩
    · unfold create_shared_control_buffer
      simp only [if_pos h0, memcpy_fresh_segment hobj]
      simp
    · rw [hlen, h0]; rfl
    · unfold get_shared_control_buffer
      have hrd : memread ((source_control_bytes control).take sizeof_control_size) 0
          sizeof_control_size
          = some (((source_control_bytes control).take sizeof_control_size).take
              sizeof_control_size) := by
        unfold memread
        rw [if_pos (by rw [hlen]; omega)]
        rfl
      simp only [hrd]
      have hf2 : uint64_of_bytes
          (((source_control_bytes control).take sizeof_control_size).take sizeof_control_size)
          = 0 := hfield
      simp only [hf2]
      simp
  · intro hpos hlt
    unfold create_shared_control_buffer
    simp only [if_neg (Nat.pos_iff_ne_zero.1 hpos)]
    simp [hlt]



/-- The example template of 16 bytes, and the empty template. -/
theorem C20_control_segment_witness :
    (∃ seg,
      create_shared_control_buffer example_map_ctrl_key ⟨true, true, true, true⟩ "/buf"
          example_control
        = some (some seg, [Effect.shm_open (example_map_ctrl_key "/buf"),
            Effect.ftruncate (example_control).size, Effect.mmap (example_control).size]) ∧
      seg.length = max (example_control).size sizeof_control_size ∧
      control_size_field seg = seg.length ∧
      seg = (source_control_bytes example_control).take (example_control).size ∧
      get_shared_control_buffer example_map_ctrl_key ⟨true, true, true, true⟩ "/buf" seg
        = some (some seg, [Effect.shm_open (example_map_ctrl_key "/buf"), Effect.pread,
            Effect.mmap (example_control).size])) ∧
    (∃ seg,
      create_shared_control_buffer example_map_ctrl_key ⟨true, true, true, true⟩ "/buf"
          empty_control
        = some (some seg, [Effect.shm_open (example_map_ctrl_key "/buf"),
            Effect.ftruncate sizeof_control_size, Effect.mmap sizeof_control_size]) ∧
      seg.length = max (empty_control).size sizeof_control_size ∧
      control_size_field seg = 0 ∧
      get_shared_control_buffer example_map_ctrl_key ⟨true, true, true, true⟩ "/buf" seg
        = some (none, [Effect.shm_open (example_map_ctrl_key "/buf"), Effect.pread,
            Effect.mmap 0, Effect.close, Effect.shm_unlink (example_map_ctrl_key "/buf")])) :=
  ⟨(C20_control_segment example_map_ctrl_key "/buf" example_control).1
      (by decide) (by decide) (by decide),
    (C20_control_segment example_map_ctrl_key "/buf" empty_control).2.1 rfl⟩

/-- Claim C12 (amended): once the control segment has been created,
`create_shared_buffer_adv` with `capacity == 0` fails the assertion of
`initialize_shared_buffer`; with `elem_size == 0` it takes the element size
from `source_control_max_event_size`, fails the assertion when that is 0 and
creates the buffer when that and the capacity are positive.  With the system
calls of `initialize_shared_buffer` succeeding it returns `NULL` exactly when
`create_shared_control_buffer` does. -/
theorem C12_create_with_zero_sizes (m : String → String) (maxev : List Nat → Nat)
    (os : shm_calls) (S : Nat) (key : String) (elem_size capacity : Nat)
    (control : source_control) :
    (∀ (seg : List Nat) (tr : List Effect),
      create_shared_control_buffer m os key control = some (some seg, tr) →
      (capacity = 0 →
        create_shared_buffer_adv m maxev os S key elem_size capacity control = none) ∧
      (elem_size = 0 → maxev seg = 0 →
        create_shared_buffer_adv m maxev os S key elem_size capacity control = none) ∧
      (elem_size = 0 → 0 < maxev seg → 0 < capacity →
        create_shared_buffer_adv m maxev os S key elem_size capacity control
          = some (some (fresh_shared_buffer S (maxev seg) capacity)))) ∧
    (create_shared_buffer_adv m maxev os S key elem_size capacity control = some none ↔
      ∃ tr, create_shared_control_buffer m os key control = some (none, tr)) := by
  constructor
  · intro seg tr hc
    refine ⟨?_, ?_, ?_⟩
    · intro h0
      unfold create_shared_buffer_adv initialize_shared_buffer
      rw [hc, h0]
      simp only []
      split <;> simp
    · intro he hm
      unfold create_shared_buffer_adv initialize_shared_buffer
      rw [hc, he]
      simp [hm]
    · intro he hm hcap
      unfold create_shared_buffer_adv initialize_shared_buffer
      rw [hc, he]
      simp only [if_true]
      rw [if_neg (by omega), if_neg (by omega)]
      rfl
  · unfold create_shared_buffer_adv
    constructor
    · intro h
      split at h
      · cases h
      · rename_i tr hc
        exact ⟨tr, hc⟩
      · rename_i seg tr hc
        simp only [] at h
        cases hi : initialize_shared_buffer S (if elem_size = 0 then maxev seg else elem_size)
            capacity with
        | none => rw [hi] at h; cases h
        | some b => rw [hi] at h; cases h
    · rintro ⟨tr, hc⟩
      rw [hc]

/-- The example template, with `source_control_max_event_size` giving 16. -/
theorem C12_create_with_zero_sizes_witness :
    (create_shared_buffer_adv example_map_ctrl_key (fun _ => 16) calls_ok 320 "/buf" 0 0
        example_control = none) ∧
    (create_shared_buffer_adv example_map_ctrl_key (fun _ => 16) calls_ok 320 "/buf" 0 4
        example_control = some (some (fresh_shared_buffer 320 16 4))) :=
  ⟨((C12_create_with_zero_sizes example_map_ctrl_key (fun _ => 16) calls_ok 320 "/buf" 0 0
      example_control).1 [16, 0, 0, 0, 0, 0, 0, 0, 1, 2, 3, 4, 5, 6, 7, 8]
      [Effect.shm_open (example_map_ctrl_key "/buf"), Effect.ftruncate 16, Effect.mmap 16]
      rfl).1 rfl,
   ((C12_create_with_zero_sizes example_map_ctrl_key (fun _ => 16) calls_ok 320 "/buf" 0 4
      example_control).1 [16, 0, 0, 0, 0, 0, 0, 0, 1, 2, 3, 4, 5, 6, 7, 8]
      [Effect.shm_open (example_map_ctrl_key "/buf"), Effect.ftruncate 16, Effect.mmap 16]
      rfl).2.2 rfl (by decide) (by decide)⟩

/-- Claim C12 is false as stated: with a capacity of 0 the call ends in a failed
assertion, not in `NULL`, and with an element size of 0 and a capacity of 4 it
creates a buffer whose elements have the size that
`source_control_max_event_size` gives. -/
theorem C12_counterexample :
    create_shared_buffer_adv example_map_ctrl_key (fun _ => 16) calls_ok 320 "/buf" 16 0
        example_control = none ∧
    create_shared_buffer_adv example_map_ctrl_key (fun _ => 16) calls_ok 320 "/buf" 0 4
        example_control = some (some (fresh_shared_buffer 320 16 4)) ∧
    create_shared_buffer_adv example_map_ctrl_key (fun _ => 16) calls_ok 320 "/buf" 16 0
        example_control ≠ some none := by
  refine ⟨rfl, rfl, ?_⟩
  intro h
  cases h


/-! ## Tear-down and attach: who unlinks (C13, C14) -/


/-- The loop over the aux segments only unmaps. -/
theorem release_aux_buffers_no_unlink (pg : Nat) (aux_shm : List aux_buffer) (vec : List Nat) :
    ∀ es, release_aux_buffers pg aux_shm vec = some es → ∀ e ∈ es, is_unlink e = false := by
  induction vec with
  | nil =>
    intro es h e he
    simp only [release_aux_buffers, Option.some.injEq] at h
    subst h
    cases he
  | cons p rest ih =>
    intro es h e he
    rw [release_aux_buffers] at h
    split at h
    · cases h
    · rename_i ab hab
      unfold aux_buffer_release at h
      split at h
      · cases h
      · rename_i e1 he1
        split at he1
        · cases he1
        · cases he1
          split at h
          · cases h
          · rename_i es1 hes1
            cases h
            rcases List.mem_append.1 he with h1 | h1
            · rw [List.mem_singleton] at h1
              subst h1; rfl
            · exact ih es1 hes1 e h1

/-- The loop returns exactly when every entry of the vector points to a segment
that passes the assertion of `aux_buffer_release`. -/
theorem release_aux_buffers_isSome (pg : Nat) (aux_shm : List aux_buffer) (vec : List Nat) :
    (release_aux_buffers pg aux_shm vec).isSome = true ↔
      ∀ p ∈ vec, ∃ ab, aux_shm[p]? = some ab ∧
        ((ab.size + sizeof_aux_buffer) % WORD) % pg = 0 := by
  induction vec with
  | nil => simp [release_aux_buffers]
  | cons p rest ih =>
    rw [release_aux_buffers]
    constructor
    · intro h q hq
      split at h
      · cases h
      · rename_i ab hab
        unfold aux_buffer_release at h
        by_cases hz : ((ab.size + sizeof_aux_buffer) % WORD) % pg = 0
        · rw [if_neg (not_not.2 hz)] at h
          simp only [] at h
          rcases List.mem_cons.1 hq with rfl | hq
          · exact ⟨ab, hab, hz⟩
          · cases hr : release_aux_buffers pg aux_shm rest with
            | none => rw [hr] at h; cases h
            | some es => exact ih.1 (by rw [hr]; rfl) q hq
        · rw [if_pos hz] at h
          cases h
    · intro h
      obtain ⟨ab, hab, hz⟩ := h p (List.mem_cons_self _ _)
      have hrest := ih.2 (fun q hq => h q (List.mem_cons_of_mem _ hq))
      obtain ⟨es, hes⟩ := Option.isSome_iff_exists.1 hrest
      simp only [hab, aux_buffer_release, if_neg (not_not.2 hz), hes]
      rfl

theorem filter_eq_self_of_no_unlink {es : List Effect} (h : ∀ e ∈ es, is_unlink e = false) :
    es.filter (fun e => !is_unlink e) = es ∧ es.filter is_unlink = [] := by
  constructor
  · apply List.filter_eq_self.2
    intro e he
    rw [h e he]; rfl
  · apply List.filter_eq_nil_iff.2
    intro e he
    rw [h e he]; simp

/-- Claim C13 (amended): `destroy_shared_sub_buffer` leaves the shared memory as
`destroy_shared_buffer` does and makes the calls of `destroy_shared_buffer`
with the two unlinks left out: it unlinks neither the main name nor the
control name, which `destroy_shared_buffer` unlinks in this order.  It returns
when every aux segment of the vector passes the assertion of
`aux_buffer_release`. -/
theorem C13_destroy_sub_buffer (m : String → String) (pg : Nat) (key : String)
    (control : List Nat) (buff : buffer) :
    (destroy_shared_sub_buffer pg control buff).map (fun r => r.1)
      = (destroy_shared_buffer m pg key control buff).map (fun r => r.1) ∧
    (destroy_shared_sub_buffer pg control buff).map (fun r => r.2)
      = (destroy_shared_buffer m pg key control buff).map
          (fun r => r.2.filter (fun e => !is_unlink e)) ∧
    (destroy_shared_sub_buffer pg control buff).map (fun r => r.2.filter is_unlink)
      = (destroy_shared_sub_buffer pg control buff).map (fun _ => []) ∧
    (destroy_shared_buffer m pg key control buff).map (fun r => r.2.filter is_unlink)
      = (destroy_shared_buffer m pg key control buff).map
          (fun _ => [Effect.shm_unlink key, Effect.shm_unlink (m key)]) ∧
    ((destroy_shared_sub_buffer pg control buff).isSome = true ↔
      ∀ p ∈ buff.aux_buffers, ∃ ab, buff.aux_shm[p]? = some ab ∧
        ((ab.size + sizeof_aux_buffer) % WORD) % pg = 0) := by
  have hsome := release_aux_buffers_isSome pg buff.aux_shm buff.aux_buffers
  unfold destroy_shared_sub_buffer destroy_shared_buffer
  cases hr : release_aux_buffers pg buff.aux_shm buff.aux_buffers with
  | none =>
    rw [hr] at hsome
    refine ⟨rfl, rfl, rfl, rfl, ?_⟩
    simpa using hsome
  | some aux =>
    rw [hr] at hsome
    obtain ⟨f1, f2⟩ := filter_eq_self_of_no_unlink
      (release_aux_buffers_no_unlink pg buff.aux_shm buff.aux_buffers aux hr)
    have u1 : ∀ k, is_unlink (Effect.shm_unlink k) = true := fun _ => rfl
    have u2 : ∀ n, is_unlink (Effect.munmap n) = false := fun _ => rfl
    have u3 : is_unlink Effect.store_destroyed = false := rfl
    have u4 : is_unlink Effect.vec_destroy = false := rfl
    have u5 : is_unlink Effect.close = false := rfl
    have u6 : is_unlink Effect.free = false := rfl
    refine ⟨rfl, ?_, ?_, ?_, ?_⟩
    · simp [List.filter_append, f1, u1, u2, u3, u4, u5, u6, destroy_shared_control_buffer,
        release_shared_control_buffer, List.filter_cons]
    · simp [List.filter_append, f2, u1, u2, u3, u4, u5, u6, release_shared_control_buffer,
        List.filter_cons]
    · simp [List.filter_append, f2, u1, u2, u3, u4, u5, u6, destroy_shared_control_buffer,
        release_shared_control_buffer, List.filter_cons]
    · simpa using hsome

set_option maxRecDepth 100000 in
/-- Claim C13 is false as stated: for the producer of the example, which has one
aux segment of 128 bytes, `destroy_shared_buffer` unlinks the main name and the
control name and `destroy_shared_sub_buffer` makes no unlink at all. -/
theorem C13_counterexample :
    (destroy_shared_buffer example_map_ctrl_key 64 "/buf" example_control_segment
        example_pushed).map (fun r => r.2)
      = some [Effect.store_destroyed, Effect.munmap 128, Effect.vec_destroy, Effect.munmap 800,
          Effect.close, Effect.shm_unlink "/buf", Effect.munmap 16,
          Effect.shm_unlink (example_map_ctrl_key "/buf"), Effect.free, Effect.free] ∧
    (destroy_shared_sub_buffer 64 example_control_segment example_pushed).map (fun r => r.2)
      = some [Effect.store_destroyed, Effect.munmap 128, Effect.vec_destroy, Effect.munmap 800,
          Effect.close, Effect.munmap 16, Effect.free, Effect.free] := by
  constructor
  · rfl
  · rfl

set_option maxRecDepth 100000 in
/-- The producer of the example: its one aux segment has 128 bytes, two pages of
64, so both tear-down functions return. -/
theorem C13_destroy_sub_buffer_witness :
    (destroy_shared_sub_buffer 64 example_control_segment example_pushed).isSome = true :=
  (C13_destroy_sub_buffer example_map_ctrl_key 64 "/buf" example_control_segment
    example_pushed).2.2.2.2.2
    (fun p hp => by
      have e : (example_pushed).aux_buffers = [0] := rfl
      rw [e, List.mem_singleton] at hp
      subst hp
      have h1 : ((example_pushed).aux_shm[0]?).isSome = true := rfl
      obtain ⟨ab, hab⟩ := Option.isSome_iff_exists.1 h1
      have h2 : ((example_pushed).aux_shm[0]?).map
          (fun ab => ((ab.size + sizeof_aux_buffer) % WORD) % 64) = some 0 := rfl
      rw [hab] at h2
      exact ⟨ab, hab, by simpa using h2⟩)



/-- The retry loop of `try_get_shared_buffer` only opens and sleeps. -/
theorem shm_open_loop_no_unlink (key : String) :
    ∀ (n f : Nat), (shm_open_loop key n f).2.filter is_unlink = [] := by
  intro n
  induction n with
  | zero => intro f; rfl
  | succ n ih =>
    intro f
    cases f with
    | zero => rfl
    | succ f =>
      rw [shm_open_loop]
      simp only [List.filter_cons]
      exact ih f

/-- The unlinks of `get_shared_control_buffer`: none when it returns a mapping or
fails before `mmap`, the control key when `mmap` fails. -/
theorem get_shared_control_buffer_unlinks {m : String → String} {os : shm_calls} {key : String}
    {segment : List Nat} {res : Option (List Nat)} {tr : List Effect}
    (h : get_shared_control_buffer m os key segment = some (res, tr)) :
    tr.filter is_unlink =
      if res.isSome = true ∨ os.open_ok = false ∨ os.pread_ok = false then []
      else [Effect.shm_unlink (m key)] := by
  unfold get_shared_control_buffer at h
  simp only [] at h
  split at h
  · rename_i ho
    cases h
    simp [ho, is_unlink, List.filter_cons]
  · rename_i ho
    split at h
    · rename_i hp
      cases h
      simp [hp, is_unlink, List.filter_cons]
    · rename_i hp
      split at h
      · cases h
      · split at h
        · cases h
          simp [ho, hp, is_unlink, List.filter_cons]
        · cases h
          simp [is_unlink, List.filter_cons]

/-- Claim C14 (amended): `release_shared_buffer` makes no unlink on any path, and
the attach functions make none on the paths where they succeed.  But
`release_shared_sub_buffer` unlinks the main name and the control name on
every path on which it returns; `get_shared_control_buffer` unlinks the control
key when its `mmap` fails; `try_get_shared_buffer` (and so `get_shared_buffer`)
unlinks the main key whenever it fails at `mmap` or later, and makes no unlink
when it fails earlier; and `reader_get_aux_buffer` either makes no unlink or
ends, after a failed `mmap`, with the unlink of `/aux.<idx>` and `abort`. -/
theorem C14_consumer_unlinks (m : String → String) (pg : Nat) (key : String)
    (control : List Nat) (buff : buffer) (os : get_calls) (os_ctrl os_aux : shm_calls)
    (retry : Nat) (info : buffer_info) (ctrl_segment : List Nat) (idx : Nat) :
    (release_shared_buffer pg control buff).map (fun tr => tr.filter is_unlink)
      = (release_shared_buffer pg control buff).map (fun _ => []) ∧
    (release_shared_sub_buffer m pg key control buff).map (fun tr => tr.filter is_unlink)
      = (release_shared_sub_buffer m pg key control buff).map
          (fun _ => [Effect.shm_unlink key, Effect.shm_unlink (m key)]) ∧
    (∀ (res : Option (List Nat)) (tr : List Effect),
      get_shared_control_buffer m os_ctrl key ctrl_segment = some (res, tr) →
      tr.filter is_unlink =
        if res.isSome = true ∨ os_ctrl.open_ok = false ∨ os_ctrl.pread_ok = false then []
        else [Effect.shm_unlink (m key)]) ∧
    (∀ (ok : Bool) (tr : List Effect),
      try_get_shared_buffer m os os_ctrl key retry info ctrl_segment = some (ok, tr) →
      (ok = true → tr.filter is_unlink = []) ∧
      (ok = false →
        (Effect.shm_unlink key ∈ tr ↔
          ((shm_open_loop key (open_rounds retry) os.open_failures).1 = true ∧
            os.pread_ok = true ∧ info.allocated_size ≠ 0)) ∧
        (tr.filter is_unlink = [] ↔
          ¬ ((shm_open_loop key (open_rounds retry) os.open_failures).1 = true ∧
            os.pread_ok = true ∧ info.allocated_size ≠ 0)))) ∧
    get_shared_buffer m os os_ctrl key info ctrl_segment
      = try_get_shared_buffer m os os_ctrl key 10 info ctrl_segment ∧
    ((reader_get_aux_buffer_calls os_aux buff idx).filter is_unlink = [] ∨
      ∃ size, reader_get_aux_buffer_calls os_aux buff idx
        = [Effect.shm_open (aux_key idx), Effect.read, Effect.mmap (reader_mmap_length size),
            Effect.close, Effect.shm_unlink (aux_key idx), Effect.abort]) := by
  refine ⟨?_, ?_, ?_, ?_, rfl, ?_⟩
  · unfold release_shared_buffer
    cases hr : release_aux_buffers pg buff.aux_shm buff.aux_buffers with
    | none => rfl
    | some aux =>
      obtain ⟨_, f2⟩ := filter_eq_self_of_no_unlink
        (release_aux_buffers_no_unlink pg buff.aux_shm buff.aux_buffers aux hr)
      simp [List.filter_append, f2, is_unlink, release_shared_control_buffer, List.filter_cons]
  · unfold release_shared_sub_buffer
    cases hr : release_aux_buffers pg buff.aux_shm buff.aux_buffers with
    | none => rfl
    | some aux =>
      obtain ⟨_, f2⟩ := filter_eq_self_of_no_unlink
        (release_aux_buffers_no_unlink pg buff.aux_shm buff.aux_buffers aux hr)
      simp [List.filter_append, f2, is_unlink, destroy_shared_control_buffer,
        release_shared_control_buffer, List.filter_cons]
  · intro res tr h
    exact get_shared_control_buffer_unlinks h
  · intro ok tr h
    have hloop := shm_open_loop_no_unlink key (open_rounds retry) os.open_failures
    have hmem : ∀ {l : List Effect}, l.filter is_unlink = [] → Effect.shm_unlink key ∉ l := by
      intro l hl hin
      have := List.mem_filter.2 ⟨hin, (rfl : is_unlink (Effect.shm_unlink key) = true)⟩
      rw [hl] at this
      cases this
    unfold try_get_shared_buffer at h
    simp only [] at h
    generalize shm_open_loop key (open_rounds retry) os.open_failures = opened at h hloop
    split at h
    · rename_i ho
      cases h
      refine ⟨fun hc => (by cases hc), fun _ => ⟨?_, ?_⟩⟩
      · constructor
        · intro hin; exact absurd hin (hmem hloop)
        · rintro ⟨h1, _⟩; rw [ho] at h1; cases h1
      · simp [hloop, ho]
    · rename_i ho
      have ho1 : opened.1 = true := by simpa using ho
      split at h
      · rename_i hp
        cases h
        have hf : (opened.2 ++ [Effect.pread, Effect.close]).filter is_unlink = [] := by
          simp [List.filter_append, hloop, is_unlink, List.filter_cons]
        refine ⟨fun hc => (by cases hc), fun _ => ⟨?_, ?_⟩⟩
        · constructor
          · intro hin; exact absurd hin (hmem hf)
          · rintro ⟨_, h2, _⟩; rw [hp] at h2; cases h2
        · simp [hf, hp]
      · rename_i hp
        have hp1 : os.pread_ok = true := by simpa using hp
        split at h
        · rename_i ha
          cases h
          have hf : (opened.2 ++ [Effect.pread, Effect.close]).filter is_unlink = [] := by
            simp [List.filter_append, hloop, is_unlink, List.filter_cons]
          refine ⟨fun hc => (by cases hc), fun _ => ⟨?_, ?_⟩⟩
          · constructor
            · intro hin; exact absurd hin (hmem hf)
            · rintro ⟨_, _, h3⟩; exact absurd ha h3
          · simp [hf, ha]
        · rename_i ha
          have hall : opened.1 = true ∧ os.pread_ok = true ∧ info.allocated_size ≠ 0 :=
            ⟨ho1, hp1, ha⟩
          have hfail : ∀ (l : List Effect), Effect.shm_unlink key ∈ l →
              (Effect.shm_unlink key ∈ l ↔
                (opened.1 = true ∧ os.pread_ok = true ∧ info.allocated_size ≠ 0)) ∧
              (l.filter is_unlink = [] ↔
                ¬ (opened.1 = true ∧ os.pread_ok = true ∧ info.allocated_size ≠ 0)) := by
            intro l hl
            refine ⟨⟨fun _ => hall, fun _ => hl⟩, ⟨fun hnil => absurd hl (hmem hnil),
              fun hn => absurd hall hn⟩⟩
          split at h
          · cases h
            exact ⟨fun hc => (by cases hc), fun _ => hfail _ (by simp)⟩
          · split at h
            · cases h
              exact ⟨fun hc => (by cases hc), fun _ => hfail _ (by simp)⟩
            · split at h
              · cases h
                exact ⟨fun hc => (by cases hc), fun _ => hfail _ (by simp)⟩
              · split at h
                · cases h
                · cases h
                  exact ⟨fun hc => (by cases hc), fun _ => hfail _ (by simp)⟩
                · rename_i seg calls hc
                  cases h
                  have hcf := get_shared_control_buffer_unlinks hc
                  simp only [Option.isSome_some, true_or, if_true] at hcf
                  refine ⟨fun _ => ?_, fun hc2 => (by cases hc2)⟩
                  simp [List.filter_append, hloop, hcf, is_unlink, List.filter_cons]
  · unfold reader_get_aux_buffer_calls
    have hmiss : ∀ (size : Option Nat),
        (reader_get_aux_buffer_miss_calls os_aux idx size).filter is_unlink = [] ∨
        ∃ sz, reader_get_aux_buffer_miss_calls os_aux idx size
          = [Effect.shm_open (aux_key idx), Effect.read, Effect.mmap (reader_mmap_length sz),
              Effect.close, Effect.shm_unlink (aux_key idx), Effect.abort] := by
      intro size
      unfold reader_get_aux_buffer_miss_calls
      cases size with
      | none => left; simp [is_unlink, List.filter_cons]
      | some sz =>
        simp only []
        split
        · left; simp [is_unlink, List.filter_cons]
        · split
          · left; simp [is_unlink, List.filter_cons]
          · split
            · right; exact ⟨sz, rfl⟩
            · left; simp [is_unlink, List.filter_cons]
    have hm2 : ∀ (l : List Effect),
        (l = [] ∨ ∃ size, l = reader_get_aux_buffer_miss_calls os_aux idx size) →
        l.filter is_unlink = [] ∨
        ∃ sz, l = [Effect.shm_open (aux_key idx), Effect.read,
          Effect.mmap (reader_mmap_length sz), Effect.close, Effect.shm_unlink (aux_key idx),
          Effect.abort] := by
      intro l hl
      rcases hl with rfl | ⟨size, rfl⟩
      · left; rfl
      · exact hmiss size
    simp only []
    have hscan : ∀ (o : Option Nat) (size : Option Nat),
        ((match o with
          | some _ => []
          | none => reader_get_aux_buffer_miss_calls os_aux idx size) = [] ∨
        ∃ size2, (match o with
          | some _ => []
          | none => reader_get_aux_buffer_miss_calls os_aux idx size)
            = reader_get_aux_buffer_miss_calls os_aux idx size2) := by
      intro o size
      cases o with
      | none => right; exact ⟨size, rfl⟩
      | some q => left; rfl
    split
    · exact hm2 _ (hscan _ _)
    · split
      · left; rfl
      · split
        · left; rfl
        · exact hm2 _ (hscan _ _)



set_option maxRecDepth 100000 in
/-- A consumer attaches to the fresh buffer of the example with every call
succeeding: it opens and maps the main segment and the control segment and
makes no unlink. -/
theorem C14_consumer_unlinks_witness :
    [Effect.shm_open "/buf", Effect.pread, Effect.mmap 800,
      Effect.shm_open (example_map_ctrl_key "/buf"), Effect.pread, Effect.mmap 16].filter
        is_unlink = [] :=
  ((C14_consumer_unlinks example_map_ctrl_key 64 "/buf" example_control_segment example_reader
    get_calls_ok calls_ok calls_ok 10 (fresh_shared_buffer 320 16 4).shmbuffer.info
    example_control_segment 0).2.2.2.1 true
    [Effect.shm_open "/buf", Effect.pread, Effect.mmap 800,
      Effect.shm_open (example_map_ctrl_key "/buf"), Effect.pread, Effect.mmap 16] rfl).1 rfl

set_option maxRecDepth 100000 in
/-- Claim C14 is false as stated: a consumer whose `mmap` of the main segment
fails unlinks the main name; `release_shared_sub_buffer` unlinks the main name
and the control name; and `reader_get_aux_buffer` unlinks `/aux.0` when its
`mmap` fails. -/
theorem C14_counterexample :
    try_get_shared_buffer example_map_ctrl_key calls_mmap_fails calls_ok "/buf" 10
        (fresh_shared_buffer 320 16 4).shmbuffer.info example_control_segment
      = some (false, [Effect.shm_open "/buf", Effect.pread, Effect.mmap 800, Effect.close,
          Effect.shm_unlink "/buf"]) ∧
    release_shared_sub_buffer example_map_ctrl_key 64 "/buf" example_control_segment
        example_reader
      = some [Effect.munmap 800, Effect.close, Effect.munmap 128, Effect.vec_destroy,
          Effect.shm_unlink "/buf", Effect.munmap 16,
          Effect.shm_unlink (example_map_ctrl_key "/buf"), Effect.free, Effect.free] ∧
    reader_get_aux_buffer_calls { calls_ok with mmap_ok := false }
        (consumer_view example_pushed) 0
      = [Effect.shm_open (aux_key 0), Effect.read, Effect.mmap 104, Effect.close,
          Effect.shm_unlink (aux_key 0), Effect.abort] := by
  refine ⟨rfl, rfl, rfl⟩



/-! ## The lock of the registry and the size of the allocation (C25, C26) -/


theorem drop_ranges_lock_results_eq (l : Bool) :
    drop_ranges_lock_results l = if l = true then [false] else [true, false] := by
  cases l <;> simp [drop_ranges_lock_results, atomic_compare_exchange]

/-- Claim C25 (the code departs from it): the loop of `drop_ranges_lock` goes on
while the compare-exchange succeeds.  Entered with the lock bit already set it
makes one compare-exchange, which fails, and returns at once with the buffer
unchanged: the bit is still set and none of its own operations has set it.
Entered with the bit clear it sets the bit with its first compare-exchange and
returns after the second, which fails.  `drop_ranges_unlock` clears the bit. -/
theorem C25_drop_ranges_lock (buff : buffer) :
    (buff.shmbuffer.info.dropped_ranges_lock = true →
      drop_ranges_lock_results buff.shmbuffer.info.dropped_ranges_lock = [false] ∧
      drop_ranges_lock buff = buff) ∧
    (buff.shmbuffer.info.dropped_ranges_lock = false →
      drop_ranges_lock_results buff.shmbuffer.info.dropped_ranges_lock = [true, false]) ∧
    (drop_ranges_lock buff).shmbuffer.info.dropped_ranges_lock = true ∧
    (drop_ranges_unlock buff).shmbuffer.info.dropped_ranges_lock = false ∧
    (drop_ranges_unlock (drop_ranges_lock buff)).shmbuffer.info.dropped_ranges_lock = false := by
  refine ⟨?_, ?_, ?_, rfl, rfl⟩
  · intro h
    refine ⟨by rw [drop_ranges_lock_results_eq, h]; rfl, ?_⟩
    unfold drop_ranges_lock map_info
    simp only [drop_ranges_lock_loop_eq]
    rw [← h]
  · intro h
    rw [drop_ranges_lock_results_eq, h]; rfl
  · unfold drop_ranges_lock map_info
    simp only [drop_ranges_lock_loop_eq]

/-- A buffer whose lock bit is held by the other party. -/
theorem C25_drop_ranges_lock_witness :
    drop_ranges_lock_results
        (map_info (fresh_shared_buffer 320 16 4)
          (fun i => { i with dropped_ranges_lock := true })).shmbuffer.info.dropped_ranges_lock
      = [false] ∧
    drop_ranges_lock (map_info (fresh_shared_buffer 320 16 4)
        (fun i => { i with dropped_ranges_lock := true }))
      = map_info (fresh_shared_buffer 320 16 4)
        (fun i => { i with dropped_ranges_lock := true }) :=
  (C25_drop_ranges_lock (map_info (fresh_shared_buffer 320 16 4)
    (fun i => { i with dropped_ranges_lock := true }))).1 rfl

/-- The size that `initialize_local_buffer` and `initialize_shared_buffer` record. -/
theorem initialize_buffer_sizes (S E C : Nat) (b : buffer) :
    (initialize_shared_buffer S E C = some b →
      b.shmbuffer.info.allocated_size = compute_shm_size S E ((C + 1) % WORD) ∧
      (ringbuf_of b).capacity = (C + 1) % WORD ∧ b.shmbuffer.info.elem_size = E ∧
      b.shmbuffer.info.capacity = C) ∧
    (initialize_local_buffer S E C = some b →
      b.shmbuffer.info.allocated_size = compute_shm_size S E C ∧
      (ringbuf_of b).capacity = (C + 1) % WORD ∧ b.shmbuffer.info.elem_size = E ∧
      b.shmbuffer.info.capacity = C) := by
  constructor
  · intro h
    unfold initialize_shared_buffer at h
    split at h
    · cases h
    · split at h
      · cases h
      · cases h; exact ⟨rfl, rfl, rfl, rfl⟩
  · intro h
    unfold initialize_local_buffer at h
    split at h
    · cases h
    · cases h; exact ⟨rfl, rfl, rfl, rfl⟩

theorem compute_shm_size_eq {S E C : Nat} (hfit : E * C + S + PAGE_SIZE < 2 ^ 64) :
    compute_shm_size S E C = (E * C + S) + (E * C + S) % PAGE_SIZE := by
  have hW : WORD = 2 ^ 64 := rfl
  have hP : PAGE_SIZE = 4096 := rfl
  unfold compute_shm_size
  simp only []
  rw [Nat.mod_eq_of_lt (a := E * C + S) (by omega)]
  apply Nat.mod_eq_of_lt
  have := Nat.mod_lt (E * C + S) (show 0 < PAGE_SIZE by decide)
  omega

/-- Claim C26 (the code departs from it for `initialize_local_buffer`): for
`elem_size >= 1`, `capacity >= 1` and sizes that fit the word, both
initialisers return a buffer whose ring has `capacity + 1` slots.
`initialize_shared_buffer` records an allocated size of at least
`sizeof(struct shmbuffer) + (capacity + 1) * elem_size`.
`initialize_local_buffer` computes the size for `capacity` slots only: the size
it records is below that bound exactly when the remainder of
`elem_size * capacity + sizeof(struct shmbuffer)` modulo `PAGE_SIZE` is less than
`elem_size`, and then the slot area it allocated is shorter than `BUFF_END`. -/
theorem C26_allocation_covers_ring (S E C : Nat) (hE : 1 ≤ E) (hC : 1 ≤ C)
    (hfit : E * (C + 1) + S + PAGE_SIZE < 2 ^ 64) :
    (∃ b, initialize_shared_buffer S E C = some b ∧ (ringbuf_of b).capacity = C + 1 ∧
      S + (C + 1) * E ≤ b.shmbuffer.info.allocated_size) ∧
    (∃ b, initialize_local_buffer S E C = some b ∧ (ringbuf_of b).capacity = C + 1 ∧
      b.shmbuffer.info.allocated_size = (E * C + S) + (E * C + S) % PAGE_SIZE ∧
      (b.shmbuffer.info.allocated_size < S + (C + 1) * E ↔ (E * C + S) % PAGE_SIZE < E) ∧
      ((E * C + S) % PAGE_SIZE < E → b.shmbuffer.data.length < BUFF_END b.shmbuffer)) := by
  have hW : WORD = 2 ^ 64 := rfl
  have hP : PAGE_SIZE = 4096 := rfl
  have hmul : E * (C + 1) = E * C + E := by ring
  have hmul2 : (C + 1) * E = E * C + E := by ring
  have hC1 : (C + 1) % WORD = C + 1 := by
    apply Nat.mod_eq_of_lt
    have : C + 1 ≤ E * (C + 1) := Nat.le_mul_of_pos_left _ hE
    omega
  constructor
  · refine ⟨fresh_shared_buffer S E C, ?_, ?_, ?_⟩
    · unfold initialize_shared_buffer
      rw [if_neg (by omega), if_neg (by omega)]
    · show (shm_spsc_ringbuf_init ((C + 1) % WORD)).capacity = C + 1
      rw [hC1]; rfl
    · show S + (C + 1) * E ≤ compute_shm_size S E ((C + 1) % WORD)
      rw [hC1, compute_shm_size_eq hfit]
      omega
  · have hfit2 : E * C + S + PAGE_SIZE < 2 ^ 64 := by omega
    have halloc : (fresh_local_buffer S E C).shmbuffer.info.allocated_size
        = (E * C + S) + (E * C + S) % PAGE_SIZE := by
      show compute_shm_size S E C = _
      exact compute_shm_size_eq hfit2
    refine ⟨fresh_local_buffer S E C, ?_, ?_, halloc, ?_, ?_⟩
    · unfold initialize_local_buffer
      rw [if_neg (by omega)]
    · show (shm_spsc_ringbuf_init ((C + 1) % WORD)).capacity = C + 1
      rw [hC1]; rfl
    · rw [halloc]; omega
    · intro hlt
      have hlen : (fresh_local_buffer S E C).shmbuffer.data.length
          = compute_shm_size S E C - S := by
        show (List.replicate (compute_shm_size S E C - S) 0).length = _
        rw [List.length_replicate]
      have hend : BUFF_END (fresh_local_buffer S E C).shmbuffer = E * C + E := by
        show (E * ((C + 1) % WORD)) % WORD = _
        rw [hC1, hmul]
        exact Nat.mod_eq_of_lt (by omega)
      rw [hlen, hend, compute_shm_size_eq hfit2]
      omega

/-- Elements of 3776 bytes and a capacity of 1 behind a header of 320 bytes: the
local buffer records 4096 bytes for two slots that need 7872. -/
theorem C26_allocation_covers_ring_witness :
    (∃ b, initialize_shared_buffer 320 3776 1 = some b ∧ (ringbuf_of b).capacity = 1 + 1 ∧
      320 + (1 + 1) * 3776 ≤ b.shmbuffer.info.allocated_size) ∧
    (∃ b, initialize_local_buffer 320 3776 1 = some b ∧ (ringbuf_of b).capacity = 1 + 1 ∧
      b.shmbuffer.info.allocated_size = (3776 * 1 + 320) + (3776 * 1 + 320) % PAGE_SIZE ∧
      (b.shmbuffer.info.allocated_size < 320 + (1 + 1) * 3776 ↔
        (3776 * 1 + 320) % PAGE_SIZE < 3776) ∧
      ((3776 * 1 + 320) % PAGE_SIZE < 3776 →
        b.shmbuffer.data.length < BUFF_END b.shmbuffer)) :=
  C26_allocation_covers_ring 320 3776 1 (by decide) (by decide) (by decide)


/-! ## Keys of sub-buffers (C21) -/


theorem decimal_value_append (ds : List Nat) (d : Nat) :
    decimal_value (ds ++ [d]) = 10 * decimal_value ds + (d - 48) := by
  unfold decimal_value
  rw [List.foldl_append]
  rfl

/-- The digits denote the number. -/
theorem decimal_value_digits : ∀ (fuel n : Nat), n < 10 ^ fuel →
    decimal_value (decimal_digits fuel n) = n := by
  intro fuel
  induction fuel with
  | zero =>
    intro n h
    have : n = 0 := by simpa using h
    subst this
    rfl
  | succ fuel ih =>
    intro n h
    rw [decimal_digits]
    split
    · simp [decimal_value]
    · rw [decimal_value_append, ih (n / 10) (by
        rw [Nat.pow_succ] at h
        exact Nat.div_lt_of_lt_mul (by omega))]
      omega

/-- A number below `10^k` has at most `k` digits. -/
theorem decimal_digits_length_le : ∀ (fuel n k : Nat), 1 ≤ k → n < 10 ^ k →
    (decimal_digits fuel n).length ≤ k := by
  intro fuel
  induction fuel with
  | zero => intro n k _ _; simp [decimal_digits]
  | succ fuel ih =>
    intro n k hk h
    rw [decimal_digits]
    split
    · simpa using hk
    · rename_i h10
      rw [List.length_append, List.length_singleton]
      obtain ⟨k1, rfl⟩ : ∃ k1, k = k1 + 1 := ⟨k - 1, by omega⟩
      have hk1 : 1 ≤ k1 := by
        by_contra hc
        have : k1 = 0 := by omega
        subst this
        simp at h
        omega
      have := ih (n / 10) k1 hk1 (by
        rw [Nat.pow_succ] at h
        exact Nat.div_lt_of_lt_mul (by omega))
      omega

/-- A number of at least `10^k` has more than `k` digits. -/
theorem decimal_digits_length_gt : ∀ (fuel n k : Nat), n < 10 ^ fuel → 10 ^ k ≤ n →
    k + 1 ≤ (decimal_digits fuel n).length := by
  intro fuel
  induction fuel with
  | zero =>
    intro n k h1 h2
    have : 0 < 10 ^ k := Nat.pow_pos (by decide)
    simp at h1
    omega
  | succ fuel ih =>
    intro n k h1 h2
    rw [decimal_digits]
    split
    · rename_i h10
      cases k with
      | zero => simp
      | succ k1 =>
        have : 10 ≤ 10 ^ (k1 + 1) := by
          rw [Nat.pow_succ]
          have : 0 < 10 ^ k1 := Nat.pow_pos (by decide)
          omega
        omega
    · rename_i h10
      rw [List.length_append, List.length_singleton]
      cases k with
      | zero => omega
      | succ k1 =>
        have := ih (n / 10) k1 (by
          rw [Nat.pow_succ] at h1
          exact Nat.div_lt_of_lt_mul (by omega)) (by
          rw [Nat.pow_succ] at h2
          exact (Nat.le_div_iff_mul_le (by decide)).2 h2)
        omega

theorem printf_lu_injective {i j : Nat} (hi : i < 2 ^ 64) (hj : j < 2 ^ 64)
    (h : printf_lu i = printf_lu j) : i = j := by
  unfold printf_lu WORD at h
  rw [Nat.mod_eq_of_lt hi, Nat.mod_eq_of_lt hj] at h
  have h1 := decimal_value_digits 20 i (by omega)
  have h2 := decimal_value_digits 20 j (by omega)
  rw [← h1, ← h2, h]

/-- What `get_sub_buffer_key` returns when it returns. -/
theorem get_sub_buffer_key_some {key k : List Nat} {idx : Nat}
    (h : get_sub_buffer_key key idx = some k) : k = key ++ dot_sub_dot ++ printf_lu idx := by
  unfold get_sub_buffer_key at h
  simp only [] at h
  split at h
  · cases h
  · split at h
    · cases h
    · cases h; rfl

/-- Claim C21 (amended): for a key shorter than 2 GiB and an index of 64 bits,
`get_sub_buffer_key` returns the key followed by `".sub."` and the decimal
digits of the index when the index is below `10^10`, and aborts when the index
is `10^10` or more, because the 16 extra bytes then are too few.  The digits
denote the index, and two indices for which it returns the same key are
equal. -/
theorem C21_sub_buffer_key (key : List Nat) (idx : Nat) (hkey : key.length + 16 < 2 ^ 31)
    (hidx : idx < 2 ^ 64) :
    (idx < 10 ^ 10 →
      get_sub_buffer_key key idx = some (key ++ dot_sub_dot ++ printf_lu idx)) ∧
    (10 ^ 10 ≤ idx → get_sub_buffer_key key idx = none) ∧
    decimal_value (printf_lu idx) = idx ∧
    (∀ (j : Nat) (k : List Nat), j < 2 ^ 64 → get_sub_buffer_key key idx = some k →
      get_sub_buffer_key key j = some k → idx = j) := by
  have hW : WORD = 2 ^ 64 := rfl
  have hmod : (key.length + 16) % WORD = key.length + 16 := Nat.mod_eq_of_lt (by omega)
  have hpl : printf_lu idx = decimal_digits 20 idx := by
    unfold printf_lu
    rw [hW, Nat.mod_eq_of_lt hidx]
  have hlen : (key ++ dot_sub_dot ++ printf_lu idx).length
      = key.length + 5 + (decimal_digits 20 idx).length := by
    rw [hpl, List.length_append, List.length_append]
    rfl
  refine ⟨?_, ?_, ?_, ?_⟩
  · intro hsmall
    have := decimal_digits_length_le 20 idx 10 (by decide) hsmall
    unfold get_sub_buffer_key
    simp only [hmod, hlen]
    rw [if_neg (by omega), if_neg (by omega)]
  · intro hbig
    have := decimal_digits_length_gt 20 idx 10 (by omega) hbig
    unfold get_sub_buffer_key
    simp only [hmod, hlen]
    rw [if_neg (by omega), if_pos (by omega)]
  · rw [hpl]
    exact decimal_value_digits 20 idx (by omega)
  · intro j k hj h1 h2
    have e1 := get_sub_buffer_key_some h1
    have e2 := get_sub_buffer_key_some h2
    rw [e1] at e2
    exact printf_lu_injective hidx hj (List.append_cancel_left e2)

/-- The key `/buf`, of which the producer makes the seventh sub-buffer. -/
theorem C21_sub_buffer_key_witness :
    get_sub_buffer_key [47, 98, 117, 102] 7
      = some ([47, 98, 117, 102] ++ dot_sub_dot ++ printf_lu 7) :=
  (C21_sub_buffer_key [47, 98, 117, 102] 7 (by decide) (by decide)).1 (by decide)

/-- Claim C21 is false as stated: for the index `10^10`, which has eleven
digits, `get_sub_buffer_key` aborts; for the index 42 it returns
`/buf.sub.42`. -/
theorem C21_counterexample :
    get_sub_buffer_key [47, 98, 117, 102] (10 ^ 10) = none ∧
    get_sub_buffer_key [47, 98, 117, 102] 42
      = some [47, 98, 117, 102, 46, 115, 117, 98, 46, 52, 50] := by
  constructor
  · rfl
  · rfl


/-! ## Registration of all events (C22) -/


/-- The loop of `buffer_register_all_events` sets the kind of the records from
`i` to `i + n - 1` and leaves everything else. -/
theorem register_all_loop_spec (L : Nat) :
    ∀ (n i : Nat) (recs : List event_record), i + n ≤ recs.length →
      ∃ out, register_all_loop L n i recs = some out ∧ out.length = recs.length ∧
        ∀ (j : Nat), out[j]? = (recs[j]?).map (fun r =>
          if i ≤ j ∧ j < i + n then { r with kind := (1 + j + L) % WORD } else r) := by
  intro n
  induction n with
  | zero =>
    intro i recs _
    refine ⟨recs, rfl, rfl, ?_⟩
    intro j
    cases recs[j]? with
    | none => rfl
    | some r =>
      simp only [Option.map_some', Option.some.injEq]
      rw [if_neg (by omega)]
  | succ n ih =>
    intro i recs h
    have hi : i < recs.length := by omega
    rw [register_all_loop, List.getElem?_eq_getElem hi]
    simp only []
    obtain ⟨out, h1, h2, h3⟩ := ih (i + 1)
      (recs.set i { recs[i] with kind := (1 + i + L) % WORD })
      (by rw [List.length_set]; omega)
    refine ⟨out, h1, by rw [h2, List.length_set], ?_⟩
    intro j
    rw [h3 j]
    by_cases hji : i = j
    · subst hji
      rw [List.getElem?_set, if_pos rfl, if_pos hi, List.getElem?_eq_getElem hi]
      simp only [Option.map_some', Option.some.injEq]
      rw [if_neg (by omega), if_pos (by omega)]
    · rw [List.getElem?_set_ne hji]
      cases recs[j]? with
      | none => rfl
      | some r =>
        simp only [Option.map_some', Option.some.injEq]
        by_cases hc : i + 1 ≤ j ∧ j < i + 1 + n
        · rw [if_pos hc, if_pos (by omega)]
        · rw [if_neg hc, if_neg (by omega)]

/-- C22: with `ev_nums` records in the control segment and kinds that fit 64
bits, `buffer_register_all_events` returns and leaves record `i`, for every
`i < ev_nums`, with `kind = 1 + i + last_special_kind` and with its name, size
and signature as they were; the kinds it assigns are greater than
`last_special_kind` and pairwise distinct, nothing beyond the records is
touched, and a second run leaves the records as the first left them. -/
theorem C22_register_all_events (L n : Nat) (recs : List event_record) (hn : n ≤ recs.length)
    (hfit : n + L < 2 ^ 64) :
    ∃ out, buffer_register_all_events L n recs = some out ∧ out.length = recs.length ∧
      (∀ (i : Nat), i < n → ∃ r r1, recs[i]? = some r ∧ out[i]? = some r1 ∧
        r1.kind = 1 + i + L ∧ L < r1.kind ∧ r1.name = r.name ∧ r1.size = r.size ∧
        r1.signature = r.signature) ∧
      (∀ (i j : Nat) (r1 r2 : event_record), i < n → j < n → out[i]? = some r1 →
        out[j]? = some r2 → i ≠ j → r1.kind ≠ r2.kind) ∧
      (∀ (i : Nat), n ≤ i → out[i]? = recs[i]?) ∧
      buffer_register_all_events L n out = some out := by
  have hW : WORD = 2 ^ 64 := rfl
  obtain ⟨out, h1, h2, h3⟩ := register_all_loop_spec L n 0 recs (by omega)
  have hkind : ∀ (i : Nat) (r1 : event_record), i < n → out[i]? = some r1 →
      ∃ r, recs[i]? = some r ∧ r1 = { r with kind := 1 + i + L } := by
    intro i r1 hi ho
    rw [h3 i, List.getElem?_eq_getElem (by omega)] at ho
    simp only [Option.map_some', Option.some.injEq] at ho
    rw [if_pos (by omega), Nat.mod_eq_of_lt (by omega)] at ho
    exact ⟨recs[i], List.getElem?_eq_getElem (by omega), ho.symm⟩
  refine ⟨out, h1, h2, ?_, ?_, ?_, ?_⟩
  · intro i hi
    have ho : out[i]? = some out[i] := List.getElem?_eq_getElem (by omega)
    obtain ⟨r, hr, e⟩ := hkind i _ hi ho
    refine ⟨r, out[i], hr, ho, ?_, ?_, ?_, ?_, ?_⟩ <;> rw [e]
    show L < 1 + i + L
    omega
  · intro i j r1 r2 hi hj ho1 ho2 hij
    obtain ⟨_, _, e1⟩ := hkind i r1 hi ho1
    obtain ⟨_, _, e2⟩ := hkind j r2 hj ho2
    rw [e1, e2]
    show 1 + i + L ≠ 1 + j + L
    omega
  · intro i hi
    rw [h3 i]
    cases recs[i]? with
    | none => rfl
    | some r =>
      simp only [Option.map_some', Option.some.injEq]
      rw [if_neg (by omega)]
  · obtain ⟨out2, k1, k2, k3⟩ := register_all_loop_spec L n 0 out (by omega)
    have : out2 = out := by
      apply List.ext_getElem?
      intro j
      rw [k3 j, h3 j]
      cases recs[j]? with
      | none => rfl
      | some r =>
        simp only [Option.map_some', Option.some.injEq]
        split <;> rfl
    unfold buffer_register_all_events
    rw [k1, this]

/-- Two records and three special kinds: the records get the kinds 4 and 5. -/
theorem C22_register_all_events_witness :
    ∃ out, buffer_register_all_events 3 2 example_records = some out ∧
      out.length = (example_records).length ∧
      (∀ (i : Nat), i < 2 → ∃ r r1, example_records[i]? = some r ∧ out[i]? = some r1 ∧
        r1.kind = 1 + i + 3 ∧ 3 < r1.kind ∧ r1.name = r.name ∧ r1.size = r.size ∧
        r1.signature = r.signature) ∧
      (∀ (i j : Nat) (r1 r2 : event_record), i < 2 → j < 2 → out[i]? = some r1 →
        out[j]? = some r2 → i ≠ j → r1.kind ≠ r2.kind) ∧
      (∀ (i : Nat), 2 ≤ i → out[i]? = example_records[i]?) ∧
      buffer_register_all_events 3 2 out = some out :=
  C22_register_all_events 3 2 example_records (by decide) (by decide)


/-! ## Histories of the dropped-range registry (C24) -/


theorem run_append (pg : Nat) (ops1 ops2 : List Op) :
    ∀ (b : buffer), run pg b (ops1 ++ ops2) = (run pg b ops1).bind (fun b1 => run pg b1 ops2) := by
  induction ops1 with
  | nil => intro b; rfl
  | cons op ops ih =>
    intro b
    simp only [List.cons_append, run]
    cases step pg b op with
    | none => rfl
    | some b1 => exact ih b1

/-- One more call on a registry with a known history: the new range begins
elsewhere than the last one, so the cursor advances and the range is written
there. -/
theorem notify_step {b : buffer} {rs : List dropped_range} (h : RegHist b rs)
    (hv : ∀ r ∈ rs, 1 ≤ r.begin_id ∧ r.begin_id ≤ r.end_id ∧ r.end_id < WORD)
    (r : dropped_range) (hr : 1 ≤ r.begin_id)
    (hne : ∀ a, rs[rs.length - 1]? = some a → a.begin_id ≠ r.begin_id) :
    ∃ b1, buffer_notify_dropped b r.begin_id r.end_id = some b1 ∧ RegHist b1 (rs ++ [r]) ∧
      b1.shmbuffer.info.dropped_ranges_next
        = (b.shmbuffer.info.dropped_ranges_next + 1) % DROPPED_RANGES_NUM ∧
      b1.shmbuffer.info.dropped_ranges[b1.shmbuffer.info.dropped_ranges_next]? = some r ∧
      ∀ (j : Nat), j ≠ b1.shmbuffer.info.dropped_ranges_next →
        b1.shmbuffer.info.dropped_ranges[j]? = b.shmbuffer.info.dropped_ranges[j]? := by
  have hD : DROPPED_RANGES_NUM = 5 := rfl
  have hW : WORD = 2 ^ 64 := rfl
  have hlen := h.len
  have hnext := h.next
  rw [hD] at hlen hnext
  -- the slot at the cursor
  obtain ⟨c, hc, hcb, hce⟩ : ∃ c, b.shmbuffer.info.dropped_ranges[b.shmbuffer.info.dropped_ranges_next]?
      = some c ∧ c.begin_id ≠ r.begin_id ∧ c.end_id ≠ (c.begin_id + WORD - 1) % WORD := by
    by_cases hn : rs.length = 0
    · have := h.empty 0 (by rw [hD]; omega) (fun k h1 h2 _ => by omega)
      refine ⟨{ begin_id := 0, end_id := 0 }, by rw [hnext, hn]; exact this, ?_, ?_⟩
      · simp only []
        omega
      · simp only [hW]
        norm_num
    · have hk := h.recent rs.length (by omega) (Nat.le_refl _) (by rw [hD]; omega)
      rw [hD] at hk
      obtain ⟨a, hlast⟩ : ∃ a, rs[rs.length - 1]? = some a :=
        ⟨_, List.getElem?_eq_getElem (by omega)⟩
      obtain ⟨v1, v2, v3⟩ := hv a (List.getElem?_mem hlast)
      refine ⟨a, by rw [hnext, hk, hlast], hne a hlast, ?_⟩
      have hpred : (a.begin_id + WORD - 1) % WORD = a.begin_id - 1 := by
        have e : a.begin_id + WORD - 1 = (a.begin_id - 1) + WORD := by omega
        rw [e, Nat.add_mod_right]
        exact Nat.mod_eq_of_lt (by omega)
      rw [hpred]
      omega
  have hidx : (if b.shmbuffer.info.dropped_ranges_next + 1 = DROPPED_RANGES_NUM then 0
      else b.shmbuffer.info.dropped_ranges_next + 1) = (rs.length + 1) % 5 := by
    rw [hD, hnext]
    split <;> omega
  rw [buffer_notify_dropped_eq, hc]
  simp only []
  rw [if_neg (by rintro (h1 | h1); exact hcb h1; exact hce h1), hidx,
    if_pos (by rw [hlen]; omega)]
  refine ⟨_, rfl, ?_, ?_, ?_, ?_⟩
  · refine ⟨?_, ?_, ?_, ?_⟩
    · show (b.shmbuffer.info.dropped_ranges.set _ _).length = DROPPED_RANGES_NUM
      rw [List.length_set]; exact h.len
    · show (rs.length + 1) % 5 = (rs ++ [r]).length % DROPPED_RANGES_NUM
      rw [List.length_append]; rfl
    · intro k h1 h2 h3
      rw [List.length_append, List.length_singleton] at h2 h3
      rw [hD] at h3
      show (b.shmbuffer.info.dropped_ranges.set _ _)[k % DROPPED_RANGES_NUM]? = _
      rw [hD]
      by_cases hk : k = rs.length + 1
      · subst hk
        rw [List.getElem?_set, if_pos rfl, if_pos (by rw [hlen]; omega)]
        rw [List.getElem?_append_right (by omega)]
        simp
      · rw [List.getElem?_set_ne (by omega), List.getElem?_append_left (by omega)]
        have := h.recent k h1 (by omega) (by rw [hD]; omega)
        rw [hD] at this
        exact this
    · intro j hj hno
      rw [List.length_append, List.length_singleton] at hno
      rw [hD] at hj hno
      show (b.shmbuffer.info.dropped_ranges.set _ _)[j]? = _
      have hj1 : (rs.length + 1) % 5 ≠ j := hno (rs.length + 1) (by omega) (Nat.le_refl _) (by omega)
      rw [List.getElem?_set_ne hj1]
      apply h.empty j (by rw [hD]; exact hj)
      intro k h1 h2 h3
      rw [hD] at h3 ⊢
      by_cases hk : k + 4 = rs.length
      · omega
      · exact hno k h1 (by omega) (by omega)
  · show (rs.length + 1) % 5 = (b.shmbuffer.info.dropped_ranges_next + 1) % DROPPED_RANGES_NUM
    rw [hD, hnext]; omega
  · show (b.shmbuffer.info.dropped_ranges.set _ _)[(rs.length + 1) % 5]? = some r
    rw [List.getElem?_set, if_pos rfl, if_pos (by rw [hlen]; omega)]
  · intro j hj
    show (b.shmbuffer.info.dropped_ranges.set _ _)[j]? = _
    exact List.getElem?_set_ne (fun e => hj e.symm)

theorem regHist_fresh (S E C : Nat) : RegHist (fresh_shared_buffer S E C) [] := by
  refine ⟨rfl, rfl, ?_, ?_⟩
  · intro k h1 h2 _
    simp at h2
    omega
  · intro j hj _
    show (List.replicate DROPPED_RANGES_NUM _)[j]? = _
    rw [List.getElem?_replicate, if_pos hj]

theorem fresh_ranges_append {rs : List dropped_range} {r : dropped_range}
    (h : fresh_ranges (rs ++ [r])) :
    fresh_ranges rs ∧ (1 ≤ r.begin_id ∧ r.begin_id ≤ r.end_id ∧ r.end_id < WORD) ∧
      ∀ a, rs[rs.length - 1]? = some a → a.begin_id ≠ r.begin_id := by
  obtain ⟨h1, h2⟩ := h
  refine ⟨⟨fun x hx => h1 x (List.mem_append_left _ hx), ?_⟩,
    h1 r (List.mem_append_right _ (List.mem_singleton_self r)), ?_⟩
  · intro i a b ha hb
    have hi : i + 1 < rs.length := (List.getElem?_eq_some_iff.1 hb).1
    exact h2 i a b (by rw [List.getElem?_append_left (by omega)]; exact ha)
      (by rw [List.getElem?_append_left hi]; exact hb)
  · intro a ha
    have hi : rs.length - 1 < rs.length := (List.getElem?_eq_some_iff.1 ha).1
    refine h2 (rs.length - 1) a r (by rw [List.getElem?_append_left hi]; exact ha) ?_
    rw [List.getElem?_append_right (by omega)]
    have : rs.length - 1 + 1 - rs.length = 0 := by omega
    rw [this]
    rfl

/-- The registry after a whole history. -/
theorem notify_history (pg : Nat) (b0 : buffer) (h0 : RegHist b0 []) :
    ∀ (rs : List dropped_range), fresh_ranges rs →
      ∃ b, run pg b0 (notify_ops rs) = some b ∧ RegHist b rs := by
  intro rs
  induction rs using List.reverseRecOn with
  | nil => intro _; exact ⟨b0, rfl, h0⟩
  | append_singleton rs r ih =>
    intro h
    obtain ⟨hrs, hr, hne⟩ := fresh_ranges_append h
    obtain ⟨b, hrun, hH⟩ := ih hrs
    obtain ⟨b1, hn, hH1, _⟩ := notify_step hH hrs.1 r hr.1 hne
    refine ⟨b1, ?_, hH1⟩
    unfold notify_ops
    rw [List.map_append, run_append]
    unfold notify_ops at hrun
    rw [hrun]
    show run pg b [Op.notify_dropped r.begin_id r.end_id] = some b1
    simp only [run, step, hn]

/-- The non-empty slots of a registry with a known history are the last five
ranges of the history. -/
theorem regHist_slots {b : buffer} {rs : List dropped_range} (h : RegHist b rs)
    (hv : ∀ r ∈ rs, 1 ≤ r.begin_id ∧ r.begin_id ≤ r.end_id ∧ r.end_id < WORD)
    (r : dropped_range) :
    (r ∈ b.shmbuffer.info.dropped_ranges ∧ r.end_id ≠ 0) ↔
      r ∈ rs.drop (rs.length - DROPPED_RANGES_NUM) := by
  have hD : DROPPED_RANGES_NUM = 5 := rfl
  have hlen := h.len
  rw [hD] at hlen ⊢
  constructor
  · rintro ⟨hmem, hne⟩
    obtain ⟨j, hj⟩ := List.mem_iff_getElem?.1 hmem
    have hj5 : j < 5 := by
      have := (List.getElem?_eq_some_iff.1 hj).1
      omega
    by_cases hex : ∃ k, 1 ≤ k ∧ k ≤ rs.length ∧ rs.length < k + 5 ∧ k % 5 = j
    · obtain ⟨k, k1, k2, k3, k4⟩ := hex
      have := h.recent k k1 k2 (by rw [hD]; exact k3)
      rw [hD, k4, hj] at this
      apply List.mem_iff_getElem?.2
      refine ⟨k - 1 - (rs.length - 5), ?_⟩
      rw [List.getElem?_drop]
      have e : rs.length - 5 + (k - 1 - (rs.length - 5)) = k - 1 := by omega
      rw [e]
      exact this.symm
    · have := h.empty j (by rw [hD]; exact hj5) (by
        intro k k1 k2 k3 k4
        rw [hD] at k3 k4
        exact hex ⟨k, k1, k2, k3, k4⟩)
      rw [hj] at this
      cases this
      exact absurd rfl hne
  · intro hmem
    obtain ⟨i, hi⟩ := List.mem_iff_getElem?.1 hmem
    rw [List.getElem?_drop] at hi
    have hlt : rs.length - 5 + i < rs.length := (List.getElem?_eq_some_iff.1 hi).1
    have := h.recent (rs.length - 5 + i + 1) (by omega) (by omega) (by rw [hD]; omega)
    rw [hD] at this
    have e : rs.length - 5 + i + 1 - 1 = rs.length - 5 + i := by omega
    rw [e, hi] at this
    obtain ⟨v1, v2, v3⟩ := hv r (List.getElem?_mem hi)
    exact ⟨List.getElem?_mem this, by omega⟩

/-- C24: starting from a freshly initialised buffer, let the ranges
`{b_i, e_i}` of a history of `buffer_notify_dropped` calls be non-empty ranges of
64-bit ids from 1 on with `b_i` different from `b_(i-1)`.  Then all the calls
return, the cursor is the number of calls modulo 5 (so it lies in 0..4 and
wraps to 0 after slot 4), the `k`-th range sits in slot `k % 5` for the last
five `k`, and the non-empty slots are exactly the last `min(n, 5)` ranges.  One
more such call returns, moves the cursor to the next slot, writes the new range
there and leaves every other slot as it was. -/
theorem C24_registry_five_most_recent (S E C pg : Nat) (b0 : buffer) (rs : List dropped_range)
    (hinit : initialize_shared_buffer S E C = some b0) (hrs : fresh_ranges rs) :
    ∃ b, run pg b0 (notify_ops rs) = some b ∧
      b.shmbuffer.info.dropped_ranges_next = rs.length % 5 ∧
      b.shmbuffer.info.dropped_ranges_next < 5 ∧
      b.shmbuffer.info.dropped_ranges.length = 5 ∧
      (∀ (k : Nat), 1 ≤ k → k ≤ rs.length → rs.length < k + 5 →
        b.shmbuffer.info.dropped_ranges[k % 5]? = rs[k - 1]?) ∧
      (∀ (r : dropped_range), (r ∈ b.shmbuffer.info.dropped_ranges ∧ r.end_id ≠ 0) ↔
        r ∈ rs.drop (rs.length - min rs.length 5)) ∧
      (∀ (r : dropped_range), fresh_ranges (rs ++ [r]) →
        ∃ b1, buffer_notify_dropped b r.begin_id r.end_id = some b1 ∧
          b1.shmbuffer.info.dropped_ranges_next
            = (b.shmbuffer.info.dropped_ranges_next + 1) % 5 ∧
          b1.shmbuffer.info.dropped_ranges[b1.shmbuffer.info.dropped_ranges_next]? = some r ∧
          ∀ (j : Nat), j ≠ b1.shmbuffer.info.dropped_ranges_next →
            b1.shmbuffer.info.dropped_ranges[j]? = b.shmbuffer.info.dropped_ranges[j]?) := by
  have hb0 : b0 = fresh_shared_buffer S E C := by
    unfold initialize_shared_buffer at hinit
    split at hinit
    · cases hinit
    · split at hinit
      · cases hinit
      · cases hinit; rfl
  obtain ⟨b, hrun, hH⟩ := notify_history pg b0 (by rw [hb0]; exact regHist_fresh S E C) rs hrs
  have hnext : b.shmbuffer.info.dropped_ranges_next = rs.length % 5 := hH.next
  refine ⟨b, hrun, hnext, by rw [hnext]; omega, hH.len, hH.recent, ?_, ?_⟩
  · intro r
    rw [regHist_slots hH hrs.1 r]
    have hD : DROPPED_RANGES_NUM = 5 := rfl
    have e : rs.length - min rs.length 5 = rs.length - 5 := by omega
    rw [hD, e]
  · intro r hr
    obtain ⟨_, hrv, hne⟩ := fresh_ranges_append hr
    obtain ⟨b1, hn, _, k1, k2, k3⟩ := notify_step hH hrs.1 r hrv.1 hne
    exact ⟨b1, hn, k1, k2, k3⟩

theorem fresh_ranges_of_chain : ∀ (rs : List dropped_range),
    (∀ r ∈ rs, 1 ≤ r.begin_id ∧ r.begin_id ≤ r.end_id ∧ r.end_id < WORD) →
    List.Chain' (fun a b => a.begin_id ≠ b.begin_id) rs → fresh_ranges rs := by
  intro rs hv hc
  refine ⟨hv, ?_⟩
  clear hv
  induction rs with
  | nil => intro i a b ha; simp at ha
  | cons x t ih =>
    intro i a b ha hb
    cases t with
    | nil => simp at hb
    | cons y t2 =>
      rw [List.chain'_cons] at hc
      cases i with
      | zero =>
        simp only [List.getElem?_cons_zero, List.getElem?_cons_succ, Option.some.injEq] at ha hb
        subst ha; subst hb
        exact hc.1
      | succ i =>
        rw [List.getElem?_cons_succ] at ha hb
        exact ih hc.2 i a b ha hb

set_option maxRecDepth 100000 in
/-- Six calls on a fresh buffer: the cursor is at slot 1, which holds the sixth
range, and the first range is forgotten. -/
theorem C24_registry_five_most_recent_witness :
    ∃ b, run 64 (fresh_shared_buffer 320 16 4) (notify_ops example_ranges) = some b ∧
      b.shmbuffer.info.dropped_ranges_next = (example_ranges).length % 5 ∧
      b.shmbuffer.info.dropped_ranges_next < 5 ∧
      b.shmbuffer.info.dropped_ranges.length = 5 ∧
      (∀ (k : Nat), 1 ≤ k → k ≤ (example_ranges).length → (example_ranges).length < k + 5 →
        b.shmbuffer.info.dropped_ranges[k % 5]? = example_ranges[k - 1]?) ∧
      (∀ (r : dropped_range), (r ∈ b.shmbuffer.info.dropped_ranges ∧ r.end_id ≠ 0) ↔
        r ∈ (example_ranges).drop ((example_ranges).length - min (example_ranges).length 5)) ∧
      (∀ (r : dropped_range), fresh_ranges (example_ranges ++ [r]) →
        ∃ b1, buffer_notify_dropped b r.begin_id r.end_id = some b1 ∧
          b1.shmbuffer.info.dropped_ranges_next
            = (b.shmbuffer.info.dropped_ranges_next + 1) % 5 ∧
          b1.shmbuffer.info.dropped_ranges[b1.shmbuffer.info.dropped_ranges_next]? = some r ∧
          ∀ (j : Nat), j ≠ b1.shmbuffer.info.dropped_ranges_next →
            b1.shmbuffer.info.dropped_ranges[j]? = b.shmbuffer.info.dropped_ranges[j]?) :=
  C24_registry_five_most_recent 320 16 4 64 (fresh_shared_buffer 320 16 4) example_ranges rfl
    (fresh_ranges_of_chain example_ranges (by decide) (by simp [example_ranges]))


/-! ## Invariants of the aux-buffer pool (C23, C27) -/


/-- What `_buffer_push_strn` does after `writer_get_aux_buffer` has returned. -/
theorem _buffer_push_strn_shape {pg size : Nat} {buff buff2 : buffer} {data : List Nat}
    {off : Nat} (h : _buffer_push_strn pg buff data size = some (buff2, off)) :
    ∃ b1 p ab bytes, writer_get_aux_buffer pg buff size = some (b1, p) ∧
      b1.cur_aux_buff = some p ∧ b1.aux_buffers_age.getLast? = b1.cur_aux_buff ∧
      b1.aux_shm[p]? = some ab ∧ off = ab.head ∧ ab.head < 2 ^ 32 ∧
      memcpy ab.data ab.head data size = some bytes ∧
      buff2 = { b1 with
        aux_shm := b1.aux_shm.set p { ab with data := bytes, head := (ab.head + size) % WORD } } := by
  unfold _buffer_push_strn at h
  split at h
  · cases h
  · rename_i b1 p hw
    split at h
    · cases h
    · rename_i hcur
      split at h
      · cases h
      · rename_i hlast
        split at h
        · cases h
        · rename_i ab hab
          simp only [] at h
          split at h
          · cases h
          · rename_i hoff
            split at h
            · cases h
            · rename_i bytes hc
              cases h
              exact ⟨b1, p, ab, bytes, hw, not_not.1 hcur, not_not.1 hlast, hab, rfl,
                not_not.1 hoff, hc, rfl⟩

/-- What `buffer_push_strn` does after `_buffer_push_strn` has returned. -/
theorem buffer_push_strn_shape {pg len evid : Nat} {buff buff3 : buffer} {str : List Nat}
    {hd : Nat} (h : buffer_push_strn pg buff evid str len = some (buff3, hd)) :
    ∃ b2 off p ab, _buffer_push_strn pg buff str len = some (b2, off) ∧
      b2.cur_aux_buff = some p ∧ b2.aux_shm[p]? = some ab ∧
      buff3 = { b2 with
        aux_shm := b2.aux_shm.set p
          { (if ab.first_event_id = 0 then { ab with first_event_id := evid } else ab) with
            last_event_id := evid } } := by
  unfold buffer_push_strn at h
  split at h
  · cases h
  · rename_i b2 off hp
    split at h
    · cases h
    · rename_i p hcur
      split at h
      · cases h
      · rename_i ab hab
        simp only [Option.some.injEq, Prod.mk.injEq] at h
        obtain ⟨rfl, _⟩ := h
        exact ⟨b2, off, p, ab, hp, hcur, hab, rfl⟩

/-- The calls that do not concern strings leave the pool of aux segments
alone. -/
theorem step_pool_frame {pg : Nat} {b b1 : buffer} {op : Op} (hs : step pg b op = some b1)
    (hop : ∀ evid str len, op ≠ Op.push_str evid str ∧ op ≠ Op.push_strn evid str len) :
    b1.aux_shm = b.aux_shm ∧ b1.cur_aux_buff = b.cur_aux_buff ∧
    b1.aux_buffers = b.aux_buffers ∧ b1.aux_buffers_age = b.aux_buffers_age := by
  cases op with
  | push elem size =>
    obtain ⟨⟨b2, ok⟩, h, he⟩ := Option.map_eq_some'.1 hs
    cases he
    unfold buffer_push at h
    split at h
    · cases h
    · split at h
      · cases h
      · split at h
        · cases h
        · cases h; exact ⟨rfl, rfl, rfl, rfl⟩
        · split at h
          · cases h
          · unfold buffer_finish_push at h
            split at h
            · cases h
            · rename_i hf
              split at hf
              · cases hf
              · cases hf; cases h; exact ⟨rfl, rfl, rfl, rfl⟩
  | pop =>
    obtain ⟨⟨b2, res⟩, h, he⟩ := Option.map_eq_some'.1 hs
    cases he
    unfold buffer_pop at h
    split at h
    · cases h
    · split at h
      · split at h
        · cases h
        · cases h; exact ⟨rfl, rfl, rfl, rfl⟩
      · cases h; exact ⟨rfl, rfl, rfl, rfl⟩
  | push_str evid str => exact absurd rfl (hop evid str 0).1
  | push_strn evid str len => exact absurd rfl (hop evid str len).2
  | notify_dropped bg en =>
    have hs2 : buffer_notify_dropped b bg en = some b1 := hs
    rw [buffer_notify_dropped_eq] at hs2
    split at hs2
    · cases hs2
    · simp only [] at hs2
      split at hs2
      · cases hs2; exact ⟨rfl, rfl, rfl, rfl⟩
      · split at hs2
        · split at hs2
          · cases hs2; exact ⟨rfl, rfl, rfl, rfl⟩
          · cases hs2
        · split at hs2
          · cases hs2; exact ⟨rfl, rfl, rfl, rfl⟩
          · cases hs2
  | set_last_processed_id id =>
    have hs2 : buffer_set_last_processed_id b id = some b1 := hs
    rw [buffer_set_last_processed_id_eq] at hs2
    split at hs2
    · cases hs2; exact ⟨rfl, rfl, rfl, rfl⟩
    · cases hs2

/-- The outcome of the reset test in one round of the loop of
`writer_get_aux_buffer`. -/
theorem reset_test_frame (ab : aux_buffer) (buff : buffer) :
    ∃ hit buffA,
      (if ab.last_event_id ≤ buff.shmbuffer.info.last_processed_id then (true, buff)
        else ab_was_dropped ab buff) = (hit, buffA) ∧
      buffA.aux_shm = buff.aux_shm ∧ buffA.cur_aux_buff = buff.cur_aux_buff ∧
      buffA.aux_buffers_age = buff.aux_buffers_age ∧ buffA.aux_buffers = buff.aux_buffers := by
  by_cases hl : ab.last_event_id ≤ buff.shmbuffer.info.last_processed_id
  · exact ⟨true, buff, by rw [if_pos hl], rfl, rfl, rfl, rfl⟩
  · obtain ⟨_, h2, h3, h4, h5, _⟩ := ab_was_dropped_spec ab buff
    exact ⟨_, _, by rw [if_neg hl], h2, h3, h4, h5⟩

/-- With every listed segment mapped and the current segment last in the age
list, the loop of `writer_get_aux_buffer` passes its assertion. -/
theorem writer_walk_total (size : Nat) (rest : List Nat) :
    ∀ (i : Nat) (buff : buffer), (∀ p ∈ rest, p < buff.aux_shm.length) →
      buff.aux_buffers_age.getLast? = buff.cur_aux_buff →
      ∃ r, writer_walk size i rest buff = some r := by
  induction rest with
  | nil => intro i buff _ _; exact ⟨_, rfl⟩
  | cons p rest ih =>
    intro i buff hv hlast
    have hp : p < buff.aux_shm.length := hv p (List.mem_cons_self _ _)
    obtain ⟨ab, hab⟩ : ∃ ab, buff.aux_shm[p]? = some ab := ⟨_, List.getElem?_eq_getElem hp⟩
    rw [writer_walk]
    simp only [hab]
    obtain ⟨hit, buffA, hAB, hauxA, hcurA, hageA, _⟩ := reset_test_frame ab buff
    rw [hAB]
    simp only []
    generalize (if hit = true then aux_reset ab else ab) = ab1
    by_cases hchosen : ab1.reusable = true ∧ ab1.size ≥ size
    · rw [if_pos hchosen, if_neg (by rw [hageA, hcurA]; exact not_not.2 hlast)]
      exact ⟨_, rfl⟩
    · rw [if_neg hchosen]
      apply ih
      · intro q hq
        show q < (buffA.aux_shm.set p _).length
        rw [List.length_set, hauxA]
        exact hv q (List.mem_cons_of_mem _ hq)
      · show buffA.aux_buffers_age.getLast? = buffA.cur_aux_buff
        rw [hageA, hcurA]; exact hlast

/-- The segment that the loop of `writer_get_aux_buffer` picks: it was flagged
reusable and large enough, its flag has been cleared, and it has been moved to
the end of the age list. -/
theorem writer_walk_chosen (P : aux_buffer → Prop) (hreset : ∀ ab, P ab → P (aux_reset ab))
    (size : Nat) (rest : List Nat) :
    ∀ (i : Nat) (buff buff1 : buffer) (res : Option Nat) (pre : List Nat),
      buff.aux_buffers_age = pre ++ rest → pre.length = i →
      (∀ (p : Nat) (ab : aux_buffer), buff.aux_shm[p]? = some ab → P ab) →
      writer_walk size i rest buff = some (buff1, res) →
      ∀ p, res = some p → p ∈ rest ∧
        buff1.aux_buffers_age.Perm buff.aux_buffers_age ∧
        ∃ ab1, P ab1 ∧ ab1.reusable = true ∧ size ≤ ab1.size ∧
          buff1.aux_shm[p]? = some { ab1 with reusable := false } := by
  induction rest with
  | nil =>
    intro i buff buff1 res pre _ _ _ h p hp
    simp only [writer_walk, Option.some.injEq, Prod.mk.injEq] at h
    rw [← h.2] at hp
    cases hp
  | cons q rest ih =>
    intro i buff buff1 res pre hage hpre hP h p hp
    rw [writer_walk] at h
    split at h
    · cases h
    · rename_i ab hab
      obtain ⟨hit, buffA, hAB, hauxA, hcurA, hageA, _⟩ := reset_test_frame ab buff
      rw [hAB] at h
      simp only [] at h
      have hqlt : q < buff.aux_shm.length := (List.getElem?_eq_some_iff.1 hab).1
      have hP1 : P (if hit = true then aux_reset ab else ab) := by
        split
        · exact hreset _ (hP q ab hab)
        · exact hP q ab hab
      generalize (if hit = true then aux_reset ab else ab) = ab1 at h hP1
      by_cases hchosen : ab1.reusable = true ∧ ab1.size ≥ size
      · rw [if_pos hchosen] at h
        split at h
        · cases h
        · simp only [Option.some.injEq, Prod.mk.injEq] at h
          obtain ⟨rfl, rfl⟩ := h
          cases hp
          refine ⟨List.mem_cons_self _ _, ?_, ab1, hP1, hchosen.1, hchosen.2, ?_⟩
          · show (buffA.aux_buffers_age.eraseIdx i ++ [q]).Perm buff.aux_buffers_age
            rw [hageA, hage, List.eraseIdx_append_of_length_le (by omega), hpre, Nat.sub_self]
            show (pre ++ rest ++ [q]).Perm (pre ++ q :: rest)
            rw [List.append_assoc]
            exact List.Perm.append_left pre (List.perm_append_singleton q rest)
          · show (buffA.aux_shm.set q _)[q]? = _
            rw [List.getElem?_set, if_pos rfl, if_pos (by rw [hauxA]; exact hqlt)]
      · rw [if_neg hchosen] at h
        obtain ⟨k1, k2, k3⟩ := ih (i + 1) _ buff1 res (pre ++ [q])
          (by show buffA.aux_buffers_age = _; rw [hageA, hage, List.append_assoc]; rfl)
          (by rw [List.length_append, hpre]; rfl)
          (by
            show ∀ (p : Nat) (ab : aux_buffer), (buffA.aux_shm.set q ab1)[p]? = some ab → P ab
            rw [hauxA]
            exact set_segs hP hP1) h p hp
        exact ⟨List.mem_cons_of_mem _ k1, by
          have : ({ buffA with aux_shm := buffA.aux_shm.set q ab1 } : buffer).aux_buffers_age
              = buff.aux_buffers_age := hageA
          rw [this] at k2
          exact k2, k3⟩

theorem seg_ok_reset (ab : aux_buffer) (h : seg_ok ab) : seg_ok (aux_reset ab) :=
  ⟨Nat.zero_le _, h.2.1, h.2.2.1, fun _ => rfl⟩

theorem seg_ok_clear (ab : aux_buffer) (h : seg_ok ab) : seg_ok { ab with reusable := false } :=
  ⟨h.1, h.2.1, h.2.2.1, fun hc => by cases hc⟩

/-- What `new_aux_buffer` does to the pool. -/
theorem new_aux_buffer_pool {pg size : Nat} {buff buff1 : buffer} {p : Nat}
    (h : new_aux_buffer pg buff size = some (buff1, p)) :
    p = buff.aux_shm.length ∧ buff1.cur_aux_buff = some p ∧
    buff1.aux_buffers_age = buff.aux_buffers_age ++ [p] ∧
    buff1.aux_buffers = buff.aux_buffers ++ [p] ∧
    ∃ ab, buff1.aux_shm = buff.aux_shm ++ [ab] ∧ ab.head = 0 ∧ ab.reusable = false ∧
      ab.first_event_id = 0 ∧ ab.generation = 0 ∧
      ab.size = (aux_segment_length pg size + WORD - sizeof_aux_buffer) % WORD ∧
      ab.data.length = aux_segment_length pg size - sizeof_aux_buffer := by
  unfold new_aux_buffer at h
  split at h
  · cases h
  · simp only [Option.some.injEq, Prod.mk.injEq] at h
    obtain ⟨rfl, rfl⟩ := h
    refine ⟨rfl, rfl, rfl, rfl, _, rfl, rfl, rfl, rfl, rfl, rfl, ?_⟩
    simp [aux_segment_length]

/-- The postcondition of `writer_get_aux_buffer`: on a well-formed pool and for a
fitting request it returns; the pool stays well-formed, and the segment returned
is the current one, is not flagged reusable and has room for the request. -/
theorem writer_get_aux_buffer_post {pg size : Nat} {buff : buffer} (hI : PoolInv buff)
    (hpg : 0 < pg) (hfit : fitting_request pg size) :
    ∃ b1 p ab, writer_get_aux_buffer pg buff size = some (b1, p) ∧ PoolInv b1 ∧
      b1.cur_aux_buff = some p ∧ b1.aux_buffers_age.getLast? = some p ∧
      b1.aux_shm[p]? = some ab ∧ ab.reusable = false ∧ ab.head + size ≤ ab.size := by
  have hW : WORD = 2 ^ 64 := rfl
  have h48 : sizeof_aux_buffer = 48 := rfl
  have hlastcur : buff.aux_buffers_age.getLast? = buff.cur_aux_buff := by
    cases hc : buff.cur_aux_buff with
    | none => rw [hI.age.empty hc]; rfl
    | some c => exact hI.age.last c hc
  have walk_case :
      ∃ b1 p ab, (match writer_walk size 0 buff.aux_buffers_age buff with
        | none => none
        | some (buff1, some p) => some (buff1, p)
        | some (buff1, none) => new_aux_buffer pg buff1 size) = some (b1, p) ∧ PoolInv b1 ∧
      b1.cur_aux_buff = some p ∧ b1.aux_buffers_age.getLast? = some p ∧
      b1.aux_shm[p]? = some ab ∧ ab.reusable = false ∧ ab.head + size ≤ ab.size := by
    obtain ⟨⟨bw, res⟩, hwalk⟩ := writer_walk_total size buff.aux_buffers_age 0 buff
      hI.age.valid hlastcur
    obtain ⟨_, wlen, _, wvec, _, wnone, wsome⟩ :=
      writer_walk_spec size buff.aux_buffers_age 0 buff bw res hwalk
    have wsegs := writer_walk_segs seg_ok seg_ok_reset seg_ok_clear size _ 0 _ _ _ hwalk hI.segs
    rw [hwalk]
    cases res with
    | some p =>
      obtain ⟨_, wperm, ab1, a1, a2, a3, a4⟩ := writer_walk_chosen seg_ok seg_ok_reset size
        buff.aux_buffers_age 0 buff bw (some p) [] rfl rfl hI.segs hwalk p rfl
      obtain ⟨c1, c2, _⟩ := wsome p rfl
      refine ⟨bw, p, _, rfl, ⟨⟨?_, ?_, ?_, ?_, ?_⟩, ?_, wsegs⟩, c1, c2, a4, rfl, ?_⟩
      · intro c hc
        rw [c1] at hc
        cases hc
        exact c2
      · intro hc
        rw [c1] at hc
        cases hc
      · rw [wvec]
        exact wperm.trans hI.age.perm
      · exact wperm.nodup_iff.2 hI.age.nodup
      · intro q hq
        rw [wlen]
        exact hI.age.valid q (wperm.mem_iff.1 hq)
      · intro c hc
        rw [c1] at hc
        cases hc
        exact ⟨_, a4, rfl⟩
      · show ab1.head + size ≤ ab1.size
        rw [a1.2.2.2 a2]
        omega
    | none =>
      obtain ⟨wcur, wage⟩ := wnone rfl
      have hsome : ∃ r, new_aux_buffer pg bw size = some r := by
        unfold new_aux_buffer
        rw [if_neg (by omega)]
        exact ⟨_, rfl⟩
      obtain ⟨⟨b1, p⟩, hnew⟩ := hsome
      obtain ⟨n1, n2, n3, n4, ab, n5, n6, n7, _, _, n8, n9⟩ := new_aux_buffer_pool hnew
      unfold fitting_request at hfit
      obtain ⟨hgt, hle⟩ := @aux_segment_length_gt pg size hpg hfit
      have hsz : ab.size = aux_segment_length pg size - sizeof_aux_buffer := by
        rw [n8]
        have : aux_segment_length pg size + WORD - sizeof_aux_buffer
            = (aux_segment_length pg size - sizeof_aux_buffer) + WORD := by omega
        rw [this, Nat.add_mod_right]
        exact Nat.mod_eq_of_lt (by omega)
      have hvalid : ∀ q ∈ bw.aux_buffers_age, q < bw.aux_shm.length := by
        intro q hq
        rw [wage] at hq
        rw [wlen]
        exact hI.age.valid q hq
      have hget : b1.aux_shm[p]? = some ab := by
        rw [n5, n1, List.getElem?_concat_length]
      refine ⟨b1, p, ab, hnew, ⟨⟨?_, ?_, ?_, ?_, ?_⟩, ?_, ?_⟩, n2, ?_, hget, n7, ?_⟩
      · intro c hc
        rw [n2] at hc
        cases hc
        rw [n3, List.getLast?_concat]
      · intro hc
        rw [n2] at hc
        cases hc
      · rw [n3, n4, wage, wvec]
        exact List.Perm.append_right _ hI.age.perm
      · rw [n3, wage]
        apply List.Nodup.append hI.age.nodup (List.nodup_singleton p)
        intro q hq hq2
        rw [List.mem_singleton] at hq2
        subst hq2
        have := hI.age.valid _ hq
        omega
      · intro q hq
        rw [n3, List.mem_append, List.mem_singleton] at hq
        rw [n5, List.length_append, List.length_singleton]
        rcases hq with hq | hq
        · have := hvalid q hq
          omega
        · omega
      · intro c hc
        rw [n2] at hc
        cases hc
        exact ⟨ab, hget, n7⟩
      · intro q abq hq
        rw [n5] at hq
        by_cases hql : q < bw.aux_shm.length
        · rw [List.getElem?_append_left hql] at hq
          exact wsegs q abq hq
        · have hq2 := hq
          rw [List.getElem?_append_right (by omega)] at hq2
          have hq0 : q - bw.aux_shm.length = 0 := by
            by_contra hne
            rw [List.getElem?_eq_none (by simp; omega)] at hq2
            cases hq2
          rw [hq0] at hq2
          simp only [List.getElem?_cons_zero, Option.some.injEq] at hq2
          subst hq2
          exact ⟨by omega, by omega, by omega, fun hc => by rw [n7] at hc; cases hc⟩
      · rw [n3, List.getLast?_concat]
      · omega
  unfold writer_get_aux_buffer
  cases hc : buff.cur_aux_buff with
  | none => exact walk_case
  | some c =>
    simp only []
    have hcmem : c ∈ buff.aux_buffers_age :=
      List.mem_of_getLast?_eq_some (hI.age.last c hc)
    obtain ⟨cur, hcur, hre⟩ := hI.cur c hc
    rw [hcur]
    simp only []
    by_cases hfree : aux_buffer_free_space cur < size
    · rw [if_pos hfree]
      exact walk_case
    · rw [if_neg hfree, if_neg (not_not.2 (hI.age.last c hc))]
      obtain ⟨s1, s2, s3, _⟩ := hI.segs c cur hcur
      refine ⟨buff, c, cur, rfl, hI, hc, hI.age.last c hc, hcur, hre, ?_⟩
      unfold aux_buffer_free_space at hfree
      have e : cur.size + WORD - cur.head = (cur.size - cur.head) + WORD := by omega
      rw [e, Nat.add_mod_right, Nat.mod_eq_of_lt (by omega)] at hfree
      omega

/-- On a pool whose age list is in order `writer_get_aux_buffer` returns, for
every request; the age list stays in order and the segment returned is the
current one, the last of the age list. -/
theorem writer_get_aux_buffer_age {pg size : Nat} {buff : buffer} (hA : AgeInv buff)
    (hpg : 0 < pg) :
    ∃ b1 p, writer_get_aux_buffer pg buff size = some (b1, p) ∧ AgeInv b1 ∧
      b1.cur_aux_buff = some p ∧ b1.aux_buffers_age.getLast? = b1.cur_aux_buff ∧
      p < b1.aux_shm.length := by
  have hlastcur : buff.aux_buffers_age.getLast? = buff.cur_aux_buff := by
    cases hc : buff.cur_aux_buff with
    | none => rw [hA.empty hc]; rfl
    | some c => exact hA.last c hc
  have walk_case :
      ∃ b1 p, (match writer_walk size 0 buff.aux_buffers_age buff with
        | none => none
        | some (buff1, some p) => some (buff1, p)
        | some (buff1, none) => new_aux_buffer pg buff1 size) = some (b1, p) ∧ AgeInv b1 ∧
      b1.cur_aux_buff = some p ∧ b1.aux_buffers_age.getLast? = b1.cur_aux_buff ∧
      p < b1.aux_shm.length := by
    obtain ⟨⟨bw, res⟩, hwalk⟩ := writer_walk_total size buff.aux_buffers_age 0 buff
      hA.valid hlastcur
    obtain ⟨_, wlen, _, wvec, _, wnone, wsome⟩ :=
      writer_walk_spec size buff.aux_buffers_age 0 buff bw res hwalk
    rw [hwalk]
    cases res with
    | some p =>
      obtain ⟨pmem, wperm, _⟩ := writer_walk_chosen (fun _ => True) (fun _ _ => trivial) size
        buff.aux_buffers_age 0 buff bw (some p) [] rfl rfl (fun _ _ _ => trivial) hwalk p rfl
      obtain ⟨c1, c2, _⟩ := wsome p rfl
      refine ⟨bw, p, rfl, ⟨?_, ?_, ?_, ?_, ?_⟩, c1, by rw [c1, c2], ?_⟩
      · intro c hc
        rw [c1] at hc
        cases hc
        exact c2
      · intro hc
        rw [c1] at hc
        cases hc
      · rw [wvec]
        exact wperm.trans hA.perm
      · exact wperm.nodup_iff.2 hA.nodup
      · intro q hq
        rw [wlen]
        exact hA.valid q (wperm.mem_iff.1 hq)
      · rw [wlen]
        exact hA.valid p pmem
    | none =>
      obtain ⟨wcur, wage⟩ := wnone rfl
      have hsome : ∃ r, new_aux_buffer pg bw size = some r := by
        unfold new_aux_buffer
        rw [if_neg (by omega)]
        exact ⟨_, rfl⟩
      obtain ⟨⟨b1, p⟩, hnew⟩ := hsome
      obtain ⟨n1, n2, n3, n4, ab, n5, _⟩ := new_aux_buffer_pool hnew
      have hvalid : ∀ q ∈ bw.aux_buffers_age, q < bw.aux_shm.length := by
        intro q hq
        rw [wage] at hq
        rw [wlen]
        exact hA.valid q hq
      refine ⟨b1, p, hnew, ⟨?_, ?_, ?_, ?_, ?_⟩, n2, ?_, ?_⟩
      · intro c hc
        rw [n2] at hc
        cases hc
        rw [n3, List.getLast?_concat]
      · intro hc
        rw [n2] at hc
        cases hc
      · rw [n3, n4, wage, wvec]
        exact List.Perm.append_right _ hA.perm
      · rw [n3, wage]
        apply List.Nodup.append hA.nodup (List.nodup_singleton p)
        intro q hq hq2
        rw [List.mem_singleton] at hq2
        subst hq2
        have := hA.valid _ hq
        omega
      · intro q hq
        rw [n3, List.mem_append, List.mem_singleton] at hq
        rw [n5, List.length_append, List.length_singleton]
        rcases hq with hq | hq
        · have := hvalid q hq
          omega
        · omega
      · rw [n2, n3, List.getLast?_concat]
      · rw [n5, List.length_append, List.length_singleton]
        omega
  unfold writer_get_aux_buffer
  cases hc : buff.cur_aux_buff with
  | none => exact walk_case
  | some c =>
    simp only []
    have hcmem : c ∈ buff.aux_buffers_age := List.mem_of_getLast?_eq_some (hA.last c hc)
    have hclt := hA.valid c hcmem
    rw [List.getElem?_eq_getElem hclt]
    simp only []
    split
    · exact walk_case
    · rw [if_neg (not_not.2 (hA.last c hc))]
      exact ⟨buff, c, rfl, hA, hc, by rw [hc]; exact hA.last c hc, hclt⟩

/-- The age list stays in order over `buffer_push_strn`. -/
theorem buffer_push_strn_age {pg len evid : Nat} {buff buff3 : buffer} {str : List Nat}
    {hd : Nat} (hA : AgeInv buff) (hpg : 0 < pg)
    (h : buffer_push_strn pg buff evid str len = some (buff3, hd)) : AgeInv buff3 := by
  obtain ⟨b2, off, p, ab, hp, _, _, rfl⟩ := buffer_push_strn_shape h
  obtain ⟨b1, p1, ab1, bytes, hw, _, _, _, _, _, _, rfl⟩ := _buffer_push_strn_shape hp
  obtain ⟨b1x, px, hwx, hA1, _⟩ := @writer_get_aux_buffer_age pg len buff hA hpg
  rw [hw] at hwx
  cases hwx
  exact ⟨hA1.last, hA1.empty, hA1.perm, hA1.nodup, fun q hq => by
    show q < ((b1.aux_shm.set p1 _).set p _).length
    rw [List.length_set, List.length_set]
    exact hA1.valid q hq⟩

/-- The age list stays in order over every call. -/
theorem step_age {pg : Nat} {b b1 : buffer} {op : Op} (hpg : 0 < pg) (hA : AgeInv b)
    (hs : step pg b op = some b1) : AgeInv b1 := by
  have frame : (b1.aux_shm = b.aux_shm ∧ b1.cur_aux_buff = b.cur_aux_buff ∧
      b1.aux_buffers = b.aux_buffers ∧ b1.aux_buffers_age = b.aux_buffers_age) → AgeInv b1 := by
    rintro ⟨f1, f2, f3, f4⟩
    exact ⟨by rw [f2, f4]; exact hA.last, by rw [f2, f4]; exact hA.empty,
      by rw [f3, f4]; exact hA.perm, by rw [f4]; exact hA.nodup,
      by rw [f1, f4]; exact hA.valid⟩
  cases op with
  | push elem size => exact frame (step_pool_frame hs (fun _ _ _ => ⟨by simp, by simp⟩))
  | pop => exact frame (step_pool_frame hs (fun _ _ _ => ⟨by simp, by simp⟩))
  | notify_dropped bg en => exact frame (step_pool_frame hs (fun _ _ _ => ⟨by simp, by simp⟩))
  | set_last_processed_id id =>
    exact frame (step_pool_frame hs (fun _ _ _ => ⟨by simp, by simp⟩))
  | push_str evid str =>
    obtain ⟨⟨b2, hd⟩, hp, he⟩ := Option.map_eq_some'.1 hs
    cases he
    obtain ⟨n, _, hstrn⟩ := buffer_push_str_handle hp
    exact buffer_push_strn_age hA hpg hstrn
  | push_strn evid str len =>
    obtain ⟨⟨b2, hd⟩, hp, he⟩ := Option.map_eq_some'.1 hs
    cases he
    exact buffer_push_strn_age hA hpg hp

/-- The age list is in order in every state of a run. -/
theorem run_age {pg : Nat} (hpg : 0 < pg) (ops : List Op) :
    ∀ (b b1 : buffer), AgeInv b → run pg b ops = some b1 → AgeInv b1 := by
  induction ops with
  | nil => intro b b1 hA h; cases h; exact hA
  | cons op ops ih =>
    intro b b1 hA h
    rw [run] at h
    split at h
    · cases h
    · rename_i b2 hstep
      exact ih b2 b1 (step_age hpg hA hstep) h

theorem ageInv_fresh (S E C : Nat) : AgeInv (fresh_shared_buffer S E C) :=
  ⟨fun c hc => (by cases hc), fun _ => rfl, List.Perm.refl _, List.nodup_nil,
    fun p hp => (by cases hp)⟩

theorem ageInv_once {b : buffer} (hA : AgeInv b) :
    ∀ p ∈ b.aux_buffers, b.aux_buffers_age.count p = 1 :=
  fun p hp => List.count_eq_one_of_mem hA.nodup (hA.perm.mem_iff.2 hp)

/-- C23: in every state that a producer reaches from a freshly created buffer
(with a positive page size), the current aux segment, when there is one, is the
last element of the age list, and every segment of the aux vector occurs
exactly once in the age list.  Hence `writer_get_aux_buffer` returns for every
request, which means that the assertions of its reuse branch and of its
use-current branch hold, and the segment it returns is the current one and the
last of the age list, which is what the assertions of `_buffer_push_strn`
test. -/
theorem C23_current_is_last_of_age_list (S E C pg : Nat) (hist : List Op) (b0 b : buffer)
    (hinit : initialize_shared_buffer S E C = some b0) (hpg : 0 < pg)
    (hrun : run pg b0 hist = some b) :
    (∀ (c : Nat), b.cur_aux_buff = some c → b.aux_buffers_age.getLast? = some c) ∧
    (∀ p ∈ b.aux_buffers, b.aux_buffers_age.count p = 1) ∧
    (∀ p ∈ b.aux_buffers_age, p ∈ b.aux_buffers) ∧
    (∀ (size : Nat), ∃ b1 p, writer_get_aux_buffer pg b size = some (b1, p) ∧
      b1.cur_aux_buff = some p ∧ b1.aux_buffers_age.getLast? = b1.cur_aux_buff ∧
      (∀ q ∈ b1.aux_buffers, b1.aux_buffers_age.count q = 1)) := by
  have hb0 : b0 = fresh_shared_buffer S E C := by
    unfold initialize_shared_buffer at hinit
    split at hinit
    · cases hinit
    · split at hinit
      · cases hinit
      · cases hinit; rfl
  have hA : AgeInv b := run_age hpg hist b0 b (by rw [hb0]; exact ageInv_fresh S E C) hrun
  refine ⟨hA.last, ageInv_once hA, fun p hp => hA.perm.mem_iff.1 hp, ?_⟩
  intro size
  obtain ⟨b1, p, h1, hA1, h2, h3, _⟩ := @writer_get_aux_buffer_age pg size b hA hpg
  exact ⟨b1, p, h1, h2, h3, ageInv_once hA1⟩

/-- The producer of the example, after one string was pushed. -/
theorem C23_current_is_last_of_age_list_witness :
    (∀ (c : Nat), (example_pushed).cur_aux_buff = some c →
      (example_pushed).aux_buffers_age.getLast? = some c) ∧
    (∀ p ∈ (example_pushed).aux_buffers, (example_pushed).aux_buffers_age.count p = 1) ∧
    (∀ p ∈ (example_pushed).aux_buffers_age, p ∈ (example_pushed).aux_buffers) ∧
    (∀ (size : Nat), ∃ b1 p, writer_get_aux_buffer 64 example_pushed size = some (b1, p) ∧
      b1.cur_aux_buff = some p ∧ b1.aux_buffers_age.getLast? = b1.cur_aux_buff ∧
      (∀ q ∈ b1.aux_buffers, b1.aux_buffers_age.count q = 1)) :=
  C23_current_is_last_of_age_list 320 16 4 64 [Op.push_str 7 hello]
    (fresh_shared_buffer 320 16 4) example_pushed rfl (by decide) rfl



/-- The write of `_buffer_push_strn` on a well-formed pool: it goes into the
room that `writer_get_aux_buffer` found, and the pool stays well-formed. -/
theorem _buffer_push_strn_pool {pg size : Nat} {buff : buffer} {data : List Nat}
    (hI : PoolInv buff) (hpg : 0 < pg) (hfit : fitting_request pg size)
    (hdata : size ≤ data.length) :
    ∃ b1 p ab, writer_get_aux_buffer pg buff size = some (b1, p) ∧
      b1.cur_aux_buff = some p ∧ b1.aux_shm[p]? = some ab ∧ ab.reusable = false ∧
      ab.head + size ≤ ab.size ∧ ab.data.length = ab.size ∧
      (¬ ab.head < 2 ^ 32 → _buffer_push_strn pg buff data size = none) ∧
      (ab.head < 2 ^ 32 → ∃ b2 ab2, _buffer_push_strn pg buff data size = some (b2, ab.head) ∧
        PoolInv b2 ∧ b2.cur_aux_buff = some p ∧ b2.aux_shm[p]? = some ab2 ∧
        ab2.head = ab.head + size ∧ ab2.head ≤ ab2.size ∧ ab2.size = ab.size ∧
        ab2.reusable = false ∧
        memread ab2.data ab.head size = some (data.take size) ∧
        ∀ (off n : Nat), off + n ≤ ab.head → memread ab2.data off n = memread ab.data off n) := by
  have hW : WORD = 2 ^ 64 := rfl
  obtain ⟨b1, p, ab, hw, hI1, hcur, hlast, hab, hre, hroom⟩ :=
    @writer_get_aux_buffer_post pg size buff hI hpg hfit
  obtain ⟨s1, s2, s3, s4⟩ := hI1.segs p ab hab
  refine ⟨b1, p, ab, hw, hcur, hab, hre, hroom, s2, ?_, ?_⟩
  · intro hoff
    unfold _buffer_push_strn
    rw [hw]
    simp only [hab]
    rw [if_neg (not_not.2 hcur), if_neg (by rw [hlast, hcur]; simp), if_pos hoff]
  · intro hoff
    have hcpy := @memcpy_isSome ab.data data ab.head size (by rw [s2]; exact hroom) hdata
    have hplt : p < b1.aux_shm.length := (List.getElem?_eq_some_iff.1 hab).1
    have hget : ∀ (x : aux_buffer), (b1.aux_shm.set p x)[p]? = some x := by
      intro x
      rw [List.getElem?_set, if_pos rfl, if_pos hplt]
    refine ⟨{ b1 with
        aux_shm := b1.aux_shm.set p
          { ab with
            data := ab.data.take ab.head ++ data.take size ++ ab.data.drop (ab.head + size),
            head := (ab.head + size) % WORD } },
      { ab with
        data := ab.data.take ab.head ++ data.take size ++ ab.data.drop (ab.head + size),
        head := (ab.head + size) % WORD }, ?_, ?_, hcur, ?_, ?_, ?_, rfl, hre, ?_, ?_⟩
    · unfold _buffer_push_strn
      rw [hw]
      simp only [hab, hcpy]
      rw [if_neg (not_not.2 hcur), if_neg (by rw [hlast, hcur]; simp),
        if_neg (not_not.2 hoff)]
    · refine ⟨⟨hI1.age.last, hI1.age.empty, hI1.age.perm, hI1.age.nodup, ?_⟩, ?_, ?_⟩
      · intro q hq
        show q < (b1.aux_shm.set p _).length
        rw [List.length_set]
        exact hI1.age.valid q hq
      · intro c hc
        have hc2 : b1.cur_aux_buff = some c := hc
        rw [hcur] at hc2
        cases hc2
        exact ⟨_, hget _, hre⟩
      · show ∀ (q : Nat) (abq : aux_buffer), (b1.aux_shm.set p _)[q]? = some abq → seg_ok abq
        refine set_segs hI1.segs ⟨?_, ?_, s3, ?_⟩
        · show (ab.head + size) % WORD ≤ ab.size
          rw [Nat.mod_eq_of_lt (by omega)]
          exact hroom
        · show (ab.data.take ab.head ++ data.take size ++ ab.data.drop (ab.head + size)).length
            = ab.size
          rw [← s2, ← memcpy_length hcpy]
        · intro hc
          have hc2 : ab.reusable = true := hc
          rw [hre] at hc2
          cases hc2
    · exact hget _
    · show (ab.head + size) % WORD = ab.head + size
      exact Nat.mod_eq_of_lt (by omega)
    · show (ab.head + size) % WORD ≤ ab.size
      rw [Nat.mod_eq_of_lt (by omega)]
      exact hroom
    · exact memread_memcpy_exact hcpy
    · intro off n hon
      exact memread_memcpy_disjoint hcpy (Or.inl hon)

/-- The pool stays well-formed over `buffer_push_strn`. -/
theorem buffer_push_strn_pool {pg len evid : Nat} {buff buff3 : buffer} {str : List Nat}
    {hd : Nat} (hI : PoolInv buff) (hpg : 0 < pg) (hfit : fitting_request pg len)
    (h : buffer_push_strn pg buff evid str len = some (buff3, hd)) : PoolInv buff3 := by
  obtain ⟨b2, off, p, ab, hp, hcur, hab, rfl⟩ := buffer_push_strn_shape h
  obtain ⟨_, _, ab1, bytes, _, _, _, _, _, hoff1, hcpy, _⟩ := _buffer_push_strn_shape hp
  obtain ⟨_, hsrc⟩ := memcpy_bounds hcpy
  obtain ⟨b1, p1, ab0, hw, _, _, _, _, _, hnone, hsome⟩ :=
    @_buffer_push_strn_pool pg len buff str hI hpg hfit hsrc
  have hlt : ab0.head < 2 ^ 32 := by
    by_contra hc
    rw [hnone hc] at hp
    cases hp
  obtain ⟨b2x, ab2, hpx, hI2, hcur2, hab2, _, _, _, hre2, _⟩ := hsome hlt
  rw [hp] at hpx
  cases hpx
  rw [hcur] at hcur2
  cases hcur2
  rw [hab] at hab2
  cases hab2
  obtain ⟨t1, t2, t3, t4⟩ := hI2.segs p ab hab
  have hplt : p < b2.aux_shm.length := (List.getElem?_eq_some_iff.1 hab).1
  refine ⟨⟨hI2.age.last, hI2.age.empty, hI2.age.perm, hI2.age.nodup, ?_⟩, ?_, ?_⟩
  · intro q hq
    show q < (b2.aux_shm.set p _).length
    rw [List.length_set]
    exact hI2.age.valid q hq
  · intro c hc
    have hc2 : b2.cur_aux_buff = some c := hc
    rw [hcur] at hc2
    cases hc2
    refine ⟨_, by
      show (b2.aux_shm.set p _)[p]? = _
      rw [List.getElem?_set, if_pos rfl, if_pos hplt], ?_⟩
    show (if ab.first_event_id = 0 then { ab with first_event_id := evid } else ab).reusable
      = false
    split <;> exact hre2
  · show ∀ (q : Nat) (abq : aux_buffer), (b2.aux_shm.set p _)[q]? = some abq → seg_ok abq
    refine set_segs hI2.segs ?_
    show seg_ok { (if ab.first_event_id = 0 then { ab with first_event_id := evid } else ab) with
      last_event_id := evid }
    split <;> exact ⟨t1, t2, t3, t4⟩

/-- The pool stays well-formed over one call with a fitting request. -/
theorem step_pool {pg : Nat} {b b1 : buffer} {op : Op} (hpg : 0 < pg) (hI : PoolInv b)
    (hop : fitting_op pg op) (hs : step pg b op = some b1) : PoolInv b1 := by
  have frame : (b1.aux_shm = b.aux_shm ∧ b1.cur_aux_buff = b.cur_aux_buff ∧
      b1.aux_buffers = b.aux_buffers ∧ b1.aux_buffers_age = b.aux_buffers_age) → PoolInv b1 := by
    rintro ⟨f1, f2, f3, f4⟩
    refine ⟨⟨by rw [f2, f4]; exact hI.age.last, by rw [f2, f4]; exact hI.age.empty,
      by rw [f3, f4]; exact hI.age.perm, by rw [f4]; exact hI.age.nodup,
      by rw [f1, f4]; exact hI.age.valid⟩, ?_, by rw [f1]; exact hI.segs⟩
    intro c hc
    rw [f2] at hc
    rw [f1]
    exact hI.cur c hc
  cases op with
  | push elem size => exact frame (step_pool_frame hs (fun _ _ _ => ⟨by simp, by simp⟩))
  | pop => exact frame (step_pool_frame hs (fun _ _ _ => ⟨by simp, by simp⟩))
  | notify_dropped bg en => exact frame (step_pool_frame hs (fun _ _ _ => ⟨by simp, by simp⟩))
  | set_last_processed_id id =>
    exact frame (step_pool_frame hs (fun _ _ _ => ⟨by simp, by simp⟩))
  | push_str evid str =>
    obtain ⟨⟨b2, hd⟩, hp, he⟩ := Option.map_eq_some'.1 hs
    cases he
    obtain ⟨n, hn, hstrn⟩ := buffer_push_str_handle hp
    have hf : fitting_request pg (n + 1) := hop n hn
    have hW : WORD = 2 ^ 64 := rfl
    have hmod : (n + 1) % WORD = n + 1 := by
      unfold fitting_request at hf
      exact Nat.mod_eq_of_lt (by omega)
    rw [hmod] at hstrn
    exact buffer_push_strn_pool hI hpg hf hstrn
  | push_strn evid str len =>
    obtain ⟨⟨b2, hd⟩, hp, he⟩ := Option.map_eq_some'.1 hs
    cases he
    exact buffer_push_strn_pool hI hpg hop hp

/-- The pool is well-formed in every state of a run of fitting requests. -/
theorem run_pool {pg : Nat} (hpg : 0 < pg) (ops : List Op) :
    ∀ (b b1 : buffer), PoolInv b → (∀ op ∈ ops, fitting_op pg op) →
      run pg b ops = some b1 → PoolInv b1 := by
  induction ops with
  | nil => intro b b1 hI _ h; cases h; exact hI
  | cons op ops ih =>
    intro b b1 hI hops h
    rw [run] at h
    split at h
    · cases h
    · rename_i b2 hstep
      exact ih b2 b1 (step_pool hpg hI (hops op (List.mem_cons_self _ _)) hstep)
        (fun o ho => hops o (List.mem_cons_of_mem _ ho)) h

theorem poolInv_fresh (S E C : Nat) : PoolInv (fresh_shared_buffer S E C) :=
  ⟨ageInv_fresh S E C, fun c hc => (by cases hc), fun p ab h => (by simp [fresh_shared_buffer] at h)⟩

/-- C27: in every producer state reached from a fresh buffer by calls whose
requests fit the word, every aux segment has `head <= size`.  For every such
request of `s` bytes `writer_get_aux_buffer` returns a segment that is the
current one, has its reusable flag cleared and satisfies `head + s <= size`,
where `size` is the length of its data area.  So the `memcpy` of
`_buffer_push_strn`, once the assertion on the offset has passed, writes the
`s` bytes at `head` inside the data area, leaves the bytes below the old head
as they were, and moves the head to `head + s <= size`. -/
theorem C27_writer_postcondition (S E C pg : Nat) (hist : List Op) (b0 b : buffer)
    (s : Nat) (hinit : initialize_shared_buffer S E C = some b0) (hpg : 0 < pg)
    (hrun : run pg b0 hist = some b) (hops : ∀ op ∈ hist, fitting_op pg op)
    (hfit : fitting_request pg s) :
    (∀ (q : Nat) (ab : aux_buffer), b.aux_shm[q]? = some ab →
      ab.head ≤ ab.size ∧ ab.data.length = ab.size) ∧
    ∃ b1 p ab, writer_get_aux_buffer pg b s = some (b1, p) ∧ b1.cur_aux_buff = some p ∧
      b1.aux_shm[p]? = some ab ∧ ab.reusable = false ∧ ab.head + s ≤ ab.size ∧
      ab.data.length = ab.size ∧
      ∀ (data : List Nat), s ≤ data.length → ab.head < 2 ^ 32 →
        ∃ b2 ab2, _buffer_push_strn pg b data s = some (b2, ab.head) ∧
          b2.cur_aux_buff = some p ∧ b2.aux_shm[p]? = some ab2 ∧
          ab2.head = ab.head + s ∧ ab2.head ≤ ab2.size ∧ ab2.size = ab.size ∧
          memread ab2.data ab.head s = some (data.take s) ∧
          (∀ (off n : Nat), off + n ≤ ab.head →
            memread ab2.data off n = memread ab.data off n) ∧
          ∀ (q : Nat) (abq : aux_buffer), b2.aux_shm[q]? = some abq → abq.head ≤ abq.size := by
  have hb0 : b0 = fresh_shared_buffer S E C := by
    unfold initialize_shared_buffer at hinit
    split at hinit
    · cases hinit
    · split at hinit
      · cases hinit
      · cases hinit; rfl
  have hI : PoolInv b := run_pool hpg hist b0 b (by rw [hb0]; exact poolInv_fresh S E C) hops hrun
  refine ⟨fun q ab hq => ⟨(hI.segs q ab hq).1, (hI.segs q ab hq).2.1⟩, ?_⟩
  obtain ⟨b1, p, ab, hw, hI1, hcur, _, hab, hre, hroom⟩ :=
    @writer_get_aux_buffer_post pg s b hI hpg hfit
  refine ⟨b1, p, ab, hw, hcur, hab, hre, hroom, (hI1.segs p ab hab).2.1, ?_⟩
  intro data hdata hoff
  obtain ⟨b1x, px, abx, hwx, _, habx, _, _, _, _, hsome⟩ :=
    @_buffer_push_strn_pool pg s b data hI hpg hfit hdata
  rw [hw] at hwx
  cases hwx
  rw [hab] at habx
  cases habx
  obtain ⟨b2, ab2, h1, hI2, h2, h3, h4, h5, h6, _, h7, h8⟩ := hsome hoff
  exact ⟨b2, ab2, h1, h2, h3, h4, h5, h6, h7, h8, fun q abq hq => (hI2.segs q abq hq).1⟩

/-- The producer of the example asks for 100 bytes. -/
theorem C27_writer_postcondition_witness :
    (∀ (q : Nat) (ab : aux_buffer), (example_pushed).aux_shm[q]? = some ab →
      ab.head ≤ ab.size ∧ ab.data.length = ab.size) ∧
    ∃ b1 p ab, writer_get_aux_buffer 64 example_pushed 100 = some (b1, p) ∧
      b1.cur_aux_buff = some p ∧
      b1.aux_shm[p]? = some ab ∧ ab.reusable = false ∧ ab.head + 100 ≤ ab.size ∧
      ab.data.length = ab.size ∧
      ∀ (data : List Nat), 100 ≤ data.length → ab.head < 2 ^ 32 →
        ∃ b2 ab2, _buffer_push_strn 64 example_pushed data 100 = some (b2, ab.head) ∧
          b2.cur_aux_buff = some p ∧ b2.aux_shm[p]? = some ab2 ∧
          ab2.head = ab.head + 100 ∧ ab2.head ≤ ab2.size ∧ ab2.size = ab.size ∧
          memread ab2.data ab.head 100 = some (data.take 100) ∧
          (∀ (off n : Nat), off + n ≤ ab.head →
            memread ab2.data off n = memread ab.data off n) ∧
          ∀ (q : Nat) (abq : aux_buffer), b2.aux_shm[q]? = some abq → abq.head ≤ abq.size :=
  C27_writer_postcondition 320 16 4 64 [Op.push_str 7 hello] (fresh_shared_buffer 320 16 4)
    example_pushed 100 rfl (by decide) rfl
    (fun op hop => by
      rw [List.mem_singleton] at hop
      subst hop
      intro n hn
      have e : strlen hello = some 5 := by decide
      rw [e] at hn
      cases hn
      unfold fitting_request
      decide)
    (by unfold fitting_request; decide)


/-! ## The event ids of the aux segments (C28) -/


/-- A property of single segments that the reset block and the clearing of the
reusable flag keep, and that fresh segments have, is kept by
`writer_get_aux_buffer`. -/
theorem writer_get_aux_buffer_pred (P : aux_buffer → Prop)
    (hreset : ∀ ab, P ab → P (aux_reset ab))
    (hclear : ∀ ab, P ab → P { ab with reusable := false })
    (hnew : ∀ ab, ab.first_event_id = 0 → ab.head = 0 → P ab)
    {pg size : Nat} {buff buff1 : buffer} {p : Nat}
    (h : writer_get_aux_buffer pg buff size = some (buff1, p))
    (hP : ∀ (q : Nat) (ab : aux_buffer), buff.aux_shm[q]? = some ab → P ab) :
    ∀ (q : Nat) (ab : aux_buffer), buff1.aux_shm[q]? = some ab → P ab := by
  have walk_case : ∀ {r : Option (buffer × Option Nat)},
      writer_walk size 0 buff.aux_buffers_age buff = r →
      (match r with
        | none => none
        | some (buff1, some p) => some (buff1, p)
        | some (buff1, none) => new_aux_buffer pg buff1 size) = some (buff1, p) →
      ∀ (q : Nat) (ab : aux_buffer), buff1.aux_shm[q]? = some ab → P ab := by
    intro r hr hm
    split at hm
    · cases hm
    · rename_i b2 p2
      cases hm
      exact writer_walk_segs P hreset hclear size _ 0 _ _ _ hr hP
    · rename_i b2
      have hP2 := writer_walk_segs P hreset hclear size _ 0 _ _ _ hr hP
      obtain ⟨_, _, _, _, ab0, n5, n6, _, n7, _⟩ := new_aux_buffer_pool hm
      intro q ab hq
      rw [n5] at hq
      by_cases hql : q < b2.aux_shm.length
      · rw [List.getElem?_append_left hql] at hq
        exact hP2 q ab hq
      · have hq2 := hq
        rw [List.getElem?_append_right (by omega)] at hq2
        have hq0 : q - b2.aux_shm.length = 0 := by
          by_contra hne
          rw [List.getElem?_eq_none (by simp; omega)] at hq2
          cases hq2
        rw [hq0] at hq2
        simp only [List.getElem?_cons_zero, Option.some.injEq] at hq2
        subst hq2
        exact hnew _ n7 n6
  unfold writer_get_aux_buffer at h
  split at h
  · exact walk_case rfl h
  · split at h
    · cases h
    · split at h
      · exact walk_case rfl h
      · split at h
        · cases h
        · cases h
          exact hP

theorem wm_keeps_refl (ab : aux_buffer) : wm_keeps ab ab :=
  ⟨Nat.le_refl _, fun _ _ => ⟨rfl, Nat.le_refl _⟩⟩

theorem wm_keeps_trans {a b c : aux_buffer} (h1 : wm_keeps a b) (h2 : wm_keeps b c) :
    wm_keeps a c := by
  obtain ⟨g1, k1⟩ := h1
  obtain ⟨g2, k2⟩ := h2
  refine ⟨Nat.le_trans g1 g2, ?_⟩
  intro hg hf
  have hg1 : b.generation = a.generation := by omega
  have hg2 : c.generation = b.generation := by omega
  obtain ⟨f1, l1⟩ := k1 hg1 hf
  obtain ⟨f2, l2⟩ := k2 hg2 (by rw [f1]; exact hf)
  exact ⟨by rw [f2, f1], Nat.le_trans l1 l2⟩

theorem wm_keeps_of_walk {info : buffer_info} {ab ab1 : aux_buffer}
    (h : walk_rel info ab ab1) : wm_keeps ab ab1 := by
  obtain ⟨_, _, _, hg, hcase⟩ := h
  refine ⟨hg, ?_⟩
  intro hgen _
  rcases hcase with ⟨_, _, hf, hl, _⟩ | ⟨hlt, _⟩
  · exact ⟨hf, by rw [hl]⟩
  · omega

theorem wm_ok_mono {m e : Nat} (hme : m ≤ e) {ab : aux_buffer} (h : wm_ok m ab) : wm_ok e ab :=
  fun hf => ⟨(h hf).1, Nat.le_trans (h hf).2 hme⟩

/-- What a string push with the event id `e` does to the watermarks, when `e` is
at least 1 and at least every id pushed before. -/
theorem buffer_push_strn_wm {pg len e m : Nat} {buff buff3 : buffer} {str : List Nat}
    {hd : Nat} (hP : ∀ (q : Nat) (ab : aux_buffer), buff.aux_shm[q]? = some ab → wm_ok m ab)
    (he : 1 ≤ e) (hme : m ≤ e)
    (h : buffer_push_strn pg buff e str len = some (buff3, hd)) :
    (∀ (q : Nat) (ab : aux_buffer), buff3.aux_shm[q]? = some ab → wm_ok e ab) ∧
    (∀ (q : Nat) (ab : aux_buffer), buff.aux_shm[q]? = some ab →
      ∃ ab3, buff3.aux_shm[q]? = some ab3 ∧ wm_keeps ab ab3) ∧
    ∃ p ab3, buff3.cur_aux_buff = some p ∧ buff3.aux_shm[p]? = some ab3 ∧
      ab3.first_event_id ≠ 0 ∧ ab3.first_event_id ≤ e ∧ ab3.last_event_id = e := by
  obtain ⟨b2, off, p, ab, hp, hcur, hab, rfl⟩ := buffer_push_strn_shape h
  obtain ⟨b1, p1, ab1, bytes, hw, hcur1, _, hab1, _, _, _, rfl⟩ := _buffer_push_strn_shape hp
  have hcur2 : b1.cur_aux_buff = some p := hcur
  rw [hcur1] at hcur2
  cases hcur2
  have hplt : p < b1.aux_shm.length := (List.getElem?_eq_some_iff.1 hab1).1
  have hab2 : (b1.aux_shm.set p { ab1 with data := bytes, head := (ab1.head + len) % WORD })[p]?
      = some ab := hab
  rw [List.getElem?_set, if_pos rfl, if_pos hplt] at hab2
  cases hab2
  have hP1 := writer_get_aux_buffer_pred (wm_ok m)
    (fun ab _ hf => absurd rfl hf) (fun ab hx => hx) (fun ab h0 _ hf => absurd h0 hf) hw hP
  obtain ⟨_, _, hrel, _⟩ := writer_get_aux_buffer_spec hw
  have hw1 : wm_ok m ab1 := hP1 p ab1 hab1
  -- the segment written to
  generalize hnew : ({ (if ab1.first_event_id = 0 then
      { ({ ab1 with data := bytes, head := (ab1.head + len) % WORD } : aux_buffer) with
        first_event_id := e }
      else ({ ab1 with data := bytes, head := (ab1.head + len) % WORD } : aux_buffer)) with
      last_event_id := e } : aux_buffer) = abn
  have hfacts : abn.generation = ab1.generation ∧ abn.last_event_id = e ∧
      abn.first_event_id = (if ab1.first_event_id = 0 then e else ab1.first_event_id) := by
    rw [← hnew]
    by_cases h0 : ab1.first_event_id = 0
    · rw [if_pos h0, if_pos h0]
      exact ⟨rfl, rfl, rfl⟩
    · rw [if_neg h0, if_neg h0]
      exact ⟨rfl, rfl, rfl⟩
  obtain ⟨fg, fl, ff⟩ := hfacts
  have hget3 : ∀ (q : Nat), ((b1.aux_shm.set p
      { ab1 with data := bytes, head := (ab1.head + len) % WORD }).set p abn)[q]?
      = if p = q then some abn else b1.aux_shm[q]? := by
    intro q
    by_cases hq : p = q
    · subst hq
      rw [List.getElem?_set, if_pos rfl, if_pos (by rw [List.length_set]; exact hplt), if_pos rfl]
    · rw [List.getElem?_set_ne hq, List.getElem?_set_ne hq, if_neg hq]
  have hwn : wm_ok e abn := by
    intro hf
    rw [fl, ff]
    by_cases h0 : ab1.first_event_id = 0
    · rw [if_pos h0]; exact ⟨Nat.le_refl _, Nat.le_refl _⟩
    · rw [if_neg h0]
      exact ⟨Nat.le_trans (hw1 h0).1 (Nat.le_trans (hw1 h0).2 hme), Nat.le_refl _⟩
  have hkn : wm_keeps ab1 abn := by
    refine ⟨by rw [fg], ?_⟩
    intro _ hf
    rw [fl, ff, if_neg hf]
    exact ⟨rfl, Nat.le_trans (hw1 hf).2 hme⟩
  refine ⟨?_, ?_, p, abn, hcur1, ?_, ?_, ?_, fl⟩
  · intro q abq hq
    have hq2 : ((b1.aux_shm.set p
        { ab1 with data := bytes, head := (ab1.head + len) % WORD }).set p abn)[q]?
        = some abq := hq
    rw [hget3 q] at hq2
    by_cases hpq : p = q
    · rw [if_pos hpq] at hq2
      cases hq2
      exact hwn
    · rw [if_neg hpq] at hq2
      exact wm_ok_mono hme (hP1 q abq hq2)
  · intro q abq hq
    obtain ⟨abw, hqw, hrw⟩ := hrel q abq hq
    by_cases hpq : p = q
    · subst hpq
      rw [hab1] at hqw
      cases hqw
      refine ⟨abn, ?_, wm_keeps_trans (wm_keeps_of_walk hrw) hkn⟩
      have := hget3 p
      rw [if_pos rfl] at this
      exact this
    · refine ⟨abw, ?_, wm_keeps_of_walk hrw⟩
      have := hget3 q
      rw [if_neg hpq, hqw] at this
      exact this
  · have := hget3 p
    rw [if_pos rfl] at this
    exact this
  · rw [ff]
    split <;> omega
  · rw [ff]
    split
    · exact Nat.le_refl _
    · rename_i h0
      exact Nat.le_trans (hw1 h0).1 (Nat.le_trans (hw1 h0).2 hme)

/-- The watermarks over a history whose event ids are in order. -/
theorem run_wm {pg : Nat} (ops : List Op) :
    ∀ (m : Nat) (b b1 : buffer),
      (∀ (q : Nat) (ab : aux_buffer), b.aux_shm[q]? = some ab → wm_ok m ab) →
      ids_ok m ops → run pg b ops = some b1 →
      (∀ (q : Nat) (ab : aux_buffer), b1.aux_shm[q]? = some ab → wm_ok (last_id m ops) ab) ∧
      (∀ (q : Nat) (ab : aux_buffer), b.aux_shm[q]? = some ab →
        ∃ ab1, b1.aux_shm[q]? = some ab1 ∧ wm_keeps ab ab1) := by
  induction ops with
  | nil =>
    intro m b b1 hP _ h
    cases h
    exact ⟨hP, fun q ab hq => ⟨ab, hq, wm_keeps_refl ab⟩⟩
  | cons op ops ih =>
    intro m b b1 hP hids h
    rw [run] at h
    split at h
    · cases h
    · rename_i b2 hstep
      have frame : (∀ evid str len, op ≠ Op.push_str evid str ∧ op ≠ Op.push_strn evid str len) →
          ids_ok m ops → last_id m (op :: ops) = last_id m ops →
          (∀ (q : Nat) (ab : aux_buffer), b1.aux_shm[q]? = some ab →
            wm_ok (last_id m (op :: ops)) ab) ∧
          (∀ (q : Nat) (ab : aux_buffer), b.aux_shm[q]? = some ab →
            ∃ ab1, b1.aux_shm[q]? = some ab1 ∧ wm_keeps ab ab1) := by
        intro hne hids2 hlast
        obtain ⟨f1, _⟩ := step_pool_frame hstep hne
        rw [hlast]
        have := ih m b2 b1 (by rw [f1]; exact hP) hids2 h
        rw [f1] at this
        exact this
      have strn : ∀ (e len : Nat) (str : List Nat) (hd : Nat),
          buffer_push_strn pg b e str len = some (b2, hd) → 1 ≤ e → m ≤ e → ids_ok e ops →
          last_id m (op :: ops) = last_id e ops →
          (∀ (q : Nat) (ab : aux_buffer), b1.aux_shm[q]? = some ab →
            wm_ok (last_id m (op :: ops)) ab) ∧
          (∀ (q : Nat) (ab : aux_buffer), b.aux_shm[q]? = some ab →
            ∃ ab1, b1.aux_shm[q]? = some ab1 ∧ wm_keeps ab ab1) := by
        intro e len str hd hp he hme hids2 hlast
        obtain ⟨w1, w2, _⟩ := buffer_push_strn_wm hP he hme hp
        obtain ⟨r1, r2⟩ := ih e b2 b1 w1 hids2 h
        rw [hlast]
        refine ⟨r1, ?_⟩
        intro q ab hq
        obtain ⟨ab2, hq2, k2⟩ := w2 q ab hq
        obtain ⟨ab3, hq3, k3⟩ := r2 q ab2 hq2
        exact ⟨ab3, hq3, wm_keeps_trans k2 k3⟩
      cases op with
      | push elem size => exact frame (fun _ _ _ => ⟨by simp, by simp⟩) hids rfl
      | pop => exact frame (fun _ _ _ => ⟨by simp, by simp⟩) hids rfl
      | notify_dropped bg en => exact frame (fun _ _ _ => ⟨by simp, by simp⟩) hids rfl
      | set_last_processed_id id => exact frame (fun _ _ _ => ⟨by simp, by simp⟩) hids rfl
      | push_str evid str =>
        obtain ⟨⟨b3, hd⟩, hp, he⟩ := Option.map_eq_some'.1 hstep
        cases he
        obtain ⟨n, _, hstrn⟩ := buffer_push_str_handle hp
        exact strn evid _ str hd hstrn hids.1 hids.2.1 hids.2.2 rfl
      | push_strn evid str len =>
        obtain ⟨⟨b3, hd⟩, hp, he⟩ := Option.map_eq_some'.1 hstep
        cases he
        exact strn evid len str hd hp hids.1 hids.2.1 hids.2.2 rfl

/-- C28: let the string pushes of a producer carry event ids that are at least 1
and never go down.  Then in every state reached from a fresh buffer, every aux
segment with `first_event_id > 0` has `first_event_id <= last_event_id`; and
when a string was pushed with the event id `e` into a segment, then in every
later state in which the reset block has not run on that segment since, the
segment has `0 < first_event_id <= e <= last_event_id`. -/
theorem C28_event_id_watermarks (S E C pg : Nat) (hist later : List Op) (b0 b b1 b2 : buffer)
    (e : Nat) (str : List Nat) (len h p : Nat)
    (hinit : initialize_shared_buffer S E C = some b0) (hrun : run pg b0 hist = some b)
    (hids : ids_ok 0 hist) (he : 1 ≤ e) (hme : last_id 0 hist ≤ e)
    (hpush : buffer_push_strn pg b e str len = some (b1, h) ∨
      buffer_push_str pg b e str = some (b1, h))
    (hcur : b1.cur_aux_buff = some p) (hlater : run pg b1 later = some b2)
    (hids2 : ids_ok e later) :
    (∀ (q : Nat) (ab : aux_buffer), b2.aux_shm[q]? = some ab → 0 < ab.first_event_id →
      ab.first_event_id ≤ ab.last_event_id) ∧
    ∃ ab1 ab2, b1.aux_shm[p]? = some ab1 ∧ b2.aux_shm[p]? = some ab2 ∧
      0 < ab1.first_event_id ∧ ab1.first_event_id ≤ e ∧ ab1.last_event_id = e ∧
      (ab2.generation = ab1.generation →
        0 < ab2.first_event_id ∧ ab2.first_event_id ≤ e ∧ e ≤ ab2.last_event_id) := by
  have hb0 : b0 = fresh_shared_buffer S E C := by
    unfold initialize_shared_buffer at hinit
    split at hinit
    · cases hinit
    · split at hinit
      · cases hinit
      · cases hinit; rfl
  have h0 : ∀ (q : Nat) (ab : aux_buffer), b0.aux_shm[q]? = some ab → wm_ok 0 ab := by
    intro q ab hq
    rw [hb0] at hq
    simp [fresh_shared_buffer] at hq
  obtain ⟨hP, _⟩ := run_wm hist 0 b0 b h0 hids hrun
  have hstrn : ∃ len, buffer_push_strn pg b e str len = some (b1, h) := by
    rcases hpush with hp | hp
    · exact ⟨len, hp⟩
    · obtain ⟨n, _, hn⟩ := buffer_push_str_handle hp
      exact ⟨_, hn⟩
  obtain ⟨len1, hp⟩ := hstrn
  obtain ⟨w1, _, p1, ab1, hcur1, hab1, f1, f2, f3⟩ := buffer_push_strn_wm hP he hme hp
  rw [hcur] at hcur1
  cases hcur1
  obtain ⟨r1, r2⟩ := run_wm later e b1 b2 w1 hids2 hlater
  obtain ⟨ab2, hab2, k1, k2⟩ := r2 p ab1 hab1
  refine ⟨?_, ab1, ab2, hab1, hab2, by omega, f2, f3, ?_⟩
  · intro q ab hq hpos
    exact (r1 q ab hq (by omega)).1
  · intro hg
    obtain ⟨e1, e2⟩ := k2 hg f1
    rw [e1]
    exact ⟨by omega, f2, by rw [← f3]; exact e2⟩

set_option maxRecDepth 100000 in
/-- The string `"hello"` is pushed with event id 7 on a fresh buffer; a second
string with event id 8 follows, and the consumer reports event 5. -/
theorem C28_event_id_watermarks_witness :
    (∀ (q : Nat) (ab : aux_buffer), (example_later).aux_shm[q]? = some ab →
      0 < ab.first_event_id → ab.first_event_id ≤ ab.last_event_id) ∧
    ∃ ab1 ab2, (example_pushed).aux_shm[0]? = some ab1 ∧ (example_later).aux_shm[0]? = some ab2 ∧
      0 < ab1.first_event_id ∧ ab1.first_event_id ≤ 7 ∧ ab1.last_event_id = 7 ∧
      (ab2.generation = ab1.generation →
        0 < ab2.first_event_id ∧ ab2.first_event_id ≤ 7 ∧ 7 ≤ ab2.last_event_id) :=
  C28_event_id_watermarks 320 16 4 64 [] [Op.push_str 8 hello, Op.set_last_processed_id 5]
    (fresh_shared_buffer 320 16 4) (fresh_shared_buffer 320 16 4) example_pushed example_later
    7 hello 6 0 0 rfl rfl trivial (by decide) (by decide) (Or.inr rfl) rfl rfl
    (by simp [ids_ok])


end Shamon
